import Mathlib

/-!
# iotServer: chart geometry, device liveness and the ingest handler

A shallow embedding of `src/iotServer/handlers.go`.

* `float64` is modelled bit-faithfully as IEEE 754 binary64 with round-to-nearest,
  ties-to-even: a value is `nan`, an infinity, or a sign together with a rational magnitude
  that is a fixed point of `rndMag`.  Every arithmetic operation rounds once, as the
  compiler emits it on amd64 (no fused multiply-add).
* `time.Duration` is a signed 64-bit count of nanoseconds, `time.Time` an instant in
  nanoseconds; `time.Since` saturates as `Time.Sub` does.
* The storage handle, the JSON decoder, the digest and the clock are inputs of the
  functions that use them.
-/

namespace IotServer

/-! ## IEEE 754 binary64 -/

/-- A `float64`: not-a-number, a signed infinity, or sign and magnitude of a finite value
(the two zeros are `fin false 0` and `fin true 0`). -/
inductive F64 where
  | nan : F64
  | inf (neg : Bool) : F64
  | fin (neg : Bool) (mag : ℚ) : F64
  deriving DecidableEq

namespace F64

/-- Binary logarithm by halving, with the argument itself as fuel. -/
def log2Fuel : Nat → Nat → Nat
  | 0, _ => 0
  | fuel + 1, n => if n < 2 then 0 else log2Fuel fuel (n / 2) + 1

/-- Binary logarithm of `n < 2 ^ 2 ^ j` by bisection on the exponent. -/
def log2Bits : Nat → Nat → Nat
  | 0, _ => 0
  | j + 1, n =>
    if 2 ^ 2 ^ j ≤ n then 2 ^ j + log2Bits j (n / 2 ^ 2 ^ j) else log2Bits j n

/-- Floor of the binary logarithm of a positive natural number. -/
def natLog2 (n : Nat) : Nat :=
  if n < 2 ^ 2 ^ 12 then log2Bits 12 n else log2Fuel n n

/-- The rational `2 ^ e`. -/
@[irreducible] def pow2 (e : ℤ) : ℚ :=
  if 0 ≤ e then ((2 ^ e.toNat : ℕ) : ℚ) else 1 / ((2 ^ (-e).toNat : ℕ) : ℚ)

/-- Floor of the binary logarithm of a positive rational. -/
def ilog2 (q : ℚ) : ℤ :=
  let k : ℤ := (natLog2 q.num.toNat : ℤ) - (natLog2 q.den : ℤ)
  if pow2 k ≤ q then k else k - 1

/-- Nearest integer, ties to the even one. -/
def rne (x : ℚ) : ℤ :=
  if 2 * (x.num % x.den) < x.den then x.num / x.den
  else if (x.den : ℤ) < 2 * (x.num % x.den) then x.num / x.den + 1
  else if (x.num / x.den) % 2 = 0 then x.num / x.den
  else x.num / x.den + 1

/-- Exponent of the unit in the last place of a binary64 value near `q`: 53 significant
bits, never below the subnormal exponent `-1074`. -/
def expOf (q : ℚ) : ℤ := max (-1074) (ilog2 q - 52)

/-- Round a non-negative rational to the binary64 grid (exponent unbounded above). -/
def rndMag (q : ℚ) : ℚ := (rne (q / pow2 (expOf q)) : ℚ) * pow2 (expOf q)

/-- A rounded magnitude with its sign; at or above `2 ^ 1024` it overflows to infinity. -/
def ofMag (s : Bool) (q : ℚ) : F64 :=
  if rndMag q < pow2 1024 then fin s (rndMag q) else inf s

/-- Signed value of a sign and a magnitude. -/
def sval (s : Bool) (m : ℚ) : ℚ := if s then -m else m

/-- Conversion of an exact rational (a numeric constant, an integer) to `float64`. -/
def ofRat (q : ℚ) : F64 := ofMag (decide (q < 0)) |q|

/-- Go `float64(i)` for an integer `i`. -/
def ofInt (i : ℤ) : F64 := ofRat (i : ℚ)

/-- Unary minus. -/
def neg : F64 → F64
  | nan => nan
  | inf s => inf (!s)
  | fin s m => fin (!s) m

/-- Go `x + y` on `float64`. -/
def add : F64 → F64 → F64
  | nan, _ => nan
  | _, nan => nan
  | inf a, inf b => if a = b then inf a else nan
  | inf a, fin _ _ => inf a
  | fin _ _, inf b => inf b
  | fin a x, fin b y =>
    if sval a x + sval b y = 0 then fin (a && b) 0 else ofRat (sval a x + sval b y)

/-- Go `x - y` on `float64`. -/
def sub (x y : F64) : F64 := add x (neg y)

/-- Go `x * y` on `float64`. -/
def mul : F64 → F64 → F64
  | nan, _ => nan
  | _, nan => nan
  | inf a, inf b => inf (xor a b)
  | inf a, fin b y => if y = 0 then nan else inf (xor a b)
  | fin a x, inf b => if x = 0 then nan else inf (xor a b)
  | fin a x, fin b y => ofMag (xor a b) (x * y)

/-- Go `x / y` on `float64`: division by zero yields an infinity or `nan`, never a panic. -/
def div : F64 → F64 → F64
  | nan, _ => nan
  | _, nan => nan
  | inf _, inf _ => nan
  | inf a, fin b _ => inf (xor a b)
  | fin a _, inf b => fin (xor a b) 0
  | fin a x, fin b y =>
    if y = 0 then (if x = 0 then nan else inf (xor a b)) else ofMag (xor a b) (x / y)

/-- Go `x < y` on `float64` (false when either side is `nan`). -/
def lt : F64 → F64 → Bool
  | fin a x, fin b y => decide (sval a x < sval b y)
  | inf true, inf false => true
  | inf true, fin _ _ => true
  | fin _ _, inf false => true
  | _, _ => false

/-- Go `x <= y` on `float64`. -/
def le : F64 → F64 → Bool
  | fin a x, fin b y => decide (sval a x ≤ sval b y)
  | inf true, inf _ => true
  | inf false, inf false => true
  | inf true, fin _ _ => true
  | fin _ _, inf false => true
  | _, _ => false

/-- Go `x > y` on `float64`. -/
def gt (x y : F64) : Bool := lt y x

/-- Go `x == y` on `float64` (the two zeros are equal, `nan` equals nothing). -/
def eq : F64 → F64 → Bool
  | fin a x, fin b y => decide (sval a x = sval b y)
  | inf a, inf b => a == b
  | _, _ => false

/-- Truncation of a rational toward zero. -/
def truncQ (r : ℚ) : ℤ := if r < 0 then -⌊-r⌋ else ⌊r⌋

/-- Go `int(x)` on a 64-bit platform: truncation toward zero; a value outside the `int64`
range (or `nan`) gives the amd64 result `-2 ^ 63`. -/
def toInt : F64 → ℤ
  | fin s m =>
    if -(2 ^ 63) ≤ truncQ (sval s m) ∧ truncQ (sval s m) < 2 ^ 63 then truncQ (sval s m)
    else -(2 ^ 63)
  | _ => -(2 ^ 63)

/-- The value is a finite binary64 number. -/
def IsFinite : F64 → Prop
  | fin _ m => 0 ≤ m ∧ rndMag m = m ∧ m < pow2 1024
  | _ => False

instance (x : F64) : Decidable (IsFinite x) := by
  cases x <;> unfold IsFinite <;> infer_instance

/-- Extended value: the rational value of a finite number, `± 2 ^ 1024` for the infinities. -/
def ext : F64 → ℚ
  | nan => 0
  | inf s => sval s (pow2 1024)
  | fin s m => sval s m

/-- The value is a number: an infinity or a finite value below the overflow threshold. -/
def Num : F64 → Prop
  | nan => False
  | inf _ => True
  | fin _ m => 0 ≤ m ∧ m < pow2 1024

/-- Signed rounding, clipped at the overflow threshold. -/
def cr (r : ℚ) : ℚ :=
  if r < 0 then -(min (rndMag (-r)) (pow2 1024)) else min (rndMag r) (pow2 1024)

/-- Extended value of a rounded monotone operation applied to an extended value. -/
def liftMono (h : ℚ → ℚ) (u : ℚ) : ℚ :=
  if pow2 1024 ≤ u then pow2 1024 else if u ≤ -pow2 1024 then -pow2 1024 else cr (h u)

/-- Extended value of a rounded antitone operation applied to an extended value. -/
def liftAnti (h : ℚ → ℚ) (u : ℚ) : ℚ :=
  if pow2 1024 ≤ u then -pow2 1024 else if u ≤ -pow2 1024 then pow2 1024 else cr (h u)

/-- Positive zero, the zero value of a `float64` field. -/
def zero : F64 := fin false 0

end F64

open F64

/-! ## `time` -/

/-- An instant: nanoseconds since the Unix epoch (wall clock). -/
abbrev Time := ℤ

/-- A `time.Duration`: nanoseconds in a signed 64-bit integer. -/
abbrev Duration := ℤ

/-- Go `minDuration`. -/
def minDuration : ℤ := -(2 ^ 63)

/-- Go `maxDuration`. -/
def maxDuration : ℤ := 2 ^ 63 - 1

/-- Go `time.Second`. -/
def Second : ℤ := 1000000000

/-- Go `time.Minute`. -/
def Minute : ℤ := 60 * Second

/-- Go `time.Hour`. -/
def Hour : ℤ := 60 * Minute

/-- Go `t.Sub(u)`: the difference, saturated to the range of a `Duration`. -/
def timeSub (t u : ℤ) : ℤ :=
  if t - u < minDuration then minDuration
  else if maxDuration < t - u then maxDuration
  else t - u

/-- Go `time.Since(t)` with the clock reading `now`. -/
def since (now t : ℤ) : ℤ := timeSub now t

/-- Go `Duration.Minutes`: `float64(d / Minute) + float64(d % Minute) / (60 * 1e9)`. -/
def Duration.Minutes (d : ℤ) : F64 :=
  add (ofInt (d.tdiv Minute)) (div (ofInt (d.tmod Minute)) (ofRat 60000000000))

/-- Go `Duration.Hours`: `float64(d / Hour) + float64(d % Hour) / (60 * 60 * 1e9)`. -/
def Duration.Hours (d : ℤ) : F64 :=
  add (ofInt (d.tdiv Hour)) (div (ofInt (d.tmod Hour)) (ofRat 3600000000000))

/-- Body of `formatTimeAgo` after `d := time.Since(t)` (handlers.go 427-448). -/
def timeAgo (d : ℤ) : String :=
  if d < Minute then "just now"
  else if d < Hour then
    if toInt (Duration.Minutes d) = 1 then "1 minute ago"
    else toString (toInt (Duration.Minutes d)) ++ " minutes ago"
  else if d < 24 * Hour then
    if toInt (Duration.Hours d) = 1 then "1 hour ago"
    else toString (toInt (Duration.Hours d)) ++ " hours ago"
  else
    if toInt (div (Duration.Hours d) (ofRat 24)) = 1 then "1 day ago"
    else toString (toInt (div (Duration.Hours d) (ofRat 24))) ++ " days ago"

/-- Go `formatTimeAgo(t)` with the clock reading `now` (handlers.go 425-449). -/
def formatTimeAgo (now t : ℤ) : String := timeAgo (since now t)

/-! ## Device status -/

/-- Go `DeviceStatus` (handlers.go 15-23). -/
structure DeviceStatus where
  ID : String
  Location : String
  LastSeen : Time
  LastSeenFormatted : String
  IsOnline : Bool
  LastTemp : F64
  LastHumid : F64
  deriving DecidableEq

/-- The zero `time.Time` (January 1, year 1, 00:00 UTC). -/
def zeroTime : Time := -62135596800000000000

/-- What the storage handle returns for one device: the row of the status query
(`id`, `location`, `MAX(received_at)`, NULL without readings), the two clock readings
taken while the row is processed (by `time.Since` and inside `formatTimeAgo`), and the
latest temperature and humidity (NULL or failed lookups leave the field at zero). -/
structure DeviceRow where
  id : String
  location : String
  lastSeen : Option Time
  nowOnline : Time
  nowFormat : Time
  temp : Option F64
  humid : Option F64

/-- Statements shared by `getDeviceStatus` (handlers.go 308-334) and the loop body of
`getDevicesWithStatus` (handlers.go 258-285). -/
def statusOfRow (row : DeviceRow) : DeviceStatus :=
  { ID := row.id
    Location := row.location
    LastSeen := match row.lastSeen with
      | some t => t
      | none => zeroTime
    LastSeenFormatted := match row.lastSeen with
      | some t => formatTimeAgo row.nowFormat t
      | none => "never"
    IsOnline := match row.lastSeen with
      | some t => decide (since row.nowOnline t < 10 * Minute)
      | none => false
    LastTemp := match row.temp with
      | some v => v
      | none => F64.zero
    LastHumid := match row.humid with
      | some v => v
      | none => F64.zero }

/-- Go `getDeviceStatus`: `none` when the status query fails or finds no device. -/
def getDeviceStatus (query : Option DeviceRow) : Option DeviceStatus :=
  match query with
  | none => none
  | some row => some (statusOfRow row)

/-- Go `getDevicesWithStatus`: `none` when the query or a scan fails. -/
def getDevicesWithStatus (query : Option (List DeviceRow)) : Option (List DeviceStatus) :=
  match query with
  | none => none
  | some rows => some (rows.map statusOfRow)

/-! ## Chart builder -/

/-- Go `fmt.Sprintf("%.1f", x)`: one decimal place, correctly rounded (ties to even). -/
def sprintf1 : F64 → String
  | nan => "NaN"
  | inf false => "+Inf"
  | inf true => "-Inf"
  | fin s m =>
    (if s then "-" else "") ++ toString ((rne (m * 10)).toNat / 10) ++ "."
      ++ toString ((rne (m * 10)).toNat % 10)

/-- Go `ChartPoint` (handlers.go 33-39). -/
structure ChartPoint where
  X : F64
  Y : F64
  Value : F64
  Time : Time
  TimeFormatted : String
  deriving DecidableEq

/-- Go `ChartData` (handlers.go 25-31). -/
structure ChartData where
  Points : List ChartPoint
  Min : F64
  Max : F64
  LinePath : String
  AreaPath : String
  deriving DecidableEq

/-- The zero value `ChartData{}`. -/
def ChartData.zero : ChartData := ⟨[], F64.zero, F64.zero, "", ""⟩

/-- The scan loop (handlers.go 352-360): one point per row, in query order; `layout`
stands for `Time.Format("Jan 2 15:04")`. -/
def scanRows (layout : Time → String) (rows : List (F64 × Time)) : List ChartPoint :=
  rows.map fun r => ⟨F64.zero, F64.zero, r.1, r.2, layout r.2⟩

/-- One iteration of the min/max loop (handlers.go 374-379). -/
def minMaxStep (acc : F64 × F64) (p : ChartPoint) : F64 × F64 :=
  (if lt p.Value acc.1 then p.Value else acc.1, if gt p.Value acc.2 then p.Value else acc.2)

/-- The min/max loop (handlers.go 372-380), started at the first point's value. -/
def minMax (points : List ChartPoint) (first : F64) : F64 × F64 :=
  points.foldl minMaxStep (first, first)

/-- The padding (handlers.go 383-386): a tenth of the range, or 1 when that is zero. -/
def paddingOf (minVal maxVal : F64) : F64 :=
  if eq (mul (sub maxVal minVal) (ofRat (1 / 10))) (ofRat 0) then ofRat 1
  else mul (sub maxVal minVal) (ofRat (1 / 10))

/-- Go `chartWidth := 400.0`. -/
def chartWidth : F64 := ofRat 400

/-- Go `chartHeight := 120.0`. -/
def chartHeight : F64 := ofRat 120

/-- Go `chartPadding := 10.0`. -/
def chartPadding : F64 := ofRat 10

/-- The x coordinate of point `i` of `n` (handlers.go 396). -/
def xCoord (i n : ℕ) : F64 :=
  add chartPadding
    (mul (div (ofInt i) (ofInt ((n : ℤ) - 1))) (sub chartWidth (mul (ofRat 2) chartPadding)))

/-- The y coordinate of a value between the padded bounds (handlers.go 397-398). -/
def yCoord (value lo hi : F64) : F64 :=
  sub (sub chartHeight chartPadding)
    (mul (div (sub value lo) (sub hi lo)) (sub chartHeight (mul (ofRat 2) chartPadding)))

/-- The normalisation loop (handlers.go 395-399) from index `i` on. -/
def setCoords (n : ℕ) (lo hi : F64) : ℕ → List ChartPoint → List ChartPoint
  | _, [] => []
  | i, p :: ps =>
    { p with X := xCoord i n, Y := yCoord p.Value lo hi } :: setCoords n lo hi (i + 1) ps

/-- Go `fmt.Sprintf("M%.1f,%.1f", x, y)`. -/
def moveTo (x y : F64) : String := "M" ++ sprintf1 x ++ "," ++ sprintf1 y

/-- Go `fmt.Sprintf("L%.1f,%.1f", x, y)`. -/
def lineTo (x y : F64) : String := "L" ++ sprintf1 x ++ "," ++ sprintf1 y

/-- The last element of a non-empty list given as head and tail: `points[len(points)-1]`. -/
def lastPoint : ChartPoint → List ChartPoint → ChartPoint
  | p, [] => p
  | _, q :: qs => lastPoint q qs

/-- The padded lower plotting bound of a chronological series (handlers.go 372-387). -/
def plotMin (p0 : ChartPoint) (rest : List ChartPoint) : F64 :=
  sub (minMax (p0 :: rest) p0.Value).1
    (paddingOf (minMax (p0 :: rest) p0.Value).1 (minMax (p0 :: rest) p0.Value).2)

/-- The padded upper plotting bound of a chronological series (handlers.go 372-388). -/
def plotMax (p0 : ChartPoint) (rest : List ChartPoint) : F64 :=
  add (minMax (p0 :: rest) p0.Value).2
    (paddingOf (minMax (p0 :: rest) p0.Value).1 (minMax (p0 :: rest) p0.Value).2)

/-- The part of `getChartData` after the scan loop (handlers.go 362-422): `points` in query
order, newest first. -/
def chartOfPoints (points : List ChartPoint) : ChartData :=
  match points.reverse with
  | [] => ChartData.zero
  | p0 :: rest =>
    match setCoords (rest.length + 1) (plotMin p0 rest) (plotMax p0 rest) 0 (p0 :: rest) with
    | [] => ChartData.zero
    | q0 :: qs =>
      { Points := q0 :: qs
        Min := add (plotMin p0 rest)
          (paddingOf (minMax (p0 :: rest) p0.Value).1 (minMax (p0 :: rest) p0.Value).2)
        Max := sub (plotMax p0 rest)
          (paddingOf (minMax (p0 :: rest) p0.Value).1 (minMax (p0 :: rest) p0.Value).2)
        LinePath := qs.foldl (fun acc p => acc ++ lineTo p.X p.Y) (moveTo q0.X q0.Y)
        AreaPath := qs.foldl (fun acc p => acc ++ lineTo p.X p.Y)
            (moveTo q0.X (sub chartHeight chartPadding) ++ lineTo q0.X q0.Y)
          ++ lineTo (lastPoint q0 qs).X (sub chartHeight chartPadding) ++ "Z" }

/-- Go `getChartData` (handlers.go 339-423). `query` is what the storage handle returns
for the `ORDER BY device_timestamp DESC LIMIT 24` query: `none` for an error of the query
or of a scan, else the rows `(value, device_timestamp)`. -/
def getChartData (layout : Time → String) (query : Option (List (F64 × Time))) :
    Option ChartData :=
  match query with
  | none => none
  | some rows => some (chartOfPoints (scanRows layout rows))

/-! ## Ingest handler -/

/-- Go `Reading` (handlers.go 451-459). -/
structure Reading where
  ID : ℤ
  DeviceID : String
  ParamID : ℤ
  Value : F64
  DeviceTimestamp : Time
  ReceivedAt : Time
  EntryHash : List ℕ
  deriving DecidableEq

/-- Outcome of `conn.QueryRow("SELECT id FROM devices WHERE id = ?", id).Scan(&foundID)`. -/
inductive Lookup where
  | found : Lookup
  | noRows : Lookup
  | failed : Lookup
  deriving DecidableEq

/-- The parts of an HTTP request the handler reads. -/
structure Request where
  method : String
  deviceId : Option String
  body : String

/-- The collaborators of the handler: device lookup, JSON decoder, clock, digest of the
formatted fields, and whether the INSERT succeeds. -/
structure Ingest where
  lookup : String → Lookup
  decode : String → Option Reading
  now : Time
  hashInput : Reading → String
  sha256 : String → List ℕ
  insertOk : Reading → Bool

/-- Status code and body written to the response. -/
structure Response where
  status : ℕ
  body : String
  deriving DecidableEq

/-- Go `PostWeatherListener` (handlers.go 461-513) as a step on the `readings` table:
the response and the table afterwards. `Header.Get` gives the empty string for an absent
header. -/
def PostWeatherListener (env : Ingest) (readings : List Reading) (r : Request) :
    Response × List Reading :=
  if r.method ≠ "POST" then (⟨405, "method not allowed\n"⟩, readings)
  else if r.deviceId.getD "" = "" then (⟨401, "who are you?\n"⟩, readings)
  else
    match env.lookup (r.deviceId.getD "") with
    | Lookup.noRows => (⟨401, "unknown device\n"⟩, readings)
    | Lookup.failed => (⟨500, "database error\n"⟩, readings)
    | Lookup.found =>
      match env.decode r.body with
      | none => (⟨400, "not like that\n"⟩, readings)
      | some reading =>
        if env.insertOk
            { reading with
              DeviceID := r.deviceId.getD ""
              ReceivedAt := env.now
              EntryHash := env.sha256 (env.hashInput
                { reading with DeviceID := r.deviceId.getD "", ReceivedAt := env.now }) }
        then
          (⟨201, ""⟩, readings ++
            [{ reading with
                DeviceID := r.deviceId.getD ""
                ReceivedAt := env.now
                EntryHash := env.sha256 (env.hashInput
                  { reading with DeviceID := r.deviceId.getD "", ReceivedAt := env.now }) }])
        else (⟨500, "failed to save reading\n"⟩, readings)

/-! ## Auxiliary definitions for the proofs -/

/-- Common shape of `Duration.Minutes` and `Duration.Hours`: whole units plus the rounded
fraction of a unit of `u` nanoseconds. -/
def unitsF (u : ℤ) (d : ℤ) : F64 :=
  add (ofInt (d.tdiv u)) (div (ofInt (d.tmod u)) (ofRat u))

/-- Extended value of `unitsF u` at `h` whole units and `n` further nanoseconds. -/
def unitsQ (u h n : ℤ) : ℚ :=
  liftMono (fun v => (h : ℚ) + v) (liftMono (fun v => v / (u : ℚ)) (cr (n : ℚ)))

/-- The `float64` quotient `float64(Hour - 1) / float64(Hour)`. -/
def hourFracLast : ℚ := 4503599627369245 / 4503599627370496

/-- The `float64` quotient `float64(Hour - 2) / float64(Hour)`. -/
def hourFracPrev : ℚ := 2251799813683997 / 2251799813685248

/-- At the last duration of day `k` for which the day count is checked (the last nanosecond
of the day, one less on day 170), the hours divided by 24 stay below `k + 1`. -/
def dayCheck (k : ℕ) : Bool :=
  decide (cr (cr ((24 * (k : ℚ) + 23) + (if k = 170 then hourFracPrev else hourFracLast)) / 24)
    < (k : ℚ) + 1)

/-- The x coordinate with the constants folded: `10 + (i / (n - 1)) * 380`. -/
def xGrid (i n : ℕ) : F64 :=
  add (fin false 10) (mul (div (ofInt i) (ofInt ((n : ℤ) - 1))) (fin false 380))

/-- A request carrying a known device id, for the ingest witness. -/
def demoRequest : Request := ⟨"POST", some "esp32-1", "{}"⟩

/-- Collaborators that know every device, parse every body and store every row. -/
def demoIngest : Ingest :=
  { lookup := fun _ => Lookup.found
    decode := fun _ => some ⟨0, "", 1, F64.zero, 0, 0, []⟩
    now := 0
    hashInput := fun _ => ""
    sha256 := fun _ => []
    insertOk := fun _ => true }

/-- A finite value of magnitude below `2 ^ 53`. -/
def Bounded (x : F64) : Prop := IsFinite x ∧ |ext x| < 2 ^ 53

/-! ## Rounding: order and exactness -/

namespace F64

theorem log2Fuel_spec (fuel : Nat) : ∀ n, 1 ≤ n → n ≤ fuel →
    2 ^ log2Fuel fuel n ≤ n ∧ n < 2 ^ (log2Fuel fuel n + 1) := by
  induction fuel with
  | zero => intro n h1 h2; omega
  | succ f ih =>
    intro n h1 h2
    unfold log2Fuel
    split_ifs with h
    · constructor <;> simp <;> omega
    · have h3 : 1 ≤ n / 2 := by omega
      have h4 : n / 2 ≤ f := by omega
      obtain ⟨a, b⟩ := ih (n / 2) h3 h4
      constructor
      · rw [pow_succ]; omega
      · rw [pow_succ]; omega

theorem log2Bits_spec (j : Nat) : ∀ n, 1 ≤ n → n < 2 ^ 2 ^ j →
    2 ^ log2Bits j n ≤ n ∧ n < 2 ^ (log2Bits j n + 1) := by
  induction j with
  | zero =>
    intro n h1 h2
    have : n = 1 := by simp at h2; omega
    subst this
    simp [log2Bits]
  | succ j ih =>
    intro n h1 h2
    have hP : 0 < 2 ^ 2 ^ j := by positivity
    have hsq : 2 ^ 2 ^ (j + 1) = 2 ^ 2 ^ j * 2 ^ 2 ^ j := by
      rw [← pow_add]; congr 1; rw [pow_succ]; omega
    rw [hsq] at h2
    unfold log2Bits
    split_ifs with h
    · have m1 : 1 ≤ n / 2 ^ 2 ^ j := (Nat.one_le_div_iff hP).mpr h
      have m2 : n / 2 ^ 2 ^ j < 2 ^ 2 ^ j := Nat.div_lt_of_lt_mul h2
      obtain ⟨a, b⟩ := ih _ m1 m2
      have c1 : 2 ^ 2 ^ j * (n / 2 ^ 2 ^ j) ≤ n := Nat.mul_div_le n _
      have c2 : n < 2 ^ 2 ^ j * (n / 2 ^ 2 ^ j + 1) := Nat.lt_mul_div_succ n hP
      constructor
      · rw [pow_add]
        exact le_trans (Nat.mul_le_mul_left _ a) c1
      · rw [show 2 ^ j + log2Bits j (n / 2 ^ 2 ^ j) + 1
            = 2 ^ j + (log2Bits j (n / 2 ^ 2 ^ j) + 1) by omega, pow_add]
        exact lt_of_lt_of_le c2 (Nat.mul_le_mul_left _ b)
    · exact ih n h1 (by omega)

theorem natLog2_spec (n : Nat) (h : 1 ≤ n) :
    2 ^ natLog2 n ≤ n ∧ n < 2 ^ (natLog2 n + 1) := by
  unfold natLog2
  split_ifs with hlt
  · exact log2Bits_spec 12 n h hlt
  · exact log2Fuel_spec n n h le_rfl

theorem pow2_eq (e : ℤ) : pow2 e = (2 : ℚ) ^ e := by
  unfold pow2
  split_ifs with h
  · obtain ⟨n, rfl⟩ := Int.eq_ofNat_of_zero_le h
    simp
  · push_neg at h
    obtain ⟨n, hn⟩ := Int.eq_ofNat_of_zero_le (show 0 ≤ -e by omega)
    have : e = -(n : ℤ) := by omega
    subst this
    simp

theorem pow2_pos (e : ℤ) : 0 < pow2 e := by
  rw [pow2_eq]; positivity

theorem pow2_add (a b : ℤ) : pow2 (a + b) = pow2 a * pow2 b := by
  simp only [pow2_eq]; exact zpow_add₀ (by norm_num) a b

theorem pow2_le_pow2 {a b : ℤ} (h : a ≤ b) : pow2 a ≤ pow2 b := by
  simp only [pow2_eq]; exact zpow_le_zpow_right₀ (by norm_num) h

theorem pow2_lt_pow2_iff {a b : ℤ} : pow2 a < pow2 b ↔ a < b := by
  simp only [pow2_eq]; exact zpow_lt_zpow_iff_right₀ (by norm_num)

theorem ilog2_spec (q : ℚ) (hq : 0 < q) :
    pow2 (ilog2 q) ≤ q ∧ q < pow2 (ilog2 q + 1) := by
  have hnum : 0 < q.num := Rat.num_pos.mpr hq
  obtain ⟨n, hn⟩ := Int.eq_ofNat_of_zero_le hnum.le
  have hn1 : 1 ≤ n := by omega
  have hd1 : 1 ≤ q.den := q.den_pos
  obtain ⟨na, nb⟩ := natLog2_spec n hn1
  obtain ⟨da, db⟩ := natLog2_spec q.den hd1
  have hqe : q = (n : ℚ) / (q.den : ℚ) := by
    have h0 := (Rat.num_div_den q).symm
    rw [hn] at h0
    rw [Int.cast_natCast] at h0
    exact h0
  have hdpos : (0 : ℚ) < q.den := by exact_mod_cast hd1
  have na' : (2 : ℚ) ^ (natLog2 n : ℤ) ≤ n := by
    rw [zpow_natCast]; exact_mod_cast na
  have nb' : (n : ℚ) < (2 : ℚ) ^ ((natLog2 n : ℤ) + 1) := by
    have : (n : ℚ) < (2 : ℚ) ^ (natLog2 n + 1) := by exact_mod_cast nb
    rwa [← zpow_natCast, Nat.cast_add, Nat.cast_one] at this
  have da' : (2 : ℚ) ^ (natLog2 q.den : ℤ) ≤ q.den := by
    rw [zpow_natCast]; exact_mod_cast da
  have db' : (q.den : ℚ) < (2 : ℚ) ^ ((natLog2 q.den : ℤ) + 1) := by
    have : (q.den : ℚ) < (2 : ℚ) ^ (natLog2 q.den + 1) := by exact_mod_cast db
    rwa [← zpow_natCast, Nat.cast_add, Nat.cast_one] at this
  have key : ilog2 q = if pow2 ((natLog2 n : ℤ) - (natLog2 q.den : ℤ)) ≤ q
      then (natLog2 n : ℤ) - (natLog2 q.den : ℤ)
      else (natLog2 n : ℤ) - (natLog2 q.den : ℤ) - 1 := by
    unfold ilog2
    simp only [hn, Int.toNat_ofNat]
  rw [key]
  clear na nb da db
  generalize (natLog2 n : ℤ) = a at *
  generalize (natLog2 q.den : ℤ) = b at *
  have h2a : (0 : ℚ) < 2 ^ a := by positivity
  have h2b : (0 : ℚ) < 2 ^ b := by positivity
  split_ifs with h
  · refine ⟨h, ?_⟩
    rw [pow2_eq, hqe, div_lt_iff₀ hdpos]
    have e1 : (2 : ℚ) ^ (a - b + 1) * 2 ^ b = 2 ^ (a + 1) := by
      rw [← zpow_add₀ (by norm_num)]; congr 1; ring
    calc (n : ℚ) < 2 ^ (a + 1) := nb'
      _ = 2 ^ (a - b + 1) * 2 ^ b := e1.symm
      _ ≤ 2 ^ (a - b + 1) * q.den := by
          apply mul_le_mul_of_nonneg_left da'; positivity
  · push_neg at h
    constructor
    · rw [pow2_eq, hqe, le_div_iff₀ hdpos]
      have e1 : (2 : ℚ) ^ (a - b - 1) * 2 ^ (b + 1) = 2 ^ a := by
        rw [← zpow_add₀ (by norm_num)]; congr 1; ring
      calc (2 : ℚ) ^ (a - b - 1) * q.den ≤ 2 ^ (a - b - 1) * 2 ^ (b + 1) := by
            apply mul_le_mul_of_nonneg_left db'.le; positivity
        _ = 2 ^ a := e1
        _ ≤ n := na'
    · have : a - b - 1 + 1 = a - b := by ring
      rw [this]; exact h


theorem rne_eq (x : ℚ) : rne x =
    if x - ⌊x⌋ < 1 / 2 then ⌊x⌋ else if 1 / 2 < x - ⌊x⌋ then ⌊x⌋ + 1
    else if ⌊x⌋ % 2 = 0 then ⌊x⌋ else ⌊x⌋ + 1 := by
  have hd : (0 : ℚ) < x.den := by exact_mod_cast x.den_pos
  have hf : ⌊x⌋ = x.num / x.den := Rat.floor_def
  have hdm : (x.num : ℚ) = (x.den : ℚ) * ((x.num / (x.den : ℤ) : ℤ) : ℚ)
      + ((x.num % (x.den : ℤ) : ℤ) : ℚ) := by
    have := Int.ediv_add_emod x.num x.den
    exact_mod_cast this.symm
  have hr : x - ((x.num / (x.den : ℤ) : ℤ) : ℚ)
      = ((x.num % (x.den : ℤ) : ℤ) : ℚ) / x.den := by
    rw [eq_div_iff hd.ne.symm]
    have := Rat.mul_den_eq_num x
    linear_combination this + hdm
  have c1 : (x - ((x.num / (x.den : ℤ) : ℤ) : ℚ) < 1 / 2)
      ↔ 2 * (x.num % x.den) < (x.den : ℤ) := by
    rw [hr, div_lt_iff₀ hd]
    constructor
    · intro h
      have : (2 : ℚ) * ((x.num % (x.den : ℤ) : ℤ) : ℚ) < x.den := by linarith
      exact_mod_cast this
    · intro h
      have : (2 : ℚ) * ((x.num % (x.den : ℤ) : ℤ) : ℚ) < x.den := by exact_mod_cast h
      linarith
  have c2 : (1 / 2 < x - ((x.num / (x.den : ℤ) : ℤ) : ℚ))
      ↔ (x.den : ℤ) < 2 * (x.num % x.den) := by
    rw [hr, lt_div_iff₀ hd]
    constructor
    · intro h
      have : (x.den : ℚ) < (2 : ℚ) * ((x.num % (x.den : ℤ) : ℤ) : ℚ) := by linarith
      exact_mod_cast this
    · intro h
      have : (x.den : ℚ) < (2 : ℚ) * ((x.num % (x.den : ℤ) : ℤ) : ℚ) := by exact_mod_cast h
      linarith
  rw [hf]
  unfold rne
  simp only [c1, c2]

theorem rne_intCast (n : ℤ) : rne (n : ℚ) = n := by
  rw [rne_eq]
  simp

theorem floor_le_rne (x : ℚ) : ⌊x⌋ ≤ rne x := by
  rw [rne_eq]
  split_ifs <;> omega

theorem rne_le_floor_add_one (x : ℚ) : rne x ≤ ⌊x⌋ + 1 := by
  rw [rne_eq]
  split_ifs <;> omega

theorem rne_mono {x y : ℚ} (h : x ≤ y) : rne x ≤ rne y := by
  have hf : ⌊x⌋ ≤ ⌊y⌋ := Int.floor_mono h
  rcases hf.lt_or_eq with hlt | heq
  · calc rne x ≤ ⌊x⌋ + 1 := rne_le_floor_add_one x
      _ ≤ ⌊y⌋ := hlt
      _ ≤ rne y := floor_le_rne y
  · rw [rne_eq, rne_eq, ← heq]
    have hr : x - (⌊x⌋ : ℚ) ≤ y - (⌊x⌋ : ℚ) := by linarith
    split_ifs <;> first | omega | linarith

theorem rne_nonneg {x : ℚ} (h : 0 ≤ x) : 0 ≤ rne x :=
  le_trans (Int.floor_nonneg.mpr h) (floor_le_rne x)

theorem abs_rne_sub_le (x : ℚ) : |(rne x : ℚ) - x| ≤ 1 / 2 := by
  have h1 := Int.floor_le x
  have h2 := Int.lt_floor_add_one x
  rw [rne_eq, abs_le]
  split_ifs <;> push_cast <;> constructor <;> linarith

theorem ilog2_mono {p q : ℚ} (hp : 0 < p) (h : p ≤ q) : ilog2 p ≤ ilog2 q := by
  by_contra hc
  push_neg at hc
  have h1 := (ilog2_spec p hp).1
  have h2 := (ilog2_spec q (lt_of_lt_of_le hp h)).2
  have h3 : pow2 (ilog2 q + 1) ≤ pow2 (ilog2 p) := pow2_le_pow2 (by omega)
  linarith

theorem expOf_mono {p q : ℚ} (hp : 0 < p) (h : p ≤ q) : expOf p ≤ expOf q := by
  unfold expOf
  have := ilog2_mono hp h
  exact max_le_max le_rfl (by omega)

theorem expOf_ge (q : ℚ) : -1074 ≤ expOf q := le_max_left _ _

theorem rndMag_zero : rndMag 0 = 0 := by
  unfold rndMag
  simp [rne_eq]

theorem rndMag_nonneg {q : ℚ} (h : 0 ≤ q) : 0 ≤ rndMag q := by
  unfold rndMag
  have h1 : 0 ≤ q / pow2 (expOf q) := div_nonneg h (pow2_pos _).le
  have h2 := rne_nonneg h1
  have h3 : (0 : ℚ) ≤ (rne (q / pow2 (expOf q)) : ℚ) := by exact_mod_cast h2
  exact mul_nonneg h3 (pow2_pos _).le

/-- Scaled mantissa bounds: below `2 ^ 53`, and at least `2 ^ 52` above the subnormal range. -/
theorem scaled_lt (q : ℚ) (hq : 0 < q) : q / pow2 (expOf q) < pow2 53 := by
  rw [div_lt_iff₀ (pow2_pos _), ← pow2_add]
  have h1 := (ilog2_spec q hq).2
  have h2 : ilog2 q + 1 ≤ 53 + expOf q := by
    have : ilog2 q - 52 ≤ expOf q := le_max_right _ _
    omega
  exact lt_of_lt_of_le h1 (pow2_le_pow2 h2)

theorem scaled_ge (q : ℚ) (hq : 0 < q) (he : -1074 < expOf q) :
    pow2 52 ≤ q / pow2 (expOf q) := by
  rw [le_div_iff₀ (pow2_pos _), ← pow2_add]
  have h1 := (ilog2_spec q hq).1
  have h2 : expOf q = ilog2 q - 52 := by
    unfold expOf at he ⊢
    rcases max_cases (-1074 : ℤ) (ilog2 q - 52) with ⟨h, _⟩ | ⟨h, _⟩
    · rw [h] at he; omega
    · exact h
  have h3 : 52 + expOf q = ilog2 q := by omega
  rw [h3]; exact h1

theorem pow2_natCast (n : ℕ) : pow2 (n : ℤ) = ((2 ^ n : ℤ) : ℚ) := by
  rw [pow2_eq]; push_cast; exact zpow_natCast 2 n

theorem rndMag_mono {p q : ℚ} (hp : 0 ≤ p) (h : p ≤ q) : rndMag p ≤ rndMag q := by
  rcases hp.lt_or_eq with hp0 | hp0
  swap
  · rw [← hp0, rndMag_zero]; exact rndMag_nonneg (hp0 ▸ h)
  have hq0 : 0 < q := lt_of_lt_of_le hp0 h
  have he := expOf_mono hp0 h
  rcases he.lt_or_eq with hlt | heq
  · -- different binades
    have hq1 : -1074 < expOf q := lt_of_le_of_lt (expOf_ge p) hlt
    have a1 : rne (q / pow2 (expOf q)) ≥ 2 ^ 52 := by
      have := rne_mono (scaled_ge q hq0 hq1)
      rw [show (52 : ℤ) = ((52 : ℕ) : ℤ) from rfl, pow2_natCast, rne_intCast] at this
      exact this
    have a2 : rne (p / pow2 (expOf p)) ≤ 2 ^ 53 := by
      have := rne_mono (scaled_lt p hp0).le
      rw [show (53 : ℤ) = ((53 : ℕ) : ℤ) from rfl, pow2_natCast, rne_intCast] at this
      exact this
    unfold rndMag
    have b1 : (rne (p / pow2 (expOf p)) : ℚ) ≤ 2 ^ 53 := by exact_mod_cast a2
    have b2 : (2 : ℚ) ^ 52 ≤ (rne (q / pow2 (expOf q)) : ℚ) := by exact_mod_cast a1
    have c1 : pow2 (expOf p + 1) ≤ pow2 (expOf q) := pow2_le_pow2 (by omega)
    rw [pow2_add] at c1
    have c2 : pow2 1 = 2 := by rw [pow2_eq]; norm_num
    rw [c2] at c1
    have pp := pow2_pos (expOf p)
    have pq := pow2_pos (expOf q)
    calc (rne (p / pow2 (expOf p)) : ℚ) * pow2 (expOf p)
        ≤ 2 ^ 53 * pow2 (expOf p) := mul_le_mul_of_nonneg_right b1 pp.le
      _ = 2 ^ 52 * (pow2 (expOf p) * 2) := by ring
      _ ≤ 2 ^ 52 * pow2 (expOf q) := by
          apply mul_le_mul_of_nonneg_left c1; positivity
      _ ≤ (rne (q / pow2 (expOf q)) : ℚ) * pow2 (expOf q) :=
          mul_le_mul_of_nonneg_right b2 pq.le
  · unfold rndMag
    rw [heq]
    have pq := pow2_pos (expOf q)
    have : rne (p / pow2 (expOf q)) ≤ rne (q / pow2 (expOf q)) :=
      rne_mono (div_le_div_of_nonneg_right h pq.le)
    have : (rne (p / pow2 (expOf q)) : ℚ) ≤ (rne (q / pow2 (expOf q)) : ℚ) := by
      exact_mod_cast this
    exact mul_le_mul_of_nonneg_right this pq.le

/-- Every `k * 2 ^ e` with `k < 2 ^ 53` and `e ≥ -1074` is left unchanged by rounding. -/
theorem rndMag_exact (k : ℕ) (e : ℤ) (hk : k < 2 ^ 53) (he : -1074 ≤ e) :
    rndMag ((k : ℚ) * pow2 e) = (k : ℚ) * pow2 e := by
  rcases Nat.eq_zero_or_pos k with h0 | hpos
  · subst h0; simp [rndMag_zero]
  obtain ⟨q, hq⟩ : ∃ q : ℚ, q = (k : ℚ) * pow2 e := ⟨_, rfl⟩
  rw [← hq]
  have hkq : (0 : ℚ) < k := by exact_mod_cast hpos
  have hq0 : 0 < q := by rw [hq]; exact mul_pos hkq (pow2_pos e)
  have hlt : q < pow2 (53 + e) := by
    rw [pow2_add, hq]
    apply mul_lt_mul_of_pos_right _ (pow2_pos e)
    rw [show (53 : ℤ) = ((53 : ℕ) : ℤ) from rfl, pow2_natCast]
    exact_mod_cast hk
  have hl : ilog2 q < 53 + e := by
    have h1 := (ilog2_spec q hq0).1
    exact pow2_lt_pow2_iff.mp (lt_of_le_of_lt h1 hlt)
  have hE : expOf q ≤ e := by
    unfold expOf
    exact max_le he (by omega)
  obtain ⟨d, hd⟩ := Int.eq_ofNat_of_zero_le (show 0 ≤ e - expOf q by omega)
  have hsplit : pow2 e = pow2 (d : ℤ) * pow2 (expOf q) := by
    rw [← pow2_add, ← hd]; congr 1; ring
  have hqd : q = (((k : ℤ) * 2 ^ d : ℤ) : ℚ) * pow2 (expOf q) := by
    calc q = (k : ℚ) * pow2 e := hq
      _ = (k : ℚ) * (pow2 (d : ℤ) * pow2 (expOf q)) := by rw [← hsplit]
      _ = (((k : ℤ) * 2 ^ d : ℤ) : ℚ) * pow2 (expOf q) := by
          rw [pow2_natCast]; push_cast; ring
  have hscaled : q / pow2 (expOf q) = (((k : ℤ) * 2 ^ d : ℤ) : ℚ) := by
    rw [div_eq_iff (pow2_pos _).ne.symm]; exact hqd
  unfold rndMag
  rw [hscaled, rne_intCast]
  exact hqd.symm


/-! ### Order on float64 values through their extended rational value -/

theorem cr_mono : Monotone cr := by
  intro a b hab
  unfold cr
  have hB := pow2_pos 1024
  split_ifs with h1 h2 h2
  · have : rndMag (-b) ≤ rndMag (-a) := rndMag_mono (by linarith) (by linarith)
    have := min_le_min_right (pow2 1024) this
    linarith
  · have a1 : 0 ≤ min (rndMag (-a)) (pow2 1024) :=
      le_min (rndMag_nonneg (by linarith)) hB.le
    have a2 : 0 ≤ min (rndMag b) (pow2 1024) :=
      le_min (rndMag_nonneg (by linarith)) hB.le
    linarith
  · linarith
  · exact min_le_min_right _ (rndMag_mono (by linarith) hab)

theorem cr_le (r : ℚ) : cr r ≤ pow2 1024 := by
  unfold cr
  have hB := pow2_pos 1024
  split_ifs with h
  · have : 0 ≤ min (rndMag (-r)) (pow2 1024) := le_min (rndMag_nonneg (by linarith)) hB.le
    linarith
  · exact min_le_right _ _

theorem neg_le_cr (r : ℚ) : -pow2 1024 ≤ cr r := by
  unfold cr
  have hB := pow2_pos 1024
  split_ifs with h
  · have := min_le_right (rndMag (-r)) (pow2 1024); linarith
  · have : 0 ≤ min (rndMag r) (pow2 1024) := le_min (rndMag_nonneg (by linarith)) hB.le
    linarith

theorem liftMono_mono {h : ℚ → ℚ} (hh : Monotone h) : Monotone (liftMono h) := by
  intro a b hab
  unfold liftMono
  have hB := pow2_pos 1024
  split_ifs <;> first
    | linarith
    | exact cr_le _
    | exact neg_le_cr _
    | exact cr_mono (hh hab)

theorem liftAnti_anti {h : ℚ → ℚ} (hh : Antitone h) : Antitone (liftAnti h) := by
  intro a b hab
  unfold liftAnti
  have hB := pow2_pos 1024
  split_ifs <;> first
    | linarith
    | exact cr_le _
    | exact neg_le_cr _
    | exact cr_mono (hh hab)

theorem le_iff_ext {x y : F64} (hx : Num x) (hy : Num y) :
    le x y = true ↔ ext x ≤ ext y := by
  have hB := pow2_pos 1024
  cases x with
  | nan => exact absurd hx id
  | inf a =>
    cases y with
    | nan => exact absurd hy id
    | inf b => cases a <;> cases b <;> simp [le, ext, sval] <;> linarith
    | fin b n =>
      obtain ⟨h0, h1⟩ := hy
      cases a <;> cases b <;> simp [le, ext, sval] <;> linarith
  | fin a m =>
    obtain ⟨g0, g1⟩ := hx
    cases y with
    | nan => exact absurd hy id
    | inf b => cases a <;> cases b <;> simp [le, ext, sval] <;> linarith
    | fin b n => simp [le, ext]

theorem lt_iff_ext {x y : F64} (hx : Num x) (hy : Num y) :
    lt x y = true ↔ ext x < ext y := by
  have hB := pow2_pos 1024
  cases x with
  | nan => exact absurd hx id
  | inf a =>
    cases y with
    | nan => exact absurd hy id
    | inf b => cases a <;> cases b <;> simp [lt, ext, sval] <;> linarith
    | fin b n =>
      obtain ⟨h0, h1⟩ := hy
      cases a <;> cases b <;> simp [lt, ext, sval] <;> linarith
  | fin a m =>
    obtain ⟨g0, g1⟩ := hx
    cases y with
    | nan => exact absurd hy id
    | inf b => cases a <;> cases b <;> simp [lt, ext, sval] <;> linarith
    | fin b n => simp [lt, ext]

theorem num_of_isFinite {x : F64} (h : IsFinite x) : Num x := by
  cases x with
  | nan => exact absurd h id
  | inf s => trivial
  | fin s m => exact ⟨h.1, h.2.2⟩

theorem num_ofMag (s : Bool) {q : ℚ} (hq : 0 ≤ q) : Num (ofMag s q) := by
  unfold ofMag
  split_ifs with h
  · exact ⟨rndMag_nonneg hq, h⟩
  · trivial

theorem ext_ofMag (s : Bool) {q : ℚ} (_ : 0 ≤ q) :
    ext (ofMag s q) = sval s (min (rndMag q) (pow2 1024)) := by
  unfold ofMag
  split_ifs with h
  · simp [ext, min_eq_left h.le]
  · push_neg at h
    simp [ext, min_eq_right h]

theorem num_ofRat (r : ℚ) : Num (ofRat r) := num_ofMag _ (abs_nonneg r)

theorem ext_ofRat (r : ℚ) : ext (ofRat r) = cr r := by
  unfold ofRat cr
  rw [ext_ofMag _ (abs_nonneg r)]
  by_cases h : r < 0
  · simp [h, sval, abs_of_neg h]
  · push_neg at h
    simp [not_lt.mpr h, sval, abs_of_nonneg h]

theorem cr_zero : cr 0 = 0 := by
  unfold cr
  simp [rndMag_zero, (pow2_pos 1024).le]

theorem cr_sval (s : Bool) {q : ℚ} (hq : 0 ≤ q) :
    cr (sval s q) = sval s (min (rndMag q) (pow2 1024)) := by
  rcases hq.lt_or_eq with h | h
  · cases s
    · simp [cr, sval, not_lt.mpr hq]
    · simp [cr, sval, h]
  · subst h
    have := cr_zero
    cases s <;> simp [sval, rndMag_zero, (pow2_pos 1024).le, this]

theorem rndMag_idem {q : ℚ} (hq : 0 ≤ q) : rndMag (rndMag q) = rndMag q := by
  rcases hq.lt_or_eq with h | h
  swap
  · rw [← h, rndMag_zero, rndMag_zero]
  have hk0 : 0 ≤ rne (q / pow2 (expOf q)) :=
    rne_nonneg (div_nonneg hq (pow2_pos _).le)
  have hk1 : rne (q / pow2 (expOf q)) ≤ 2 ^ 53 := by
    have := rne_mono (scaled_lt q h).le
    rw [show (53 : ℤ) = ((53 : ℕ) : ℤ) from rfl, pow2_natCast, rne_intCast] at this
    exact this
  obtain ⟨k, hk⟩ := Int.eq_ofNat_of_zero_le hk0
  have hr : rndMag q = (k : ℚ) * pow2 (expOf q) := by
    unfold rndMag; rw [hk]; simp
  rw [hr]
  rw [hk] at hk1
  have hk2 : k ≤ 2 ^ 53 := by exact_mod_cast hk1
  rcases hk2.lt_or_eq with hlt | heq
  · exact rndMag_exact k _ hlt (expOf_ge q)
  · have e1 : (k : ℚ) * pow2 (expOf q) = ((2 ^ 52 : ℕ) : ℚ) * pow2 (expOf q + 1) := by
      rw [heq, pow2_add]
      have : pow2 1 = 2 := by rw [pow2_eq]; norm_num
      rw [this]; push_cast; ring
    rw [e1]
    exact rndMag_exact (2 ^ 52) _ (by norm_num) (by have := expOf_ge q; omega)

theorem isFinite_or_inf_ofMag (s : Bool) {q : ℚ} (hq : 0 ≤ q) :
    IsFinite (ofMag s q) ∨ ofMag s q = inf s := by
  unfold ofMag
  split_ifs with h
  · left; exact ⟨rndMag_nonneg hq, rndMag_idem hq, h⟩
  · right; rfl

theorem cr_ext_of_isFinite {x : F64} (h : IsFinite x) : cr (ext x) = ext x := by
  cases x with
  | nan => exact absurd h id
  | inf s => exact absurd h id
  | fin s m =>
    obtain ⟨h0, h1, h2⟩ := h
    simp only [ext]
    rw [cr_sval s h0, h1, min_eq_left h2.le]

/-! ### Extended value of each operation -/

theorem liftMono_of_abs_lt {h : ℚ → ℚ} {u : ℚ} (hu : |u| < pow2 1024) :
    liftMono h u = cr (h u) := by
  obtain ⟨h1, h2⟩ := abs_lt.mp hu
  unfold liftMono
  rw [if_neg (not_le.mpr h2), if_neg (not_le.mpr h1)]

theorem liftAnti_of_abs_lt {h : ℚ → ℚ} {u : ℚ} (hu : |u| < pow2 1024) :
    liftAnti h u = cr (h u) := by
  obtain ⟨h1, h2⟩ := abs_lt.mp hu
  unfold liftAnti
  rw [if_neg (not_le.mpr h2), if_neg (not_le.mpr h1)]

theorem abs_sval_lt {s : Bool} {m : ℚ} (h0 : 0 ≤ m) (h1 : m < pow2 1024) :
    |sval s m| < pow2 1024 := by
  cases s <;> simp [sval, abs_of_nonneg h0, h1]

theorem liftMono_B (h : ℚ → ℚ) : liftMono h (pow2 1024) = pow2 1024 := by
  unfold liftMono; simp

theorem liftMono_negB (h : ℚ → ℚ) : liftMono h (-pow2 1024) = -pow2 1024 := by
  have hB := pow2_pos 1024
  unfold liftMono
  rw [if_neg (by linarith), if_pos le_rfl]

theorem liftAnti_B (h : ℚ → ℚ) : liftAnti h (pow2 1024) = -pow2 1024 := by
  unfold liftAnti; simp

theorem liftAnti_negB (h : ℚ → ℚ) : liftAnti h (-pow2 1024) = pow2 1024 := by
  have hB := pow2_pos 1024
  unfold liftAnti
  rw [if_neg (by linarith), if_pos le_rfl]

theorem add_fin_fin (a b : Bool) (x y : ℚ) :
    Num (add (fin a x) (fin b y)) ∧
      ext (add (fin a x) (fin b y)) = cr (sval a x + sval b y) := by
  have e : add (fin a x) (fin b y) =
      if sval a x + sval b y = 0 then fin (a && b) 0 else ofRat (sval a x + sval b y) := rfl
  rw [e]
  split_ifs with h
  · rw [h, cr_zero]
    exact ⟨⟨le_rfl, pow2_pos 1024⟩, by simp [ext, sval]⟩
  · exact ⟨num_ofRat _, ext_ofRat _⟩

theorem neg_fin (b : Bool) (y : ℚ) : neg (fin b y) = fin (!b) y := rfl

theorem sval_not (b : Bool) (y : ℚ) : sval (!b) y = -sval b y := by
  cases b <;> simp [sval]

theorem sub_fin_fin (a b : Bool) (x y : ℚ) :
    Num (sub (fin a x) (fin b y)) ∧
      ext (sub (fin a x) (fin b y)) = cr (sval a x - sval b y) := by
  unfold sub
  rw [neg_fin]
  have := add_fin_fin a (!b) x y
  rw [sval_not] at this
  rw [sub_eq_add_neg]
  exact this

theorem mul_fin_fin (a b : Bool) {x y : ℚ} (hx : 0 ≤ x) (hy : 0 ≤ y) :
    Num (mul (fin a x) (fin b y)) ∧
      ext (mul (fin a x) (fin b y)) = cr (sval a x * sval b y) := by
  have hxy : 0 ≤ x * y := mul_nonneg hx hy
  have e : sval a x * sval b y = sval (xor a b) (x * y) := by
    cases a <;> cases b <;> simp [sval]
  have e2 : mul (fin a x) (fin b y) = ofMag (xor a b) (x * y) := rfl
  rw [e, cr_sval _ hxy, e2]
  exact ⟨num_ofMag _ hxy, ext_ofMag _ hxy⟩

theorem div_fin_fin (a b : Bool) {x y : ℚ} (hx : 0 ≤ x) (hy : 0 < y) :
    Num (div (fin a x) (fin b y)) ∧
      ext (div (fin a x) (fin b y)) = cr (sval a x / sval b y) := by
  have hxy : 0 ≤ x / y := div_nonneg hx hy.le
  have e : sval a x / sval b y = sval (xor a b) (x / y) := by
    cases a <;> cases b <;> simp [sval, neg_div, div_neg]
  rw [e, cr_sval _ hxy]
  have e2 : div (fin a x) (fin b y) =
      if y = 0 then (if x = 0 then nan else inf (xor a b)) else ofMag (xor a b) (x / y) := rfl
  rw [e2, if_neg hy.ne.symm]
  exact ⟨num_ofMag _ hxy, ext_ofMag _ hxy⟩

/-- Adding to a finite `k`: monotone in the other operand. -/
theorem ext_add_left {k x : F64} (hk : IsFinite k) (hx : Num x) :
    Num (add k x) ∧ ext (add k x) = liftMono (fun u => ext k + u) (ext x) := by
  cases k with
  | nan => exact absurd hk id
  | inf s => exact absurd hk id
  | fin s m =>
    cases x with
    | nan => exact absurd hx id
    | inf b =>
      cases b
      · exact ⟨trivial, by simp [add, ext, sval, liftMono_B]⟩
      · exact ⟨trivial, by simp [add, ext, sval, liftMono_negB]⟩
    | fin b n =>
      have e0 : ext (fin b n) = sval b n := rfl
      rw [e0, liftMono_of_abs_lt (abs_sval_lt hx.1 hx.2)]
      exact add_fin_fin s b m n

theorem ext_sub_left {k x : F64} (hk : IsFinite k) (hx : Num x) :
    Num (sub k x) ∧ ext (sub k x) = liftAnti (fun u => ext k - u) (ext x) := by
  cases k with
  | nan => exact absurd hk id
  | inf s => exact absurd hk id
  | fin s m =>
    cases x with
    | nan => exact absurd hx id
    | inf b =>
      cases b
      · exact ⟨trivial, by simp [sub, neg, add, ext, sval, liftAnti_B]⟩
      · exact ⟨trivial, by simp [sub, neg, add, ext, sval, liftAnti_negB]⟩
    | fin b n =>
      have e0 : ext (fin b n) = sval b n := rfl
      rw [e0, liftAnti_of_abs_lt (abs_sval_lt hx.1 hx.2)]
      exact sub_fin_fin s b m n

/-- Dividing by a finite positive `c`: monotone in the dividend. -/
theorem ext_div_right {c x : F64} (hc : IsFinite c) (hpos : 0 < ext c) (hx : Num x) :
    Num (div x c) ∧ ext (div x c) = liftMono (fun u => u / ext c) (ext x) := by
  cases c with
  | nan => exact absurd hc id
  | inf s => exact absurd hc id
  | fin s m =>
    obtain ⟨h0, -, -⟩ := hc
    have hs : s = false := by
      cases s
      · rfl
      · simp [ext, sval] at hpos; linarith
    subst hs
    have hm : 0 < m := by simpa [ext, sval] using hpos
    cases x with
    | nan => exact absurd hx id
    | inf b =>
      cases b
      · exact ⟨trivial, by simp [div, ext, sval, liftMono_B]⟩
      · exact ⟨trivial, by simp [div, ext, sval, liftMono_negB]⟩
    | fin b n =>
      have e0 : ext (fin b n) = sval b n := rfl
      rw [e0, liftMono_of_abs_lt (abs_sval_lt hx.1 hx.2)]
      exact div_fin_fin b false hx.1 hm

/-- Multiplying by a finite positive `c`: monotone in the other factor. -/
theorem ext_mul_right {c x : F64} (hc : IsFinite c) (hpos : 0 < ext c) (hx : Num x) :
    Num (mul x c) ∧ ext (mul x c) = liftMono (fun u => u * ext c) (ext x) := by
  cases c with
  | nan => exact absurd hc id
  | inf s => exact absurd hc id
  | fin s m =>
    obtain ⟨h0, -, -⟩ := hc
    have hs : s = false := by
      cases s
      · rfl
      · simp [ext, sval] at hpos; linarith
    subst hs
    have hm : 0 < m := by simpa [ext, sval] using hpos
    cases x with
    | nan => exact absurd hx id
    | inf b =>
      cases b
      · have e1 : mul (inf false) (fin false m) = inf false := by simp [mul, hm.ne.symm]
        rw [e1]
        exact ⟨trivial, by simp [ext, sval, liftMono_B]⟩
      · have e1 : mul (inf true) (fin false m) = inf true := by simp [mul, hm.ne.symm]
        rw [e1]
        exact ⟨trivial, by simp [ext, sval, liftMono_negB]⟩
    | fin b n =>
      have e0 : ext (fin b n) = sval b n := rfl
      rw [e0, liftMono_of_abs_lt (abs_sval_lt hx.1 hx.2)]
      exact mul_fin_fin b false hx.1 hm.le


/-! ### Integers are exact -/

theorem pow2_zero : pow2 0 = 1 := by rw [pow2_eq]; norm_num

theorem pow2_one : pow2 1 = 2 := by rw [pow2_eq]; norm_num

theorem two_pow_53_lt : (2 : ℚ) ^ 53 < pow2 1024 := by
  have h := (@pow2_lt_pow2_iff 53 1024).mpr (by norm_num)
  rw [show (53 : ℤ) = ((53 : ℕ) : ℤ) from rfl, pow2_natCast] at h
  exact_mod_cast h

theorem rndMag_natCast (k : ℕ) (hk : k ≤ 2 ^ 53) : rndMag (k : ℚ) = k := by
  rcases hk.lt_or_eq with h | h
  · have := rndMag_exact k 0 h (by norm_num)
    rwa [pow2_zero, mul_one] at this
  · have := rndMag_exact (2 ^ 52) 1 (by norm_num) (by norm_num)
    rw [pow2_one] at this
    have e : ((2 ^ 52 : ℕ) : ℚ) * 2 = (k : ℚ) := by rw [h]; push_cast; norm_num
    rwa [e] at this

theorem cr_natCast (k : ℕ) (hk : k ≤ 2 ^ 53) : cr (k : ℚ) = k := by
  have h0 : (0 : ℚ) ≤ k := by positivity
  have hlt : (k : ℚ) < pow2 1024 := by
    have : (k : ℚ) ≤ 2 ^ 53 := by exact_mod_cast hk
    exact lt_of_le_of_lt this two_pow_53_lt
  unfold cr
  rw [if_neg (not_lt.mpr h0), rndMag_natCast k hk, min_eq_left hlt.le]

theorem cr_neg (r : ℚ) : cr (-r) = -cr r := by
  rcases lt_trichotomy r 0 with h | h | h
  · unfold cr
    rw [if_neg (by linarith), if_pos h]; simp
  · subst h; simp [cr_zero]
  · unfold cr
    rw [if_pos (by linarith), if_neg (by linarith)]; simp

theorem cr_intCast (n : ℤ) (h : |n| ≤ 2 ^ 53) : cr (n : ℚ) = n := by
  obtain ⟨h1, h2⟩ := abs_le.mp h
  rcases le_or_lt 0 n with hn | hn
  · obtain ⟨k, rfl⟩ := Int.eq_ofNat_of_zero_le hn
    have : k ≤ 2 ^ 53 := by exact_mod_cast h2
    exact_mod_cast cr_natCast k this
  · obtain ⟨k, hk⟩ := Int.eq_ofNat_of_zero_le (show 0 ≤ -n by omega)
    have e : n = -(k : ℤ) := by omega
    have : k ≤ 2 ^ 53 := by
      have : (k : ℤ) ≤ 2 ^ 53 := by omega
      exact_mod_cast this
    rw [e]
    push_cast
    rw [cr_neg, cr_natCast k this]

theorem ofRat_of_rep {r : ℚ} (h1 : rndMag |r| = |r|) (h2 : |r| < pow2 1024) :
    ofRat r = fin (decide (r < 0)) |r| := by
  unfold ofRat ofMag
  rw [h1, if_pos h2]

theorem isFinite_ofInt (n : ℤ) (h : |n| ≤ 2 ^ 53) :
    IsFinite (ofInt n) ∧ ext (ofInt n) = n := by
  have ha : |(n : ℚ)| = ((n.natAbs : ℕ) : ℚ) := by
    rw [Nat.cast_natAbs]; push_cast; rfl
  have hk : n.natAbs ≤ 2 ^ 53 := by
    have : (n.natAbs : ℤ) ≤ 2 ^ 53 := by rw [Int.natCast_natAbs]; exact h
    exact_mod_cast this
  have h1 : rndMag |(n : ℚ)| = |(n : ℚ)| := by rw [ha]; exact rndMag_natCast _ hk
  have h2 : |(n : ℚ)| < pow2 1024 := by
    rw [ha]
    have : ((n.natAbs : ℕ) : ℚ) ≤ 2 ^ 53 := by exact_mod_cast hk
    exact lt_of_le_of_lt this two_pow_53_lt
  constructor
  · unfold ofInt
    rw [ofRat_of_rep h1 h2]
    exact ⟨abs_nonneg _, h1, h2⟩
  · unfold ofInt
    rw [ext_ofRat]
    exact cr_intCast n h

end F64

open F64

/-! ### Exact values and error bounds of rounding -/

theorem cr_pow2 (e : ℤ) (h1 : -1074 ≤ e) (h2 : e < 1024) : cr (pow2 e) = pow2 e := by
  have hx := rndMag_exact 1 e (by norm_num) h1
  rw [Nat.cast_one, one_mul] at hx
  unfold cr
  rw [if_neg (not_lt.mpr (pow2_pos e).le), hx,
    min_eq_left (pow2_le_pow2 (by omega : e ≤ 1024))]

theorem abs_cr_le {r b : ℚ} (hb : cr b = b) (h : |r| ≤ b) : |cr r| ≤ b := by
  obtain ⟨h1, h2⟩ := abs_le.mp h
  rw [abs_le]
  constructor
  · have := cr_mono h1
    rw [cr_neg, hb] at this
    exact this
  · have := cr_mono h2
    rw [hb] at this
    exact this

theorem isFinite_const (n : ℕ) (hn : n ≤ 2 ^ 53) :
    IsFinite (ofRat (n : ℚ)) ∧ ext (ofRat (n : ℚ)) = n := by
  have := isFinite_ofInt (n : ℤ) (by
    rw [abs_of_nonneg (by positivity)]; exact_mod_cast hn)
  simpa [ofInt] using this

theorem pow2_nat (n : ℕ) : pow2 (n : ℤ) = (2 : ℚ) ^ n := by
  rw [pow2_eq]; exact zpow_natCast 2 n

theorem two_pow_lt_B (n : ℕ) (h : n < 1024) : (2 : ℚ) ^ n < pow2 1024 := by
  rw [← pow2_nat]
  exact pow2_lt_pow2_iff.mpr (by omega)

theorem cr_two_pow (n : ℕ) (h : n < 1024) : cr ((2 : ℚ) ^ n) = 2 ^ n := by
  rw [← pow2_nat]
  exact cr_pow2 _ (by omega) (by omega)

theorem cr_one : cr 1 = 1 := by
  have := cr_two_pow 0 (by norm_num)
  simpa using this

/-- A rounded value within `2 ^ n` in magnitude, `n < 1024`, stays within it. -/
theorem abs_cr_le_two_pow {r : ℚ} (n : ℕ) (hn : n < 1024) (h : |r| ≤ 2 ^ n) :
    |cr r| ≤ 2 ^ n ∧ |cr r| < pow2 1024 := by
  have h1 := abs_cr_le (cr_two_pow n hn) h
  exact ⟨h1, lt_of_le_of_lt h1 (two_pow_lt_B n hn)⟩

theorem cr_of_nonneg {r : ℚ} (h : 0 ≤ r) : cr r = min (rndMag r) (pow2 1024) := by
  unfold cr
  rw [if_neg (not_lt.mpr h)]

/-- Grid points with a 53-bit significand are fixed by rounding. -/
theorem cr_grid (k : ℕ) (e : ℤ) (hk : k < 2 ^ 53) (he : -1074 ≤ e)
    (hb : (k : ℚ) * pow2 e < pow2 1024) : cr ((k : ℚ) * pow2 e) = (k : ℚ) * pow2 e := by
  have h0 : (0 : ℚ) ≤ k * pow2 e := mul_nonneg (Nat.cast_nonneg k) (pow2_pos e).le
  rw [cr_of_nonneg h0, rndMag_exact k e hk he, min_eq_left hb.le]

theorem two_pow_63_lt : (2 : ℚ) ^ 63 < pow2 1024 := by
  have h := (@pow2_lt_pow2_iff 63 1024).mpr (by norm_num)
  rw [pow2_eq 63] at h
  exact_mod_cast h

/-- A number whose value lies in `[k, k + 1)` for a natural `k` below `2 ^ 63` converts
to the integer `k`. -/
theorem toInt_of_ext {x : F64} {k : ℤ} (hx : Num x) (h0 : 0 ≤ k) (hk : k < 2 ^ 63)
    (h1 : (k : ℚ) ≤ ext x) (h2 : ext x < k + 1) : toInt x = k := by
  have hB := two_pow_63_lt
  have kq : (k : ℚ) + 1 ≤ 2 ^ 63 := by exact_mod_cast hk
  have k0 : (0 : ℚ) ≤ k := by exact_mod_cast h0
  cases x with
  | nan => exact absurd hx id
  | inf s =>
    exfalso
    cases s
    · have e : ext (inf false) = pow2 1024 := by simp [ext, sval]
      rw [e] at h2
      linarith
    · have e : ext (inf true) = -pow2 1024 := by simp [ext, sval]
      rw [e] at h1
      linarith [pow2_pos 1024]
  | fin c r =>
    have ex : ext (fin c r) = sval c r := rfl
    rw [ex] at h1 h2
    have t : truncQ (sval c r) = k := by
      unfold truncQ
      rw [if_neg (not_lt.mpr (le_trans k0 h1))]
      exact Int.floor_eq_iff.mpr ⟨h1, h2⟩
    have e : toInt (fin c r) = if -(2 ^ 63) ≤ truncQ (sval c r) ∧ truncQ (sval c r) < 2 ^ 63
        then truncQ (sval c r) else -(2 ^ 63) := rfl
    rw [e, t, if_pos ⟨by omega, hk⟩]

/-- Rounding moves a value by at most half a unit in the last place. -/
theorem abs_cr_sub_le {q : ℚ} {e : ℤ} (he : -1074 ≤ e) (hB : e + 53 ≤ 1024)
    (hq : |q| < pow2 (e + 53)) : |cr q - q| ≤ pow2 e / 2 := by
  have key : ∀ r : ℚ, 0 ≤ r → r < pow2 (e + 53) → |cr r - r| ≤ pow2 e / 2 := by
    intro r h0 hr
    rcases h0.eq_or_lt with hz | hpos
    · rw [← hz, cr_zero, sub_zero, abs_zero]
      exact (half_pos (pow2_pos e)).le
    · have hP := pow2_pos (expOf r)
      have hle : expOf r ≤ e := by
        have s := ilog2_spec r hpos
        have : pow2 (ilog2 r) < pow2 (e + 53) := lt_of_le_of_lt s.1 hr
        have := pow2_lt_pow2_iff.mp this
        unfold expOf
        exact max_le he (by omega)
      have hPe : pow2 (expOf r) ≤ pow2 e := pow2_le_pow2 hle
      have hR : |rndMag r - r| ≤ pow2 (expOf r) / 2 := by
        have a := abs_rne_sub_le (r / pow2 (expOf r))
        have e1 : rndMag r - r
            = ((rne (r / pow2 (expOf r)) : ℚ) - r / pow2 (expOf r)) * pow2 (expOf r) := by
          unfold rndMag
          field_simp
        rw [e1, abs_mul, abs_of_pos hP]
        calc |(rne (r / pow2 (expOf r)) : ℚ) - r / pow2 (expOf r)| * pow2 (expOf r)
            ≤ 1 / 2 * pow2 (expOf r) := mul_le_mul_of_nonneg_right a hP.le
          _ = pow2 (expOf r) / 2 := by ring
      have hR2 : |rndMag r - r| ≤ pow2 e / 2 := le_trans hR (by linarith)
      rw [cr_of_nonneg hpos.le]
      rcases le_total (rndMag r) (pow2 1024) with c | c
      · rw [min_eq_left c]; exact hR2
      · rw [min_eq_right c]
        have := abs_le.mp hR2
        have hrB : r < pow2 1024 := lt_of_lt_of_le hr (pow2_le_pow2 hB)
        rw [abs_le]
        constructor
        · linarith [half_pos (pow2_pos e)]
        · linarith
  rcases le_or_lt 0 q with h0 | hneg
  · exact key q h0 (by rwa [abs_of_nonneg h0] at hq)
  · have h := key (-q) (by linarith) (by rwa [abs_of_neg hneg] at hq)
    have e1 : cr q - q = -(cr (-q) - -q) := by rw [cr_neg]; ring
    rw [e1, abs_neg]
    exact h

/-- A number with a positive value below the overflow threshold is that finite value. -/
theorem eq_fin_of_ext {x : F64} (hx : Num x) {r : ℚ} (h : ext x = r) (h0 : 0 < r)
    (hB : r < pow2 1024) : x = fin false r := by
  cases x with
  | nan => exact absurd hx id
  | inf s =>
    exfalso
    cases s
    · have e : ext (inf false) = pow2 1024 := by simp [ext, sval]
      rw [e] at h
      linarith
    · have e : ext (inf true) = -pow2 1024 := by simp [ext, sval]
      rw [e] at h
      linarith [pow2_pos 1024]
  | fin c m =>
    have e : ext (fin c m) = sval c m := rfl
    rw [e] at h
    cases c
    · have : sval false m = m := by simp [sval]
      rw [this] at h
      rw [h]
    · exfalso
      have : sval true m = -m := by simp [sval]
      rw [this] at h
      have := hx.1
      linarith

theorem pow2_neg_nat (n : ℕ) : pow2 (-(n : ℤ)) = 1 / 2 ^ n := by
  rw [pow2_eq, zpow_neg, zpow_natCast, one_div]

/-! ### The value of `Duration.Minutes` and `Duration.Hours` -/

theorem unitsF_ext (u h n : ℤ) (hu : 0 < u) (hu2 : u ≤ 2 ^ 53) (hh : |h| ≤ 2 ^ 53) :
    Num (add (ofInt h) (div (ofInt n) (ofRat u))) ∧
      ext (add (ofInt h) (div (ofInt n) (ofRat u))) = unitsQ u h n := by
  obtain ⟨fu, eu⟩ := isFinite_ofInt u (by rw [abs_of_pos hu]; exact hu2)
  obtain ⟨fh, eh⟩ := isFinite_ofInt h hh
  have fu2 : IsFinite (ofRat (u : ℚ)) := fu
  have eu2 : ext (ofRat (u : ℚ)) = u := eu
  have upos : 0 < ext (ofRat (u : ℚ)) := by rw [eu2]; exact_mod_cast hu
  obtain ⟨n1, e1⟩ := ext_div_right fu2 upos (num_ofRat (n : ℚ))
  have n1b : Num (div (ofInt n) (ofRat (u : ℚ))) := n1
  have e1b : ext (div (ofInt n) (ofRat (u : ℚ)))
      = liftMono (fun v => v / (u : ℚ)) (cr (n : ℚ)) := by
    have : ext (div (ofInt n) (ofRat (u : ℚ)))
        = liftMono (fun v => v / ext (ofRat (u : ℚ))) (ext (ofRat (n : ℚ))) := e1
    rw [this, eu2, ext_ofRat]
  obtain ⟨n2, e2⟩ := ext_add_left fh n1b
  refine ⟨n2, ?_⟩
  rw [e2, eh, e1b]
  rfl

theorem unitsQ_mono (u h : ℤ) (hu : 0 < u) : Monotone (fun n : ℤ => unitsQ u h n) := by
  intro a b hab
  unfold unitsQ
  apply liftMono_mono (fun x y hxy => by linarith)
  apply liftMono_mono (fun x y hxy => by
    have : (0 : ℚ) < u := by exact_mod_cast hu
    exact div_le_div_of_nonneg_right hxy this.le)
  apply cr_mono
  exact_mod_cast hab

theorem unitsQ_zero (u h : ℤ) (hh : |h| ≤ 2 ^ 53) : unitsQ u h 0 = h := by
  have hB := pow2_pos 1024
  have z : |(0 : ℚ)| < pow2 1024 := by simpa using hB
  have i1 : liftMono (fun v => v / (u : ℚ)) 0 = 0 := by
    rw [liftMono_of_abs_lt z]
    simp only [zero_div]
    exact cr_zero
  unfold unitsQ
  rw [Int.cast_zero, cr_zero, i1, liftMono_of_abs_lt z, add_zero]
  exact cr_intCast h hh

theorem unitsQ_full (u h : ℤ) (hu : 0 < u) (hu2 : u ≤ 2 ^ 53) (hh : |h + 1| ≤ 2 ^ 53) :
    unitsQ u h u = h + 1 := by
  have hB := pow2_pos 1024
  have uq : (0 : ℚ) < u := by exact_mod_cast hu
  have cu : cr (u : ℚ) = u := cr_intCast u (by rw [abs_of_pos hu]; exact hu2)
  have ub : |(u : ℚ)| < pow2 1024 := by
    rw [abs_of_pos uq]
    have : (u : ℚ) ≤ 2 ^ 53 := by exact_mod_cast hu2
    exact lt_of_le_of_lt this two_pow_53_lt
  have c1 : cr (1 : ℚ) = 1 := by
    have := cr_natCast 1 (by norm_num)
    simpa using this
  have ob : |(1 : ℚ)| < pow2 1024 := by
    rw [abs_one]
    have : (1 : ℚ) ≤ 2 ^ 53 := by norm_num
    exact lt_of_le_of_lt this two_pow_53_lt
  have i1 : liftMono (fun v => v / (u : ℚ)) (u : ℚ) = 1 := by
    rw [liftMono_of_abs_lt ub]
    simp only [div_self uq.ne.symm]
    exact c1
  unfold unitsQ
  rw [cu, i1, liftMono_of_abs_lt ob]
  have := cr_intCast (h + 1) hh
  push_cast at this
  exact this

theorem unitsQ_eq (u h n : ℤ) (hu : 0 < u) (hu2 : u ≤ 2 ^ 53) (hn0 : 0 ≤ n) (hn : n ≤ u) :
    unitsQ u h n = cr ((h : ℚ) + cr ((n : ℚ) / u)) ∧ 0 ≤ cr ((n : ℚ) / u)
      ∧ cr ((n : ℚ) / u) ≤ 1 := by
  have uq : (0 : ℚ) < u := by exact_mod_cast hu
  have nq0 : (0 : ℚ) ≤ n := by exact_mod_cast hn0
  have nq : (n : ℚ) ≤ u := by exact_mod_cast hn
  have cn : cr (n : ℚ) = n := cr_intCast n (by rw [abs_of_nonneg hn0]; omega)
  have nb : |(n : ℚ)| < pow2 1024 := by
    rw [abs_of_nonneg nq0]
    have : (n : ℚ) ≤ 2 ^ 53 := by exact_mod_cast (le_trans hn hu2)
    exact lt_of_le_of_lt this two_pow_53_lt
  have c0 : 0 ≤ cr ((n : ℚ) / u) := by
    have := cr_mono (div_nonneg nq0 uq.le)
    rwa [cr_zero] at this
  have c1 : cr ((n : ℚ) / u) ≤ 1 := by
    have := cr_mono ((div_le_one uq).mpr nq)
    rwa [cr_one] at this
  have cb : |cr ((n : ℚ) / u)| < pow2 1024 := by
    rw [abs_of_nonneg c0]
    have : (1 : ℚ) < pow2 1024 := by
      have := two_pow_53_lt
      have h1 : (1 : ℚ) ≤ 2 ^ 53 := by norm_num
      linarith
    linarith
  refine ⟨?_, c0, c1⟩
  have i1 : liftMono (fun v => v / (u : ℚ)) (n : ℚ) = cr ((n : ℚ) / u) :=
    liftMono_of_abs_lt nb
  unfold unitsQ
  rw [cn, i1, liftMono_of_abs_lt cb]

/-- The extended value grows with the whole units first and the remainder second. -/
theorem unitsQ_lex (u : ℤ) (hu : 0 < u) (hu2 : u ≤ 2 ^ 53) {h1 h2 n1 n2 : ℤ}
    (a1 : |h1 + 1| ≤ 2 ^ 53) (a2 : |h2| ≤ 2 ^ 53) (hn1 : n1 ≤ u) (hn2 : 0 ≤ n2)
    (hl : h1 < h2 ∨ (h1 = h2 ∧ n1 ≤ n2)) : unitsQ u h1 n1 ≤ unitsQ u h2 n2 := by
  rcases hl with hlt | ⟨heq, hle⟩
  · calc unitsQ u h1 n1 ≤ unitsQ u h1 u := unitsQ_mono u _ hu hn1
      _ = ((h1 : ℤ) : ℚ) + 1 := unitsQ_full u _ hu hu2 a1
      _ ≤ ((h2 : ℤ) : ℚ) := by exact_mod_cast hlt
      _ = unitsQ u h2 0 := (unitsQ_zero u _ a2).symm
      _ ≤ unitsQ u h2 n2 := unitsQ_mono u _ hu hn2
  · rw [← heq]
    exact unitsQ_mono u _ hu hle

theorem unitsF_val (u d : ℤ) (hu : 0 < u) (hu2 : u ≤ 2 ^ 53) (h0 : 0 ≤ d)
    (hb : d / u ≤ 2 ^ 53) :
    Num (unitsF u d) ∧ ext (unitsF u d) = unitsQ u (d / u) (d % u) := by
  have q1 : 0 ≤ d / u := Int.ediv_nonneg h0 hu.le
  have a1 : |d / u| ≤ 2 ^ 53 := by rw [abs_of_nonneg q1]; exact hb
  have f1 : unitsF u d = add (ofInt (d / u)) (div (ofInt (d % u)) (ofRat u)) := by
    unfold unitsF
    rw [Int.tdiv_eq_ediv h0 hu.le, Int.tmod_eq_emod h0 hu.le]
  rw [f1]
  exact unitsF_ext u (d / u) (d % u) hu hu2 a1

/-- When the rounded fraction of the last nanosecond stays `2 ^ -e` below one and
`(m + 1) * 2 ^ e` fits the significand, every value of unit `m` lies in `[m, m + 1)`. -/
theorem unitsQ_floor (u m n : ℤ) (e : ℕ) (hu : 0 < u) (hu2 : u ≤ 2 ^ 53) (hm : 0 ≤ m)
    (hme : (m + 1) * 2 ^ e ≤ 2 ^ 53) (hn0 : 0 ≤ n) (hn : n < u)
    (hc : cr (((u : ℚ) - 1) / u) ≤ 1 - 1 / 2 ^ e) :
    (m : ℚ) ≤ unitsQ u m n ∧ unitsQ u m n < m + 1 := by
  have pe : (1 : ℤ) ≤ 2 ^ e := one_le_pow₀ (by norm_num)
  have m53 : m + 1 ≤ 2 ^ 53 := by nlinarith
  have e53 : (2 : ℤ) ^ e ≤ 2 ^ 53 := by nlinarith
  have he : e ≤ 53 := by
    by_contra hne
    have : (2 : ℤ) ^ 53 < 2 ^ e := pow_lt_pow_right₀ (by norm_num) (by omega)
    omega
  constructor
  · have := unitsQ_mono u m hu hn0
    simp only at this
    rwa [unitsQ_zero u m (by rw [abs_of_nonneg hm]; omega)] at this
  · have h1 : unitsQ u m n ≤ unitsQ u m (u - 1) := unitsQ_mono u m hu (by omega)
    obtain ⟨h2, c0, c1⟩ := unitsQ_eq u m (u - 1) hu hu2 (by omega) (by omega)
    have ec : (((u - 1 : ℤ) : ℚ)) / u = ((u : ℚ) - 1) / u := by push_cast; ring
    rw [ec] at h2
    obtain ⟨K, hK⟩ := Int.eq_ofNat_of_zero_le (show 0 ≤ (m + 1) * 2 ^ e - 1 by nlinarith)
    have hK53 : K < 2 ^ 53 := by
      have : (K : ℤ) < 2 ^ 53 := by omega
      exact_mod_cast this
    have pq : pow2 (-(e : ℤ)) = 1 / 2 ^ e := by
      rw [pow2_eq, zpow_neg, zpow_natCast, one_div]
    have hval : (K : ℚ) * pow2 (-(e : ℤ)) = (m : ℚ) + 1 - 1 / 2 ^ e := by
      have : ((K : ℤ) : ℚ) = ((m + 1) * 2 ^ e - 1 : ℤ) := by rw [hK]
      push_cast at this
      rw [pq, this]
      field_simp
    have e2 : (0 : ℚ) < 1 / 2 ^ e := by positivity
    have hb : (K : ℚ) * pow2 (-(e : ℤ)) < pow2 1024 := by
      rw [hval]
      have : (m : ℚ) + 1 ≤ 2 ^ 53 := by exact_mod_cast m53
      linarith [two_pow_53_lt]
    have g := cr_grid K (-(e : ℤ)) hK53 (by omega) hb
    rw [hval] at g
    have h3 : cr ((m : ℚ) + cr (((u : ℚ) - 1) / u)) ≤ cr ((m : ℚ) + 1 - 1 / 2 ^ e) :=
      cr_mono (by linarith)
    rw [g] at h3
    rw [h2] at h1
    linarith

/-! ### `formatTimeAgo` -/

theorem minute_cast : ((Minute : ℤ) : ℚ) = 60000000000 := by
  unfold Minute Second; norm_num

theorem hour_cast : ((Hour : ℤ) : ℚ) = 3600000000000 := by
  unfold Hour Minute Second; norm_num

theorem minutes_eq_unitsF (d : ℤ) : Duration.Minutes d = unitsF Minute d := by
  unfold Duration.Minutes unitsF
  rw [minute_cast]

theorem hours_eq_unitsF (d : ℤ) : Duration.Hours d = unitsF Hour d := by
  unfold Duration.Hours unitsF
  rw [hour_cast]

theorem minute_val : Minute = 60000000000 := by unfold Minute Second; norm_num

theorem hour_val : Hour = 3600000000000 := by unfold Hour Minute Second; norm_num

theorem isFinite_24 : IsFinite (ofRat 24) ∧ ext (ofRat 24) = 24 := by
  have := isFinite_ofInt 24 (by norm_num)
  simpa [ofInt] using this

set_option maxRecDepth 1000000 in
theorem minute_frac : cr (((60000000000 : ℚ) - 1) / 60000000000) ≤ 1 - 1 / 2 ^ 36 := by
  decide!

set_option maxRecDepth 1000000 in
theorem hour_frac : cr (((3600000000000 : ℚ) - 1) / 3600000000000) = hourFracLast ∧
    cr (((3600000000000 : ℚ) - 2) / 3600000000000) = hourFracPrev ∧
    hourFracLast ≤ 1 - 1 / 2 ^ 42 := by
  decide!

set_option maxRecDepth 1000000 in
theorem dayCheck_all : ∀ k < 171, dayCheck k = true := by decide!

/-- Within the first hour `int(d.Minutes())` is the whole number of minutes. -/
theorem toInt_minutes (d : ℤ) (h0 : 0 ≤ d) (h1 : d < Hour) :
    toInt (Duration.Minutes d) = d / Minute := by
  rw [hour_val] at h1
  have hu : (0 : ℤ) < Minute := by rw [minute_val]; norm_num
  have hu2 : Minute ≤ 2 ^ 53 := by rw [minute_val]; norm_num
  have q0 : 0 ≤ d / Minute := Int.ediv_nonneg h0 hu.le
  have q60 : d / Minute < 60 := by rw [minute_val]; omega
  obtain ⟨n1, e1⟩ := unitsF_val Minute d hu hu2 h0 (by omega)
  have hc : cr ((((Minute : ℤ) : ℚ) - 1) / (Minute : ℤ)) ≤ 1 - 1 / 2 ^ 36 := by
    rw [minute_cast]; exact minute_frac
  obtain ⟨b1, b2⟩ := unitsQ_floor Minute (d / Minute) (d % Minute) 36 hu hu2 q0 (by omega)
    (Int.emod_nonneg d hu.ne.symm) (Int.emod_lt_of_pos d hu) hc
  rw [minutes_eq_unitsF]
  rw [← e1] at b1 b2
  exact toInt_of_ext n1 q0 (by omega) b1 b2

/-- Within the first day `int(d.Hours())` is the whole number of hours. -/
theorem toInt_hours (d : ℤ) (h0 : 0 ≤ d) (h1 : d < 24 * Hour) :
    toInt (Duration.Hours d) = d / Hour := by
  rw [hour_val] at h1
  have hu : (0 : ℤ) < Hour := by rw [hour_val]; norm_num
  have hu2 : Hour ≤ 2 ^ 53 := by rw [hour_val]; norm_num
  have q0 : 0 ≤ d / Hour := Int.ediv_nonneg h0 hu.le
  have q24 : d / Hour < 24 := by rw [hour_val]; omega
  obtain ⟨n1, e1⟩ := unitsF_val Hour d hu hu2 h0 (by omega)
  have hc : cr ((((Hour : ℤ) : ℚ) - 1) / (Hour : ℤ)) ≤ 1 - 1 / 2 ^ 42 := by
    rw [hour_cast, hour_frac.1]; exact hour_frac.2.2
  obtain ⟨b1, b2⟩ := unitsQ_floor Hour (d / Hour) (d % Hour) 42 hu hu2 q0 (by omega)
    (Int.emod_nonneg d hu.ne.symm) (Int.emod_lt_of_pos d hu) hc
  rw [hours_eq_unitsF]
  rw [← e1] at b1 b2
  exact toInt_of_ext n1 q0 (by omega) b1 b2

/-- Up to two nanoseconds before the end of day 170, `int(d.Hours() / 24)` is the whole
number of hours divided by 24. -/
theorem toInt_days (d : ℤ) (h0 : 0 ≤ d) (h1 : d < 171 * (24 * Hour) - 1) :
    toInt (div (Duration.Hours d) (ofRat 24)) = d / Hour / 24 := by
  rw [hour_val] at h1
  have hu : (0 : ℤ) < Hour := by rw [hour_val]; norm_num
  have hu2 : Hour ≤ 2 ^ 53 := by rw [hour_val]; norm_num
  have q0 : 0 ≤ d / Hour := Int.ediv_nonneg h0 hu.le
  have r0 := Int.emod_nonneg d hu.ne.symm
  have r1 := Int.emod_lt_of_pos d hu
  have hdm := Int.emod_add_ediv d Hour
  obtain ⟨k, hk⟩ := Int.eq_ofNat_of_zero_le
    (show 0 ≤ d / Hour / 24 by omega)
  have hk171 : k < 171 := by rw [hour_val] at hk hdm; omega
  have hlo : 24 * (k : ℤ) ≤ d / Hour := by omega
  have hhi : d / Hour ≤ 24 * (k : ℤ) + 23 := by omega
  have hc := dayCheck_all k hk171
  unfold dayCheck at hc
  rw [decide_eq_true_eq] at hc
  obtain ⟨n1, e1⟩ := unitsF_val Hour d hu hu2 h0 (by omega)
  rw [← hours_eq_unitsF] at n1 e1
  have pos24 : 0 < ext (ofRat 24) := by rw [isFinite_24.2]; norm_num
  obtain ⟨m1, g1⟩ := ext_div_right isFinite_24.1 pos24 n1
  rw [isFinite_24.2, e1] at g1
  have mono : Monotone (liftMono (fun u : ℚ => u / 24)) :=
    liftMono_mono (fun x y hxy => div_le_div_of_nonneg_right hxy (by norm_num))
  rw [hk]
  refine toInt_of_ext m1 (by omega) (by omega) ?_ ?_
  · have l1 : unitsQ Hour (24 * (k : ℤ)) 0 ≤ unitsQ Hour (d / Hour) (d % Hour) :=
      unitsQ_lex Hour hu hu2 (by rw [abs_of_nonneg (by omega)]; omega)
        (by rw [abs_of_nonneg q0]; omega) hu.le r0 (by omega)
    rw [unitsQ_zero Hour _ (by rw [abs_of_nonneg (by omega)]; omega)] at l1
    have l2 := mono l1
    have kb : |(((24 * (k : ℤ) : ℤ)) : ℚ)| < pow2 1024 := by
      have : |(((24 * (k : ℤ) : ℤ)) : ℚ)| ≤ 2 ^ 53 := by
        rw [abs_of_nonneg (by positivity)]
        have : 24 * (k : ℤ) ≤ 2 ^ 53 := by omega
        exact_mod_cast this
      exact lt_of_le_of_lt this two_pow_53_lt
    rw [liftMono_of_abs_lt kb] at l2
    have e24 : (((24 * (k : ℤ) : ℤ)) : ℚ) / 24 = ((k : ℤ) : ℚ) := by push_cast; ring
    simp only [e24] at l2
    rw [cr_intCast (k : ℤ) (by rw [abs_of_nonneg (by omega)]; omega)] at l2
    rw [g1]
    exact l2
  · obtain ⟨c, hcdef⟩ : ∃ c : ℤ, c = if k = 170 then 2 else 1 := ⟨_, rfl⟩
    have c12 : c = 1 ∨ c = 2 := by rw [hcdef]; split_ifs <;> simp
    have hfrac : cr ((((Hour - c : ℤ)) : ℚ) / (Hour : ℤ))
        = if k = 170 then hourFracPrev else hourFracLast := by
      rw [hcdef]
      split_ifs
      · push_cast; rw [hour_cast]; exact hour_frac.2.1
      · push_cast; rw [hour_cast]; exact hour_frac.1
    have hl : d / Hour < 24 * (k : ℤ) + 23
        ∨ (d / Hour = 24 * (k : ℤ) + 23 ∧ d % Hour ≤ Hour - c) := by
      rcases hhi.lt_or_eq with hlt | heq
      · exact Or.inl hlt
      · refine Or.inr ⟨heq, ?_⟩
        rw [hcdef]
        split_ifs with h170
        · subst h170
          rw [hour_val] at hdm heq r1 ⊢
          push_cast at heq
          omega
        · omega
    have l1 : unitsQ Hour (d / Hour) (d % Hour) ≤ unitsQ Hour (24 * (k : ℤ) + 23) (Hour - c) :=
      unitsQ_lex Hour hu hu2 (by rw [abs_of_nonneg (by omega)]; omega)
        (by rw [abs_of_nonneg (by omega)]; omega) r1.le
        (by rw [hour_val]; omega) hl
    obtain ⟨h2, -, f1⟩ := unitsQ_eq Hour (24 * (k : ℤ) + 23) (Hour - c) hu hu2
      (by rw [hour_val]; omega) (by omega)
    have f0 : 0 ≤ cr ((((Hour - c : ℤ)) : ℚ) / (Hour : ℤ)) := by
      have := (unitsQ_eq Hour (24 * (k : ℤ) + 23) (Hour - c) hu hu2
        (by rw [hour_val]; omega) (by omega)).2.1
      exact this
    have kq : (k : ℚ) < 171 := by exact_mod_cast hk171
    have k0 : (0 : ℚ) ≤ k := Nat.cast_nonneg k
    have e3 : (((24 * (k : ℤ) + 23 : ℤ)) : ℚ) = 24 * (k : ℚ) + 23 := by push_cast; ring
    rw [e3] at h2
    generalize cr ((((Hour - c : ℤ)) : ℚ) / (Hour : ℤ)) = F at h2 f0 f1 hfrac
    have hb : |cr (24 * (k : ℚ) + 23 + F)| < pow2 1024 := by
      refine (abs_cr_le_two_pow 53 (by norm_num) ?_).2
      rw [abs_of_nonneg (by linarith)]
      linarith
    have l2 := mono l1
    rw [h2, liftMono_of_abs_lt hb, hfrac] at l2
    rw [g1]
    refine lt_of_le_of_lt l2 ?_
    have e4 : (((k : ℤ)) : ℚ) = (k : ℚ) := by push_cast; rfl
    rw [e4]
    exact hc

theorem since_eq (now t : ℤ) (h1 : -(2 ^ 63) ≤ now - t) (h2 : now - t ≤ 2 ^ 63 - 1) :
    since now t = now - t := by
  unfold since timeSub minDuration maxDuration
  rw [if_neg (by omega), if_neg (by omega)]

theorem since_lt_iff (now t c : ℤ) (h1 : -(2 ^ 63) < c) (h2 : c ≤ 2 ^ 63 - 1) :
    since now t < c ↔ now - t < c := by
  unfold since timeSub minDuration maxDuration
  split_ifs <;> omega

/-- For every non-negative `Duration`, the value of `d.Hours() / 24` lies between the whole
days `k` of `d` and `k + 1`, and stays below `k + 1` when `d` ends at least 2000 ns before
the next whole day. -/
theorem days_ext_bounds (d : ℤ) (h0 : 0 ≤ d) (hmax : d ≤ maxDuration) :
    Num (div (Duration.Hours d) (ofRat 24)) ∧
      ((d / Hour / 24 : ℤ) : ℚ) ≤ ext (div (Duration.Hours d) (ofRat 24)) ∧
      ext (div (Duration.Hours d) (ofRat 24)) ≤ ((d / Hour / 24 : ℤ) : ℚ) + 1 ∧
      (d % (24 * Hour) ≤ 24 * Hour - 2000 →
        ext (div (Duration.Hours d) (ofRat 24)) < ((d / Hour / 24 : ℤ) : ℚ) + 1) := by
  unfold maxDuration at hmax
  have hu : (0 : ℤ) < Hour := by rw [hour_val]; norm_num
  have hu2 : Hour ≤ 2 ^ 53 := by rw [hour_val]; norm_num
  have q0 : 0 ≤ d / Hour := Int.ediv_nonneg h0 hu.le
  have r0 := Int.emod_nonneg d hu.ne.symm
  have r1 := Int.emod_lt_of_pos d hu
  have hdm := Int.emod_add_ediv d Hour
  have qmax : d / Hour ≤ 2562047 := by rw [hour_val] at hdm r0 ⊢; omega
  obtain ⟨k, hk⟩ : ∃ k : ℤ, k = d / Hour / 24 := ⟨_, rfl⟩
  have k0 : 0 ≤ k := by omega
  have hlo : 24 * k ≤ d / Hour := by omega
  have hhi : d / Hour ≤ 24 * k + 23 := by omega
  obtain ⟨n1, e1⟩ := unitsF_val Hour d hu hu2 h0 (by omega)
  rw [← hours_eq_unitsF] at n1 e1
  have pos24 : 0 < ext (ofRat 24) := by rw [isFinite_24.2]; norm_num
  obtain ⟨m1, g1⟩ := ext_div_right isFinite_24.1 pos24 n1
  rw [isFinite_24.2, e1] at g1
  have mono : Monotone (liftMono (fun u : ℚ => u / 24)) :=
    liftMono_mono (fun x y hxy => div_le_div_of_nonneg_right hxy (by norm_num))
  rw [← hk, g1]
  have kq0 : (0 : ℚ) ≤ k := by exact_mod_cast k0
  have kqmax : (k : ℚ) ≤ 106751 := by
    have : k ≤ 106751 := by omega
    exact_mod_cast this
  refine ⟨m1, ?_, ?_, ?_⟩
  · have l1 : unitsQ Hour (24 * k) 0 ≤ unitsQ Hour (d / Hour) (d % Hour) :=
      unitsQ_lex Hour hu hu2 (by rw [abs_of_nonneg (by omega)]; omega)
        (by rw [abs_of_nonneg q0]; omega) hu.le r0 (by omega)
    rw [unitsQ_zero Hour _ (by rw [abs_of_nonneg (by omega)]; omega)] at l1
    have l2 := mono l1
    have kb : |((24 * k : ℤ) : ℚ)| < pow2 1024 := by
      have : |((24 * k : ℤ) : ℚ)| ≤ 2 ^ 53 := by
        rw [abs_of_nonneg (by push_cast; linarith)]
        have : 24 * k ≤ 2 ^ 53 := by omega
        exact_mod_cast this
      exact lt_of_le_of_lt this two_pow_53_lt
    rw [liftMono_of_abs_lt kb] at l2
    have e24 : ((24 * k : ℤ) : ℚ) / 24 = (k : ℚ) := by push_cast; ring
    simp only [e24] at l2
    rw [cr_intCast k (by rw [abs_of_nonneg k0]; omega)] at l2
    exact l2
  · have l1 : unitsQ Hour (d / Hour) (d % Hour) ≤ unitsQ Hour (24 * k + 23) Hour :=
      unitsQ_lex Hour hu hu2 (by rw [abs_of_nonneg (by omega)]; omega)
        (by rw [abs_of_nonneg (by omega)]; omega) r1.le hu.le
        (by rcases hhi.lt_or_eq with h | h
            · exact Or.inl h
            · exact Or.inr ⟨h, r1.le⟩)
    rw [unitsQ_full Hour _ hu hu2 (by rw [abs_of_nonneg (by omega)]; omega)] at l1
    have l2 := mono l1
    have kb : |(((24 * k + 23 : ℤ) : ℚ)) + 1| < pow2 1024 := by
      have : |(((24 * k + 23 : ℤ) : ℚ)) + 1| ≤ 2 ^ 53 := by
        rw [abs_of_nonneg (by push_cast; linarith)]
        push_cast
        norm_num
        linarith
      exact lt_of_le_of_lt this two_pow_53_lt
    rw [liftMono_of_abs_lt kb] at l2
    have e24 : ((((24 * k + 23 : ℤ) : ℚ)) + 1) / 24 = (((k + 1 : ℤ)) : ℚ) := by
      push_cast; ring
    simp only [e24] at l2
    rw [cr_intCast (k + 1) (by rw [abs_of_nonneg (by omega)]; omega)] at l2
    push_cast at l2
    exact l2
  · intro hw
    have hint : 3600000000000 * (d / Hour) + d % Hour
        ≤ 86400000000000 * k + 86400000000000 - 2000 := by
      rw [hour_val] at hw hdm r0 r1 hk hlo hhi ⊢
      omega
    obtain ⟨h2, c0, c1⟩ := unitsQ_eq Hour (d / Hour) (d % Hour) hu hu2 r0 r1.le
    have hq0 : (0 : ℚ) ≤ ((d / Hour : ℤ) : ℚ) := by exact_mod_cast q0
    have hqmax : ((d / Hour : ℤ) : ℚ) ≤ 2562047 := by exact_mod_cast qmax
    have hintq : 3600000000000 * ((d / Hour : ℤ) : ℚ) + ((d % Hour : ℤ) : ℚ)
        ≤ 86400000000000 * (k : ℚ) + 86400000000000 - 2000 := by exact_mod_cast hint
    have x0 : (0 : ℚ) ≤ ((d % Hour : ℤ) : ℚ) / ((Hour : ℤ) : ℚ) :=
      div_nonneg (by exact_mod_cast r0) (by exact_mod_cast hu.le)
    have x1 : ((d % Hour : ℤ) : ℚ) / ((Hour : ℤ) : ℚ) < 1 :=
      (div_lt_one (by exact_mod_cast hu)).mpr (by exact_mod_cast r1)
    have xU : ((d % Hour : ℤ) : ℚ) = ((d % Hour : ℤ) : ℚ) / ((Hour : ℤ) : ℚ) * 3600000000000 := by
      rw [hour_cast]; field_simp
    generalize ((d % Hour : ℤ) : ℚ) / ((Hour : ℤ) : ℚ) = x at h2 c0 c1 x0 x1 xU
    generalize ((d / Hour : ℤ) : ℚ) = h at h2 hq0 hqmax hintq
    rw [xU] at hintq
    have P0 : pow2 (-53 + 53) = 1 := by
      rw [show (-53 + 53 : ℤ) = 0 by norm_num]; exact pow2_zero
    have P22 : pow2 (-31 + 53) = 4194304 := by
      rw [show (-31 + 53 : ℤ) = ((22 : ℕ) : ℤ) by norm_num, pow2_nat]; norm_num
    have P17 : pow2 (-36 + 53) = 131072 := by
      rw [show (-36 + 53 : ℤ) = ((17 : ℕ) : ℤ) by norm_num, pow2_nat]; norm_num
    have P53 : pow2 (-53) = 1 / 2 ^ 53 := pow2_neg_nat 53
    have P31 : pow2 (-31) = 1 / 2 ^ 31 := pow2_neg_nat 31
    have P36 : pow2 (-36) = 1 / 2 ^ 36 := pow2_neg_nat 36
    have b1 := abs_cr_sub_le (q := x) (e := -53) (by norm_num) (by norm_num)
      (by rw [P0, abs_of_nonneg x0]; exact x1)
    have b2 := abs_cr_sub_le (q := h + cr x) (e := -31) (by norm_num) (by norm_num)
      (by rw [P22, abs_of_nonneg (by linarith)]; linarith)
    have v0 : 0 ≤ cr (h + cr x) := by
      have := cr_mono (show (0 : ℚ) ≤ h + cr x by linarith)
      rwa [cr_zero] at this
    rw [P53] at b1
    rw [P31] at b2
    rw [abs_le] at b1 b2
    have vb : |cr (h + cr x)| < pow2 1024 := by
      refine (abs_cr_le_two_pow 53 (by norm_num) ?_).2
      rw [abs_of_nonneg (by linarith)]
      norm_num
      linarith
    rw [h2, liftMono_of_abs_lt vb]
    have b3 := abs_cr_sub_le (q := cr (h + cr x) / 24) (e := -36) (by norm_num) (by norm_num)
      (by rw [P17, abs_of_nonneg (by positivity)]; norm_num at b2 ⊢; linarith)
    rw [P36, abs_le] at b3
    generalize cr (cr (h + cr x) / 24) = D at b3
    generalize cr (h + cr x) = v at b2 b3 v0
    generalize cr x = c at b1 b2
    norm_num at b1 b2 b3
    linarith

/-- For every non-negative `Duration`, `int(d.Hours() / 24)` is the whole days of `d` or
one more, and it is the whole days when `d` ends at least 2000 ns before the next whole
day. -/
theorem toInt_days_all (d : ℤ) (h0 : 0 ≤ d) (hmax : d ≤ maxDuration) :
    d / Hour / 24 ≤ toInt (div (Duration.Hours d) (ofRat 24)) ∧
      toInt (div (Duration.Hours d) (ofRat 24)) ≤ d / Hour / 24 + 1 ∧
      (d % (24 * Hour) ≤ 24 * Hour - 2000 →
        toInt (div (Duration.Hours d) (ofRat 24)) = d / Hour / 24) := by
  obtain ⟨n1, lo, hi, win⟩ := days_ext_bounds d h0 hmax
  have hu : (0 : ℤ) < Hour := by rw [hour_val]; norm_num
  have q0 : 0 ≤ d / Hour := Int.ediv_nonneg h0 hu.le
  have k0 : 0 ≤ d / Hour / 24 := by omega
  have kmax : d / Hour / 24 < 2 ^ 62 := by
    unfold maxDuration at hmax
    have hdm := Int.emod_add_ediv d Hour
    have r0 := Int.emod_nonneg d hu.ne.symm
    rw [hour_val] at hdm r0 ⊢
    omega
  rcases hi.lt_or_eq with hlt | heq
  · have e := toInt_of_ext n1 k0 (by omega) lo hlt
    rw [e]
    exact ⟨le_rfl, by omega, fun _ => rfl⟩
  · have e : toInt (div (Duration.Hours d) (ofRat 24)) = d / Hour / 24 + 1 := by
      refine toInt_of_ext n1 (by omega) (by omega) ?_ ?_
      · rw [heq]; push_cast; exact le_rfl
      · rw [heq]; push_cast; linarith
    rw [e]
    refine ⟨by omega, le_rfl, fun hw => ?_⟩
    exact absurd heq (ne_of_lt (win hw))

set_option maxRecDepth 1000000 in
theorem timeAgo_maxDuration : timeAgo maxDuration = "106751 days ago" := by decide!

theorem since_max (now t : ℤ) (h : maxDuration < now - t) : since now t = maxDuration := by
  unfold since timeSub minDuration maxDuration at *
  split_ifs <;> omega

/-- C3, counterexample: one nanosecond before 171 full days the whole hours are 4103, their
integer quotient by 24 is 170, and the code prints "171 days ago". -/
theorem formatTimeAgo_day_count_counterexample :
    24 * Hour ≤ (14774399999999999 : ℤ) - 0 ∧
      ((14774399999999999 : ℤ) - 0) / Hour = 4103 ∧
      ((14774399999999999 : ℤ) - 0) / Hour / 24 = 170 ∧
      formatTimeAgo 14774399999999999 0 = "171 days ago" ∧
      formatTimeAgo 14774399999999999 0 ≠ "170 days ago" := by
  decide!

/-- C3 (amended): with `d = now - t` the elapsed time in nanoseconds, `formatTimeAgo`
returns "just now" when `d` is below one minute; "N minutes ago" with `N` the whole minutes
of `d` below one hour ("1 minute ago" when `N = 1`); "N hours ago" with `N` the whole hours
of `d` below 24 hours ("1 hour ago" when `N = 1`); and from 24 hours on "N days ago"
("1 day ago" when `N = 1`) with `N = int(d.Hours() / 24)` computed in `float64`.  That `N`
is the whole hours of `d` divided by 24, or one more; it is the whole hours divided by 24
for every `d` up to two nanoseconds before 171 days, and for every longer `d` that ends at
least 2000 ns before the next whole number of days.  A difference above the largest
`Duration` is shown as "106751 days ago".  At 30 s, 5 min, 15 min and 25 h the results are
"just now", "5 minutes ago", "15 minutes ago" and "1 day ago". -/
theorem formatTimeAgo_buckets (now t : ℤ) :
    (now - t < Minute → formatTimeAgo now t = "just now") ∧
    (Minute ≤ now - t → now - t < Hour → formatTimeAgo now t =
      if (now - t) / Minute = 1 then "1 minute ago"
      else toString ((now - t) / Minute) ++ " minutes ago") ∧
    (Hour ≤ now - t → now - t < 24 * Hour → formatTimeAgo now t =
      if (now - t) / Hour = 1 then "1 hour ago"
      else toString ((now - t) / Hour) ++ " hours ago") ∧
    (24 * Hour ≤ now - t → now - t < 171 * (24 * Hour) - 1 → formatTimeAgo now t =
      if (now - t) / Hour / 24 = 1 then "1 day ago"
      else toString ((now - t) / Hour / 24) ++ " days ago") ∧
    formatTimeAgo (30 * Second) 0 = "just now" ∧
    formatTimeAgo (5 * Minute) 0 = "5 minutes ago" ∧
    formatTimeAgo (15 * Minute) 0 = "15 minutes ago" ∧
    formatTimeAgo (25 * Hour) 0 = "1 day ago" ∧
    (24 * Hour ≤ now - t → now - t ≤ maxDuration →
      (formatTimeAgo now t =
        if toInt (div (Duration.Hours (now - t)) (ofRat 24)) = 1 then "1 day ago"
        else toString (toInt (div (Duration.Hours (now - t)) (ofRat 24))) ++ " days ago") ∧
      (now - t) / Hour / 24 ≤ toInt (div (Duration.Hours (now - t)) (ofRat 24)) ∧
      toInt (div (Duration.Hours (now - t)) (ofRat 24)) ≤ (now - t) / Hour / 24 + 1 ∧
      ((now - t) % (24 * Hour) ≤ 24 * Hour - 2000 → formatTimeAgo now t =
        if (now - t) / Hour / 24 = 1 then "1 day ago"
        else toString ((now - t) / Hour / 24) ++ " days ago")) ∧
    (maxDuration < now - t → formatTimeAgo now t = "106751 days ago") := by
  have hM := minute_val
  have hH := hour_val
  refine ⟨?_, ?_, ?_, ?_, by decide!, by decide!, by decide!, by decide!, ?_, ?_⟩
  · intro h
    have : since now t < Minute := (since_lt_iff now t Minute (by rw [hM]; norm_num)
      (by rw [hM]; norm_num)).mpr h
    unfold formatTimeAgo timeAgo
    rw [if_pos this]
  · intro h1 h2
    have e : since now t = now - t := since_eq now t (by rw [hM] at h1; omega)
      (by rw [hH] at h2; omega)
    unfold formatTimeAgo timeAgo
    rw [e, if_neg (not_lt.mpr h1), if_pos h2,
      toInt_minutes (now - t) (by rw [hM] at h1; omega) h2]
  · intro h1 h2
    have e : since now t = now - t := since_eq now t (by rw [hH] at h1; omega)
      (by rw [hH] at h2; omega)
    unfold formatTimeAgo timeAgo
    rw [e, if_neg (by rw [hM]; rw [hH] at h1; omega), if_neg (not_lt.mpr h1), if_pos h2,
      toInt_hours (now - t) (by rw [hH] at h1; omega) h2]
  · intro h1 h2
    have e : since now t = now - t := since_eq now t (by rw [hH] at h1; omega)
      (by rw [hH] at h2; omega)
    unfold formatTimeAgo timeAgo
    rw [e, if_neg (by rw [hM]; rw [hH] at h1; omega), if_neg (by rw [hH] at h1 ⊢; omega),
      if_neg (not_lt.mpr h1), toInt_days (now - t) (by rw [hH] at h1; omega) h2]
  · intro h1 h2
    have e : since now t = now - t := since_eq now t (by rw [hH] at h1; omega)
      (by unfold maxDuration at h2; exact h2)
    have hfmt : formatTimeAgo now t =
        if toInt (div (Duration.Hours (now - t)) (ofRat 24)) = 1 then "1 day ago"
        else toString (toInt (div (Duration.Hours (now - t)) (ofRat 24))) ++ " days ago" := by
      unfold formatTimeAgo timeAgo
      rw [e, if_neg (by rw [hM]; rw [hH] at h1; omega), if_neg (by rw [hH] at h1 ⊢; omega),
        if_neg (not_lt.mpr h1)]
    obtain ⟨a, b, c⟩ := toInt_days_all (now - t) (by rw [hH] at h1; omega) h2
    refine ⟨hfmt, a, b, fun hw => ?_⟩
    rw [hfmt, c hw]
  · intro h
    unfold formatTimeAgo
    rw [since_max now t h]
    exact timeAgo_maxDuration

/-- C3, witness: at 42 minutes and 30 seconds the result is "42 minutes ago", and at 1000
days, which is 24 hours or more, within the `Duration` range and not within 2000 ns before
a whole day, the result is the whole hours divided by 24, "1000 days ago". -/
theorem formatTimeAgo_buckets_witness :
    (Minute ≤ (2550000000000 : ℤ) - 0 ∧ (2550000000000 : ℤ) - 0 < Hour ∧
      formatTimeAgo 2550000000000 0 =
        (if ((2550000000000 : ℤ) - 0) / Minute = 1 then "1 minute ago"
        else toString (((2550000000000 : ℤ) - 0) / Minute) ++ " minutes ago")) ∧
    (24 * Hour ≤ (86400000000000000 : ℤ) - 0 ∧ (86400000000000000 : ℤ) - 0 ≤ maxDuration ∧
      ((86400000000000000 : ℤ) - 0) % (24 * Hour) ≤ 24 * Hour - 2000 ∧
      formatTimeAgo 86400000000000000 0 =
        (if ((86400000000000000 : ℤ) - 0) / Hour / 24 = 1 then "1 day ago"
        else toString (((86400000000000000 : ℤ) - 0) / Hour / 24) ++ " days ago")) :=
  ⟨⟨by decide, by decide,
      (formatTimeAgo_buckets 2550000000000 0).2.1 (by decide) (by decide)⟩,
    ⟨by decide, by decide, by decide,
      ((formatTimeAgo_buckets 86400000000000000 0).2.2.2.2.2.2.2.2.1 (by decide)
        (by decide)).2.2.2 (by decide)⟩⟩

/-! ### Device status -/

/-- C4: the status built from a device row is online exactly when a last-seen time is
present and `now - last_seen` is below ten minutes (at ten minutes sharp the device is
offline); without a last-seen time the device is offline and shown as "never".  This holds
for the one status of `getDeviceStatus` and for every status of `getDevicesWithStatus`. -/
theorem deviceStatus_online_iff (row : DeviceRow) (rows : List DeviceRow) :
    (∃ d, getDeviceStatus (some row) = some d ∧
      (d.IsOnline = true ↔ ∃ t, row.lastSeen = some t ∧ row.nowOnline - t < 10 * Minute) ∧
      (row.lastSeen = none → d.IsOnline = false ∧ d.LastSeenFormatted = "never")) ∧
    (∃ ds, getDevicesWithStatus (some rows) = some ds ∧
      List.Forall₂ (fun r d =>
        (d.IsOnline = true ↔ ∃ t, r.lastSeen = some t ∧ r.nowOnline - t < 10 * Minute) ∧
        (r.lastSeen = none → d.IsOnline = false ∧ d.LastSeenFormatted = "never")) rows ds) ∧
    (statusOfRow ⟨"a", "b", some 0, 10 * Minute, 10 * Minute, none, none⟩).IsOnline = false ∧
    (statusOfRow ⟨"a", "b", some 0, 10 * Minute - 1, 10 * Minute, none, none⟩).IsOnline
      = true := by
  have key : ∀ r : DeviceRow,
      ((statusOfRow r).IsOnline = true ↔
        ∃ t, r.lastSeen = some t ∧ r.nowOnline - t < 10 * Minute) ∧
      (r.lastSeen = none →
        (statusOfRow r).IsOnline = false ∧ (statusOfRow r).LastSeenFormatted = "never") := by
    intro r
    have h10 : (10 : ℤ) * Minute = 600000000000 := by rw [minute_val]; norm_num
    cases hls : r.lastSeen with
    | none => simp [statusOfRow, hls]
    | some t =>
      simp only [statusOfRow, hls, decide_eq_true_eq, Option.some.injEq, exists_eq_left',
        false_implies, and_true, reduceCtorEq]
      exact since_lt_iff r.nowOnline t (10 * Minute) (by rw [h10]; norm_num)
        (by rw [h10]; norm_num)
  refine ⟨⟨statusOfRow row, rfl, key row⟩, ⟨rows.map statusOfRow, rfl, ?_⟩, by decide, by decide⟩
  rw [List.forall₂_map_right_iff]
  exact List.forall₂_same.mpr (fun r _ => key r)

/-! ### Chart builder: shape of the result -/

theorem setCoords_map (n : ℕ) (lo hi : F64) (f : ChartPoint → α)
    (hf : ∀ p x y, f { p with X := x, Y := y } = f p) :
    ∀ (i : ℕ) (ps : List ChartPoint), (setCoords n lo hi i ps).map f = ps.map f := by
  intro i ps
  induction ps generalizing i with
  | nil => rfl
  | cons p ps ih => simp [setCoords, ih, hf]

/-- The chart of a non-empty series, spelled out. -/
theorem chartOfPoints_eq {points : List ChartPoint} {p0 : ChartPoint} {rest : List ChartPoint}
    (h : points.reverse = p0 :: rest) :
    chartOfPoints points =
      { Points := setCoords (rest.length + 1) (plotMin p0 rest) (plotMax p0 rest) 0 (p0 :: rest)
        Min := add (plotMin p0 rest)
          (paddingOf (minMax (p0 :: rest) p0.Value).1 (minMax (p0 :: rest) p0.Value).2)
        Max := sub (plotMax p0 rest)
          (paddingOf (minMax (p0 :: rest) p0.Value).1 (minMax (p0 :: rest) p0.Value).2)
        LinePath := (setCoords (rest.length + 1) (plotMin p0 rest) (plotMax p0 rest) 1 rest).foldl
          (fun acc p => acc ++ lineTo p.X p.Y)
          (moveTo (xCoord 0 (rest.length + 1)) (yCoord p0.Value (plotMin p0 rest) (plotMax p0 rest)))
        AreaPath := (setCoords (rest.length + 1) (plotMin p0 rest) (plotMax p0 rest) 1 rest).foldl
            (fun acc p => acc ++ lineTo p.X p.Y)
            (moveTo (xCoord 0 (rest.length + 1)) (sub chartHeight chartPadding) ++
              lineTo (xCoord 0 (rest.length + 1))
                (yCoord p0.Value (plotMin p0 rest) (plotMax p0 rest)))
          ++ lineTo (lastPoint
              { p0 with X := xCoord 0 (rest.length + 1),
                        Y := yCoord p0.Value (plotMin p0 rest) (plotMax p0 rest) }
              (setCoords (rest.length + 1) (plotMin p0 rest) (plotMax p0 rest) 1 rest)).X
            (sub chartHeight chartPadding) ++ "Z" } := by
  unfold chartOfPoints
  rw [h]
  rfl

theorem scanRows_map (layout : Time → String) (rows : List (F64 × Time)) :
    (scanRows layout rows).map (fun p => (p.Value, p.Time)) = rows := by
  unfold scanRows
  rw [List.map_map]
  conv_rhs => rw [← List.map_id rows]
  rfl

theorem reverse_cons_of_ne_nil {l : List α} (h : l ≠ []) : ∃ a r, l.reverse = a :: r := by
  cases hr : l.reverse with
  | nil => exact absurd (List.reverse_eq_nil_iff.mp hr) h
  | cons a r => exact ⟨a, r, rfl⟩

theorem chart_points_value_time (layout : Time → String) (rows : List (F64 × Time)) :
    (chartOfPoints (scanRows layout rows)).Points.map (fun p => (p.Value, p.Time))
      = rows.reverse := by
  rcases List.eq_nil_or_concat rows with h | ⟨l, a, h⟩
  · subst h; rfl
  · have hne : scanRows layout rows ≠ [] := by
      subst h; simp [scanRows]
    obtain ⟨p0, rest, hr⟩ := reverse_cons_of_ne_nil hne
    rw [chartOfPoints_eq hr]
    simp only
    rw [setCoords_map _ _ _ (fun p => (p.Value, p.Time)) (fun _ _ _ => rfl), ← hr,
      List.map_reverse, scanRows_map]

/-- C2, counterexample: two readings that share a timestamp arrive in descending order, and
the two chart points then have equal times, not strictly increasing ones. -/
theorem getChartData_equal_timestamps_counterexample :
    List.Sorted (· ≥ ·) ([(ofRat 2, (7 : Time)), (ofRat 1, (7 : Time))].map Prod.snd) ∧
      (∃ cd, getChartData (fun _ => "") (some [(ofRat 2, 7), (ofRat 1, 7)]) = some cd ∧
        cd.Points.map (fun p => p.Time) = [7, 7] ∧
        ¬ List.Sorted (· < ·) (cd.Points.map (fun p => p.Time))) := by
  refine ⟨by simp [List.Sorted], _, rfl, ?_⟩
  have h := chart_points_value_time (fun _ => "") [(ofRat 2, (7 : Time)), (ofRat 1, (7 : Time))]
  have h2 := congrArg (List.map Prod.snd) h
  rw [List.map_map] at h2
  have h3 : (chartOfPoints (scanRows (fun _ => "") [(ofRat 2, (7 : Time)), (ofRat 1, (7 : Time))])).Points.map
      (fun p => p.Time) = [7, 7] := by
    simpa using h2
  exact ⟨h3, by rw [h3]; simp [List.Sorted]⟩

/-- C2 (amended): for every series the points of the chart are exactly the readings (value
and timestamp) in reverse order; when the query delivers them newest first the points are
sorted ascending by timestamp, and strictly ascending exactly when the delivered timestamps
are strictly descending (no two readings share a timestamp). -/
theorem getChartData_points_reverse (layout : Time → String) (rows : List (F64 × Time)) :
    ∃ cd, getChartData layout (some rows) = some cd ∧
      cd.Points.map (fun p => (p.Value, p.Time)) = rows.reverse ∧
      (List.Sorted (· ≥ ·) (rows.map Prod.snd) →
        List.Sorted (· ≤ ·) (cd.Points.map (fun p => p.Time))) ∧
      (List.Sorted (· > ·) (rows.map Prod.snd) ↔
        List.Sorted (· < ·) (cd.Points.map (fun p => p.Time))) := by
  have h := congrArg (List.map Prod.snd) (chart_points_value_time layout rows)
  rw [List.map_map, List.map_reverse] at h
  have h2 : (chartOfPoints (scanRows layout rows)).Points.map (fun p => p.Time)
      = (rows.map Prod.snd).reverse := h
  refine ⟨_, rfl, chart_points_value_time layout rows, ?_, ?_⟩
  · intro hs
    rw [h2]
    unfold List.Sorted at hs ⊢
    rw [List.pairwise_reverse]
    exact hs
  · rw [h2]
    unfold List.Sorted
    rw [List.pairwise_reverse]

/-- C2, witness: three readings delivered newest first. -/
theorem getChartData_points_reverse_witness :
    ∃ cd, getChartData (fun _ => "") (some [(ofRat 12, 3), (ofRat 20, 2), (ofRat 10, 1)])
        = some cd ∧
      cd.Points.map (fun p => (p.Value, p.Time))
        = [(ofRat 12, (3 : Time)), (ofRat 20, 2), (ofRat 10, 1)].reverse ∧
      (List.Sorted (· ≥ ·) ([(ofRat 12, (3 : Time)), (ofRat 20, 2), (ofRat 10, 1)].map Prod.snd) →
        List.Sorted (· ≤ ·) (cd.Points.map (fun p => p.Time))) ∧
      (List.Sorted (· > ·) ([(ofRat 12, (3 : Time)), (ofRat 20, 2), (ofRat 10, 1)].map Prod.snd) ↔
        List.Sorted (· < ·) (cd.Points.map (fun p => p.Time))) :=
  getChartData_points_reverse (fun _ => "") [(ofRat 12, 3), (ofRat 20, 2), (ofRat 10, 1)]

/-! ### Ingest handler -/

/-- C8: for a POST request the handler answers 401 when the `X-Device-Id` header is missing
or empty, 401 when the device is unknown (whatever the body), 500 when the lookup fails,
400 when the device is known and the body does not parse, 500 when the insert fails, and
201 when the device is known, the body parses and the insert succeeds; the table of
readings grows by exactly one row in the 201 case and is unchanged in every other. -/
theorem postWeatherListener_status (env : Ingest) (readings : List Reading) (r : Request)
    (hpost : r.method = "POST") :
    (r.deviceId.getD "" = "" →
      (PostWeatherListener env readings r).1.status = 401) ∧
    (r.deviceId.getD "" ≠ "" → env.lookup (r.deviceId.getD "") = Lookup.noRows →
      (PostWeatherListener env readings r).1.status = 401) ∧
    (r.deviceId.getD "" ≠ "" → env.lookup (r.deviceId.getD "") = Lookup.failed →
      (PostWeatherListener env readings r).1.status = 500) ∧
    (r.deviceId.getD "" ≠ "" → env.lookup (r.deviceId.getD "") = Lookup.found →
      env.decode r.body = none →
      (PostWeatherListener env readings r).1.status = 400) ∧
    (∀ reading, r.deviceId.getD "" ≠ "" → env.lookup (r.deviceId.getD "") = Lookup.found →
      env.decode r.body = some reading →
      env.insertOk { reading with
        DeviceID := r.deviceId.getD ""
        ReceivedAt := env.now
        EntryHash := env.sha256 (env.hashInput
          { reading with DeviceID := r.deviceId.getD "", ReceivedAt := env.now }) } = false →
      (PostWeatherListener env readings r).1.status = 500) ∧
    ((PostWeatherListener env readings r).1.status = 201 ↔
      r.deviceId.getD "" ≠ "" ∧ env.lookup (r.deviceId.getD "") = Lookup.found ∧
      ∃ reading, env.decode r.body = some reading ∧
        env.insertOk { reading with
          DeviceID := r.deviceId.getD ""
          ReceivedAt := env.now
          EntryHash := env.sha256 (env.hashInput
            { reading with DeviceID := r.deviceId.getD "", ReceivedAt := env.now }) } = true ∧
        (PostWeatherListener env readings r).2 = readings ++
          [{ reading with
              DeviceID := r.deviceId.getD ""
              ReceivedAt := env.now
              EntryHash := env.sha256 (env.hashInput
                { reading with DeviceID := r.deviceId.getD "", ReceivedAt := env.now }) }]) ∧
    ((PostWeatherListener env readings r).1.status ≠ 201 →
      (PostWeatherListener env readings r).2 = readings) := by
  unfold PostWeatherListener
  simp only [hpost, ne_eq, not_true_eq_false, if_false]
  by_cases hid : r.deviceId.getD "" = ""
  · simp [hid]
  · simp only [hid, if_false, not_false_eq_true, true_implies, false_implies, true_and]
    cases hl : env.lookup (r.deviceId.getD "") with
    | noRows => simp
    | failed => simp
    | found =>
      cases hd : env.decode r.body with
      | none => simp
      | some reading =>
        by_cases hins : env.insertOk { reading with
            DeviceID := r.deviceId.getD ""
            ReceivedAt := env.now
            EntryHash := env.sha256 (env.hashInput
              { reading with DeviceID := r.deviceId.getD "", ReceivedAt := env.now }) } = true
        · simp [hins]
        · simp [hins]


theorem join_cons (a : String) (l : List String) :
    String.join (a :: l) = a ++ String.join l := by
  have hj : ∀ (l : List String) (a : String),
      l.foldl (fun r s => r ++ s) a = a ++ l.foldl (fun r s => r ++ s) "" := by
    intro l
    induction l with
    | nil => intro a; simp
    | cons x xs ih =>
      intro a
      simp only [List.foldl_cons]
      rw [ih (a ++ x), ih ("" ++ x), String.append_assoc]
      simp
  unfold String.join
  simp only [List.foldl_cons, String.empty_append]
  exact hj l a

theorem foldl_append_eq (f : ChartPoint → String) :
    ∀ (qs : List ChartPoint) (init : String),
      qs.foldl (fun acc p => acc ++ f p) init = init ++ String.join (qs.map f) := by
  intro qs
  induction qs with
  | nil => intro init; simp [String.join]
  | cons q qs ih =>
    intro init
    simp only [List.foldl_cons, List.map_cons]
    rw [ih, String.append_assoc, join_cons]

theorem lastPoint_eq_getLast (q0 : ChartPoint) (qs : List ChartPoint) :
    lastPoint q0 qs = (q0 :: qs).getLast (List.cons_ne_nil _ _) := by
  induction qs generalizing q0 with
  | nil => rfl
  | cons q qs ih =>
    rw [List.getLast_cons (List.cons_ne_nil _ _)]
    exact ih q

set_option maxRecDepth 1000000 in
theorem sprintf1_baseline : sprintf1 (sub chartHeight chartPadding) = "110.0" := by decide!

/-- C6: for every non-empty series the line path is the moveto `M<x0>,<y0>` of the first
point (coordinates printed with one decimal) followed by one lineto per remaining point in
order; the area path is a moveto to `(x0, 110.0)`, a lineto to every point in order, a lineto
to `(x[n-1], 110.0)` and the close command `Z`. -/
theorem getChartData_paths (layout : Time → String) (rows : List (F64 × Time))
    (hne : rows ≠ []) :
    ∃ cd q0 qs, getChartData layout (some rows) = some cd ∧ cd.Points = q0 :: qs ∧
      cd.LinePath = "M" ++ sprintf1 q0.X ++ "," ++ sprintf1 q0.Y
        ++ String.join (qs.map fun p => "L" ++ sprintf1 p.X ++ "," ++ sprintf1 p.Y) ∧
      cd.AreaPath = "M" ++ sprintf1 q0.X ++ "," ++ "110.0"
        ++ String.join ((q0 :: qs).map fun p => "L" ++ sprintf1 p.X ++ "," ++ sprintf1 p.Y)
        ++ ("L" ++ sprintf1 ((q0 :: qs).getLast (List.cons_ne_nil _ _)).X ++ "," ++ "110.0")
        ++ "Z" := by
  have hne2 : scanRows layout rows ≠ [] := by
    unfold scanRows
    simpa using hne
  obtain ⟨p0, rest, hr⟩ := reverse_cons_of_ne_nil hne2
  refine ⟨chartOfPoints (scanRows layout rows),
    { p0 with X := xCoord 0 (rest.length + 1),
              Y := yCoord p0.Value (plotMin p0 rest) (plotMax p0 rest) },
    setCoords (rest.length + 1) (plotMin p0 rest) (plotMax p0 rest) 1 rest, rfl, ?_, ?_, ?_⟩
  · rw [chartOfPoints_eq hr]
    rfl
  · rw [chartOfPoints_eq hr]
    simp only
    rw [foldl_append_eq (fun p => lineTo p.X p.Y)]
    rfl
  · rw [chartOfPoints_eq hr]
    simp only
    rw [foldl_append_eq (fun p => lineTo p.X p.Y), lastPoint_eq_getLast]
    simp only [List.map_cons, join_cons, moveTo, lineTo, sprintf1_baseline,
      String.append_assoc]

set_option maxRecDepth 1000000 in
/-- C6, witness: the series of the specification's example; its paths are
`M10.0,101.7L200.0,18.3L390.0,85.0` and
`M10.0,110.0L10.0,101.7L200.0,18.3L390.0,85.0L390.0,110.0Z`. -/
theorem getChartData_paths_witness :
    [(ofRat 12, (3 : Time)), (ofRat 20, 2), (ofRat 10, 1)] ≠ [] ∧
    (∃ cd q0 qs, getChartData (fun _ => "")
        (some [(ofRat 12, 3), (ofRat 20, 2), (ofRat 10, 1)]) = some cd ∧
      cd.Points = q0 :: qs ∧
      cd.LinePath = "M" ++ sprintf1 q0.X ++ "," ++ sprintf1 q0.Y
        ++ String.join (qs.map fun p => "L" ++ sprintf1 p.X ++ "," ++ sprintf1 p.Y) ∧
      cd.AreaPath = "M" ++ sprintf1 q0.X ++ "," ++ "110.0"
        ++ String.join ((q0 :: qs).map fun p => "L" ++ sprintf1 p.X ++ "," ++ sprintf1 p.Y)
        ++ ("L" ++ sprintf1 ((q0 :: qs).getLast (List.cons_ne_nil _ _)).X ++ "," ++ "110.0")
        ++ "Z") ∧
    (∃ cd, getChartData (fun _ => "") (some [(ofRat 12, 3), (ofRat 20, 2), (ofRat 10, 1)])
        = some cd ∧
      cd.LinePath = "M10.0,101.7L200.0,18.3L390.0,85.0" ∧
      cd.AreaPath = "M10.0,110.0L10.0,101.7L200.0,18.3L390.0,85.0L390.0,110.0Z") :=
  ⟨by simp,
    getChartData_paths (fun _ => "") [(ofRat 12, 3), (ofRat 20, 2), (ofRat 10, 1)] (by simp),
    ⟨_, rfl, by decide!⟩⟩

/-- C8, witness: a POST with a known device id and a body that parses is answered 201. -/
theorem postWeatherListener_status_witness :
    demoRequest.method = "POST" ∧
      (PostWeatherListener demoIngest [] demoRequest).1.status = 201 :=
  ⟨rfl, (postWeatherListener_status demoIngest [] demoRequest rfl).2.2.2.2.2.1.mpr
    ⟨by decide, rfl, _, rfl, rfl, rfl⟩⟩

/-! ### x coordinates -/

set_option maxRecDepth 1000000 in
theorem chart_constants :
    chartPadding = fin false 10 ∧ sub chartWidth (mul (ofRat 2) chartPadding) = fin false 380 ∧
      sub chartHeight chartPadding = fin false 110 ∧
      sub chartHeight (mul (ofRat 2) chartPadding) = fin false 100 ∧
      ofRat 10 = fin false 10 ∧ ofRat 380 = fin false 380 ∧ ofRat 390 = fin false 390 ∧
      ofRat 110 = fin false 110 ∧ ofRat 100 = fin false 100 ∧ ofRat 1 = fin false 1 ∧
      ofRat 0 = fin false 0 := by
  decide!

theorem xCoord_eq_xGrid (i n : ℕ) : xCoord i n = xGrid i n := by
  unfold xCoord xGrid
  rw [chart_constants.2.1, chart_constants.1]

theorem setCoords_X (n : ℕ) (lo hi : F64) :
    ∀ (i : ℕ) (ps : List ChartPoint),
      (setCoords n lo hi i ps).map (fun p => p.X)
        = (List.range' i ps.length).map fun j => xCoord j n := by
  intro i ps
  induction ps generalizing i with
  | nil => rfl
  | cons p ps ih =>
    simp only [setCoords, List.map_cons, List.length_cons, List.range'_succ, ih]

theorem isFinite_380 : IsFinite (fin false 380) ∧ ext (fin false 380) = 380 := by
  have h := isFinite_const 380 (by norm_num)
  rw [show ((380 : ℕ) : ℚ) = 380 by norm_num, chart_constants.2.2.2.2.2.1] at h
  exact h

theorem isFinite_10 : IsFinite (fin false 10) ∧ ext (fin false 10) = 10 := by
  have h := isFinite_const 10 (by norm_num)
  rw [show ((10 : ℕ) : ℚ) = 10 by norm_num, chart_constants.2.2.2.2.1] at h
  exact h

/-- The value of an x coordinate: three roundings of `10 + (i / (n - 1)) * 380`. -/
theorem xGrid_val (i n : ℕ) (hn : 2 ≤ n) (hi : i < n) (hN : n ≤ 2 ^ 40) :
    Num (xGrid i n) ∧
      ext (xGrid i n) = cr (10 + cr (cr ((i : ℚ) / ((n : ℚ) - 1)) * 380)) ∧
      0 ≤ cr ((i : ℚ) / ((n : ℚ) - 1)) ∧ cr ((i : ℚ) / ((n : ℚ) - 1)) ≤ 1 ∧
      0 ≤ cr (cr ((i : ℚ) / ((n : ℚ) - 1)) * 380) ∧
      cr (cr ((i : ℚ) / ((n : ℚ) - 1)) * 380) ≤ 380 := by
  have hB1 : (1 : ℚ) < pow2 1024 := by
    have := two_pow_53_lt
    have h1 : (1 : ℚ) ≤ 2 ^ 53 := by norm_num
    linarith
  have hB380 : (380 : ℚ) < pow2 1024 := by
    have := two_pow_53_lt
    have h1 : (380 : ℚ) ≤ 2 ^ 53 := by norm_num
    linarith
  have n1 : (1 : ℚ) ≤ (n : ℚ) - 1 := by
    have : (2 : ℚ) ≤ n := by exact_mod_cast hn
    linarith
  have iq : (i : ℚ) ≤ (n : ℚ) - 1 := by
    have : (i : ℚ) + 1 ≤ n := by exact_mod_cast hi
    linarith
  have i0 : (0 : ℚ) ≤ i := Nat.cast_nonneg i
  have nN : (n : ℤ) ≤ 2 ^ 40 := by exact_mod_cast hN
  have iN : (i : ℤ) < n := by exact_mod_cast hi
  obtain ⟨fi, ei⟩ := isFinite_ofInt (i : ℤ) (by rw [abs_of_nonneg (by omega)]; omega)
  obtain ⟨fn, en⟩ := isFinite_ofInt ((n : ℤ) - 1) (by rw [abs_of_nonneg (by omega)]; omega)
  have en2 : ext (ofInt ((n : ℤ) - 1)) = (n : ℚ) - 1 := by rw [en]; push_cast; ring
  have ei2 : ext (ofInt (i : ℤ)) = (i : ℚ) := by rw [ei]; push_cast; rfl
  have pos : 0 < ext (ofInt ((n : ℤ) - 1)) := by rw [en2]; linarith
  obtain ⟨d1, d2⟩ := ext_div_right fn pos (num_of_isFinite fi)
  have ib : |(i : ℚ)| < pow2 1024 := by
    rw [abs_of_nonneg i0]
    have : (i : ℚ) ≤ 2 ^ 53 := by
      have : (i : ℤ) ≤ 2 ^ 53 := by omega
      exact_mod_cast this
    exact lt_of_le_of_lt this two_pow_53_lt
  rw [en2, ei2, liftMono_of_abs_lt ib] at d2
  have t0 : 0 ≤ cr ((i : ℚ) / ((n : ℚ) - 1)) := by
    have := cr_mono (div_nonneg i0 (by linarith : (0 : ℚ) ≤ (n : ℚ) - 1))
    rwa [cr_zero] at this
  have t1 : cr ((i : ℚ) / ((n : ℚ) - 1)) ≤ 1 := by
    have := cr_mono ((div_le_one (by linarith : (0 : ℚ) < (n : ℚ) - 1)).mpr iq)
    rwa [cr_one] at this
  have tb : |cr ((i : ℚ) / ((n : ℚ) - 1))| < pow2 1024 := by
    rw [abs_of_nonneg t0]; linarith
  obtain ⟨m1, m2⟩ := ext_mul_right isFinite_380.1 (by rw [isFinite_380.2]; norm_num) d1
  rw [isFinite_380.2, d2, liftMono_of_abs_lt tb] at m2
  have c380 : cr (380 : ℚ) = 380 := by
    have := cr_natCast 380 (by norm_num)
    simpa using this
  have p0 : 0 ≤ cr (cr ((i : ℚ) / ((n : ℚ) - 1)) * 380) := by
    have := cr_mono (mul_nonneg t0 (by norm_num : (0 : ℚ) ≤ 380))
    rwa [cr_zero] at this
  have p1 : cr (cr ((i : ℚ) / ((n : ℚ) - 1)) * 380) ≤ 380 := by
    have := cr_mono (show cr ((i : ℚ) / ((n : ℚ) - 1)) * 380 ≤ 380 by linarith)
    rwa [c380] at this
  have pb : |cr (cr ((i : ℚ) / ((n : ℚ) - 1)) * 380)| < pow2 1024 := by
    rw [abs_of_nonneg p0]; linarith
  obtain ⟨a1, a2⟩ := ext_add_left isFinite_10.1 m1
  rw [isFinite_10.2, m2, liftMono_of_abs_lt pb] at a2
  exact ⟨a1, a2, t0, t1, p0, p1⟩

/-- Each x coordinate lies within `2 ^ -43` of its exact grid point. -/
theorem xGrid_near (i n : ℕ) (hn : 2 ≤ n) (hi : i < n) (hN : n ≤ 2 ^ 40) :
    |ext (xGrid i n) - (10 + 380 * (i : ℚ) / ((n : ℚ) - 1))| ≤ 1 / 2 ^ 43 := by
  obtain ⟨-, e, t0, t1, p0, p1⟩ := xGrid_val i n hn hi hN
  have n1 : (1 : ℚ) ≤ (n : ℚ) - 1 := by
    have : (2 : ℚ) ≤ n := by exact_mod_cast hn
    linarith
  have iq : (i : ℚ) ≤ (n : ℚ) - 1 := by
    have : (i : ℚ) + 1 ≤ n := by exact_mod_cast hi
    linarith
  have i0 : (0 : ℚ) ≤ i := Nat.cast_nonneg i
  have q0 : 0 ≤ (i : ℚ) / ((n : ℚ) - 1) := div_nonneg i0 (by linarith)
  have q1 : (i : ℚ) / ((n : ℚ) - 1) ≤ 1 := (div_le_one (by linarith)).mpr iq
  have P1 : pow2 (-52 + 53) = 2 := by
    rw [show (-52 + 53 : ℤ) = 1 by norm_num]; exact pow2_one
  have P9 : pow2 (-44 + 53) = 512 := by
    rw [show (-44 + 53 : ℤ) = ((9 : ℕ) : ℤ) by norm_num, pow2_nat]; norm_num
  have P52 : pow2 (-52) = 1 / 2 ^ 52 := pow2_neg_nat 52
  have P44 : pow2 (-44) = 1 / 2 ^ 44 := pow2_neg_nat 44
  have b1 := abs_cr_sub_le (q := (i : ℚ) / ((n : ℚ) - 1)) (e := -52) (by norm_num)
    (by norm_num) (by rw [P1, abs_of_nonneg q0]; linarith)
  have b2 := abs_cr_sub_le (q := cr ((i : ℚ) / ((n : ℚ) - 1)) * 380) (e := -44) (by norm_num)
    (by norm_num) (by rw [P9, abs_of_nonneg (by nlinarith)]; nlinarith)
  have b3 := abs_cr_sub_le (q := 10 + cr (cr ((i : ℚ) / ((n : ℚ) - 1)) * 380)) (e := -44)
    (by norm_num) (by norm_num) (by rw [P9, abs_of_nonneg (by linarith)]; linarith)
  rw [P52] at b1
  rw [P44] at b2 b3
  rw [e]
  generalize cr (10 + cr (cr ((i : ℚ) / ((n : ℚ) - 1)) * 380)) = x at b3
  generalize cr (cr ((i : ℚ) / ((n : ℚ) - 1)) * 380) = p at b2 b3
  generalize cr ((i : ℚ) / ((n : ℚ) - 1)) = t at b1 b2
  have e1 : 380 * (i : ℚ) / ((n : ℚ) - 1) = 380 * ((i : ℚ) / ((n : ℚ) - 1)) := by ring
  rw [e1]
  generalize (i : ℚ) / ((n : ℚ) - 1) = q at b1
  rw [abs_le] at b1 b2 b3 ⊢
  norm_num at b1 b2 b3 ⊢
  constructor <;> linarith

/-- Consecutive x coordinates strictly increase. -/
theorem xGrid_lt (i n : ℕ) (hi : i + 1 < n) (hN : n ≤ 2 ^ 40) :
    lt (xGrid i n) (xGrid (i + 1) n) = true := by
  have hn : 2 ≤ n := by omega
  obtain ⟨a1, -⟩ := xGrid_val i n hn (by omega) hN
  obtain ⟨a2, -⟩ := xGrid_val (i + 1) n hn hi hN
  have b1 := abs_le.mp (xGrid_near i n hn (by omega) hN)
  have b2 := abs_le.mp (xGrid_near (i + 1) n hn hi hN)
  rw [lt_iff_ext a1 a2]
  have n1 : (1 : ℚ) ≤ (n : ℚ) - 1 := by
    have : (2 : ℚ) ≤ n := by exact_mod_cast hn
    linarith
  have nN : (n : ℚ) ≤ 1099511627776 := by
    have : n ≤ 1099511627776 := by norm_num at hN; exact hN
    exact_mod_cast this
  have step : 380 * ((i + 1 : ℕ) : ℚ) / ((n : ℚ) - 1) - 380 * (i : ℚ) / ((n : ℚ) - 1)
      = 380 / ((n : ℚ) - 1) := by
    push_cast
    field_simp
    ring
  have big : (1 : ℚ) / 2 ^ 42 < 380 / ((n : ℚ) - 1) := by
    rw [div_lt_div_iff₀ (by positivity) (by linarith)]
    norm_num
    linarith
  have e43 : (1 : ℚ) / 2 ^ 43 + 1 / 2 ^ 43 = 1 / 2 ^ 42 := by norm_num
  linarith

theorem xGrid_first (n : ℕ) (hn : 2 ≤ n) (hN : n ≤ 2 ^ 40) : xGrid 0 n = fin false 10 := by
  obtain ⟨a1, e, -⟩ := xGrid_val 0 n hn (by omega) hN
  have c10 : cr (10 : ℚ) = 10 := by
    have := cr_natCast 10 (by norm_num)
    simpa using this
  rw [Nat.cast_zero, zero_div, cr_zero, zero_mul, cr_zero, add_zero, c10] at e
  refine eq_fin_of_ext a1 e (by norm_num) ?_
  have := two_pow_53_lt
  have h1 : (10 : ℚ) ≤ 2 ^ 53 := by norm_num
  linarith

theorem xGrid_last (n : ℕ) (hn : 2 ≤ n) (hN : n ≤ 2 ^ 40) :
    xGrid (n - 1) n = fin false 390 := by
  obtain ⟨a1, e, -⟩ := xGrid_val (n - 1) n hn (by omega) hN
  have c380 : cr (380 : ℚ) = 380 := by
    have := cr_natCast 380 (by norm_num)
    simpa using this
  have c390 : cr (390 : ℚ) = 390 := by
    have := cr_natCast 390 (by norm_num)
    simpa using this
  have n1 : (1 : ℚ) ≤ (n : ℚ) - 1 := by
    have : (2 : ℚ) ≤ n := by exact_mod_cast hn
    linarith
  have ec : ((n - 1 : ℕ) : ℚ) = (n : ℚ) - 1 := by
    rw [Nat.cast_sub (by omega)]; norm_num
  rw [ec, div_self (by linarith), cr_one, one_mul, c380,
    show (10 : ℚ) + 380 = 390 by norm_num, c390] at e
  refine eq_fin_of_ext a1 e (by norm_num) ?_
  have := two_pow_53_lt
  have h1 : (390 : ℚ) ≤ 2 ^ 53 := by norm_num
  linarith

/-- Each gap between consecutive x coordinates lies within `2 ^ -42` of `380 / (n - 1)`. -/
theorem xGrid_gap (i n : ℕ) (hi : i + 1 < n) (hN : n ≤ 2 ^ 40) :
    |(ext (xGrid (i + 1) n) - ext (xGrid i n)) - 380 / ((n : ℚ) - 1)| ≤ 1 / 2 ^ 42 := by
  have hn : 2 ≤ n := by omega
  have b1 := abs_le.mp (xGrid_near i n hn (by omega) hN)
  have b2 := abs_le.mp (xGrid_near (i + 1) n hn hi hN)
  have n1 : (1 : ℚ) ≤ (n : ℚ) - 1 := by
    have : (2 : ℚ) ≤ n := by exact_mod_cast hn
    linarith
  have step : 380 * ((i + 1 : ℕ) : ℚ) / ((n : ℚ) - 1) - 380 * (i : ℚ) / ((n : ℚ) - 1)
      = 380 / ((n : ℚ) - 1) := by
    push_cast
    field_simp
    ring
  have e43 : (1 : ℚ) / 2 ^ 43 + 1 / 2 ^ 43 = 1 / 2 ^ 42 := by norm_num
  rw [abs_le]
  constructor <;> linarith

theorem chain_map_range {β : Type} (R : β → β → Prop) (f : ℕ → β) :
    ∀ (len s : ℕ), (∀ i, s ≤ i → i + 1 < s + len → R (f i) (f (i + 1))) →
      List.Chain' R ((List.range' s len).map f) := by
  intro len
  induction len with
  | zero => intro s _; simp
  | succ len ih =>
    intro s h
    cases len with
    | zero => simp [List.range']
    | succ len =>
      have := ih (s + 1) (fun i h1 h2 => h i (by omega) (by omega))
      simp only [List.range'_succ, List.map_cons, List.chain'_cons] at this ⊢
      exact ⟨h s le_rfl (by omega), this⟩

theorem head_map_range {β : Type} (f : ℕ → β) (n : ℕ) (hn : 1 ≤ n) :
    ((List.range' 0 n).map f).head? = some (f 0) := by
  obtain ⟨m, rfl⟩ : ∃ m, n = m + 1 := ⟨n - 1, by omega⟩
  simp [List.range'_succ]

theorem getLast_map_range {β : Type} (f : ℕ → β) (n : ℕ) (hn : 1 ≤ n) :
    ((List.range' 0 n).map f).getLast? = some (f (n - 1)) := by
  obtain ⟨m, rfl⟩ : ∃ m, n = m + 1 := ⟨n - 1, by omega⟩
  rw [List.range'_concat, List.map_append, List.getLast?_append]
  simp

theorem chart_points_length (layout : Time → String) (rows : List (F64 × Time)) :
    (chartOfPoints (scanRows layout rows)).Points.length = rows.length := by
  have h := congrArg List.length (chart_points_value_time layout rows)
  simpa using h

theorem chart_points_X (layout : Time → String) (rows : List (F64 × Time)) :
    (chartOfPoints (scanRows layout rows)).Points.map (fun p => p.X)
      = (List.range' 0 rows.length).map fun i => xCoord i rows.length := by
  rcases List.eq_nil_or_concat rows with h | ⟨l, a, h⟩
  · subst h; rfl
  · have hne : scanRows layout rows ≠ [] := by
      subst h; simp [scanRows]
    obtain ⟨p0, rest, hr⟩ := reverse_cons_of_ne_nil hne
    have hlen : rest.length + 1 = rows.length := by
      have := congrArg List.length hr
      simp [scanRows] at this
      omega
    rw [chartOfPoints_eq hr]
    simp only
    rw [setCoords_X, hlen]
    simp [hlen]

set_option maxRecDepth 1000000 in
/-- C7, counterexample: for four readings the x coordinates are 10, 136.66666666666666,
263.3333333333333 and 390; the first two gaps are `4456687131252053 / 2 ^ 45` and the
third is `4456687131252054 / 2 ^ 45`, also when the gaps are computed in `float64`, so the
points are not evenly spaced. -/
theorem getChartData_x_uneven_counterexample :
    ∃ cd, getChartData (fun _ => "")
        (some [(ofRat 4, 4), (ofRat 3, 3), (ofRat 2, 2), (ofRat 1, 1)]) = some cd ∧
      cd.Points.map (fun p => p.X)
        = [ofRat 10, fin false (4808530852140373 / 35184372088832),
            fin false (4632608991696213 / 17592186044416), ofRat 390] ∧
      cd.Points.map (fun p => p.X)
        = (List.range' 0 4).map (fun (i : ℕ) =>
            add (ofRat 10) (mul (div (ofInt (i : ℤ)) (ofInt ((4 : ℤ) - 1))) (ofRat 380))) ∧
      (4808530852140373 / 35184372088832 : ℚ) - 10 = 4456687131252053 / 2 ^ 45 ∧
      (4632608991696213 / 17592186044416 : ℚ) - 4808530852140373 / 35184372088832
        = 4456687131252053 / 2 ^ 45 ∧
      (390 : ℚ) - 4632608991696213 / 17592186044416 = 4456687131252054 / 2 ^ 45 ∧
      sub (fin false (4632608991696213 / 17592186044416))
          (fin false (4808530852140373 / 35184372088832))
        = fin false (4456687131252053 / 2 ^ 45) ∧
      sub (ofRat 390) (fin false (4632608991696213 / 17592186044416))
        = fin false (4456687131252054 / 2 ^ 45) ∧
      sub (ofRat 390) (fin false (4632608991696213 / 17592186044416))
        ≠ sub (fin false (4632608991696213 / 17592186044416))
          (fin false (4808530852140373 / 35184372088832)) :=
  ⟨_, rfl, by decide!⟩

/-- C7 (amended): for every series of `n` readings, `2 ≤ n ≤ 2 ^ 40` (the query's `LIMIT`
keeps `n ≤ 24`), the x coordinate of the `i`-th chart point in chronological order is the
`float64` value of `10 + (i / (n - 1)) * 380`; the first is 10, the last 390, the x
coordinates strictly increase, and they are evenly spaced up to rounding: each lies within
`2 ^ -43` of the grid point `10 + 380 * i / (n - 1)` and each gap between consecutive points
within `2 ^ -42` of `380 / (n - 1)`.  For the newest-first values 12, 20, 10: chronological
values 10, 20, 12, `Min` 10, `Max` 20, and on the run's own minimum and maximum padding 1
and plotting bounds 9 and 21, with points at x = 10, 200, 390. -/
theorem getChartData_x_coordinates (layout : Time → String) (rows : List (F64 × Time))
    (h2 : 2 ≤ rows.length) (hN : rows.length ≤ 2 ^ 40) :
    (∃ cd, getChartData layout (some rows) = some cd ∧
      cd.Points.length = rows.length ∧
      cd.Points.map (fun p => p.X) = (List.range' 0 rows.length).map (fun (i : ℕ) =>
        add (ofRat 10) (mul (div (ofInt (i : ℤ)) (ofInt ((rows.length : ℤ) - 1))) (ofRat 380))) ∧
      (cd.Points.map (fun p => p.X)).head? = some (ofRat 10) ∧
      (cd.Points.map (fun p => p.X)).getLast? = some (ofRat 390) ∧
      List.Chain' (fun a b => lt a b = true) (cd.Points.map (fun p => p.X)) ∧
      (∀ i : ℕ, i < rows.length →
        |ext (add (ofRat 10)
            (mul (div (ofInt (i : ℤ)) (ofInt ((rows.length : ℤ) - 1))) (ofRat 380)))
          - (10 + 380 * (i : ℚ) / ((rows.length : ℚ) - 1))| ≤ 1 / 2 ^ 43) ∧
      ∀ i : ℕ, i + 1 < rows.length →
        |(ext (add (ofRat 10)
              (mul (div (ofInt ((i + 1 : ℕ) : ℤ)) (ofInt ((rows.length : ℤ) - 1))) (ofRat 380)))
            - ext (add (ofRat 10)
              (mul (div (ofInt (i : ℤ)) (ofInt ((rows.length : ℤ) - 1))) (ofRat 380))))
          - 380 / ((rows.length : ℚ) - 1)| ≤ 1 / 2 ^ 42) ∧
    (∃ cd p0 rest,
      getChartData (fun _ => "") (some [(ofRat 12, 3), (ofRat 20, 2), (ofRat 10, 1)])
        = some cd ∧
      (scanRows (fun _ => "") [(ofRat 12, 3), (ofRat 20, 2), (ofRat 10, 1)]).reverse
        = p0 :: rest ∧
      cd.Points.map (fun p => p.Value) = [ofRat 10, ofRat 20, ofRat 12] ∧
      cd.Min = ofRat 10 ∧ cd.Max = ofRat 20 ∧
      paddingOf (ofRat 10) (ofRat 20) = ofRat 1 ∧
      sub (ofRat 10) (paddingOf (ofRat 10) (ofRat 20)) = ofRat 9 ∧
      add (ofRat 20) (paddingOf (ofRat 10) (ofRat 20)) = ofRat 21 ∧
      cd.Points.map (fun p => p.X) = [ofRat 10, ofRat 200, ofRat 390] ∧
      minMax (p0 :: rest) p0.Value = (ofRat 10, ofRat 20) ∧
      paddingOf (minMax (p0 :: rest) p0.Value).1 (minMax (p0 :: rest) p0.Value).2 = ofRat 1 ∧
      plotMin p0 rest = ofRat 9 ∧ plotMax p0 rest = ofRat 21) := by
  have hX := chart_points_X layout rows
  have hg : (fun i => xCoord i rows.length) = fun i => xGrid i rows.length :=
    funext fun i => xCoord_eq_xGrid i _
  have hf : (fun i : ℕ => add (ofRat 10)
      (mul (div (ofInt (i : ℤ)) (ofInt ((rows.length : ℤ) - 1))) (ofRat 380)))
      = fun i => xGrid i rows.length := by
    funext i
    unfold xGrid
    rw [chart_constants.2.2.2.2.1, chart_constants.2.2.2.2.2.1]
  rw [hg] at hX
  refine ⟨⟨_, rfl, chart_points_length layout rows, ?_, ?_, ?_, ?_, ?_, ?_⟩, ?_⟩
  · rw [hX, hf]
  · rw [hX, chart_constants.2.2.2.2.1, head_map_range _ _ (by omega),
      xGrid_first _ h2 hN]
  · rw [hX, chart_constants.2.2.2.2.2.2.1, getLast_map_range _ _ (by omega),
      xGrid_last _ h2 hN]
  · rw [hX]
    exact chain_map_range _ _ _ 0 fun i _ hi => xGrid_lt i _ (by omega) hN
  · intro i hi
    rw [congrFun hf i]
    exact xGrid_near i _ h2 hi hN
  · intro i hi
    rw [congrFun hf i, congrFun hf (i + 1)]
    exact xGrid_gap i _ hi hN
  · exact ⟨_, _, _, rfl, rfl, by decide!⟩

/-- C7, witness: the three readings of the specification's example. -/
theorem getChartData_x_coordinates_witness :
    2 ≤ [(ofRat 12, (3 : Time)), (ofRat 20, 2), (ofRat 10, 1)].length ∧
    [(ofRat 12, (3 : Time)), (ofRat 20, 2), (ofRat 10, 1)].length ≤ 2 ^ 40 ∧
    ∃ cd, getChartData (fun _ => "") (some [(ofRat 12, 3), (ofRat 20, 2), (ofRat 10, 1)])
        = some cd ∧
      (cd.Points.map (fun p => p.X)).head? = some (ofRat 10) ∧
      (cd.Points.map (fun p => p.X)).getLast? = some (ofRat 390) ∧
      List.Chain' (fun a b => lt a b = true) (cd.Points.map (fun p => p.X)) := by
  obtain ⟨⟨cd, h1, -, -, h4, h5, h6, -⟩, -⟩ := getChartData_x_coordinates (fun _ => "")
    [(ofRat 12, (3 : Time)), (ofRat 20, 2), (ofRat 10, 1)] (by decide) (by decide)
  exact ⟨by decide, by decide, cd, h1, h4, h5, h6⟩

/-! ### Reported bounds and the single-point chart -/

set_option maxRecDepth 1000000 in
/-- C1, the code at a failing input: for the readings 4 and 3 (newest first) the true
maximum is 4, the padding is the `float64` nearest to 0.1, and `Max` comes back as
`(4 + padding) - padding = 4 - 2 ^ -51`, below the true maximum; for the single reading 0.3
both `Min` and `Max` come back as the next `float64` above the reading. -/
theorem getChartData_max_differs_from_true_max :
    (∃ cd, getChartData (fun _ => "") (some [(ofRat 4, 1), (ofRat 3, 0)]) = some cd ∧
      cd.Points.map (fun p => p.Value) = [ofRat 3, ofRat 4] ∧
      cd.Min = ofRat 3 ∧
      cd.Max = fin false (9007199254740991 / 2251799813685248) ∧
      cd.Max ≠ ofRat 4 ∧ lt cd.Max (ofRat 4) = true) ∧
    (∃ cd, getChartData (fun _ => "") (some [(ofRat (3 / 10), 0)]) = some cd ∧
      cd.Points.map (fun p => p.Value) = [ofRat (3 / 10)] ∧
      cd.Min ≠ ofRat (3 / 10) ∧ cd.Max ≠ ofRat (3 / 10) ∧
      lt (ofRat (3 / 10)) cd.Min = true ∧ lt (ofRat (3 / 10)) cd.Max = true) := by
  exact ⟨⟨_, rfl, by decide!⟩, ⟨_, rfl, by decide!⟩⟩

set_option maxRecDepth 1000000 in
theorem xCoord_single : xCoord 0 1 = nan := by decide!

/-- C9, the code at the failing input: for a series with one reading the x coordinate is
`10 + (0 / 0) * 380`, the quotient `0 / 0` is `NaN`, so the single point has `X = NaN`
whatever the reading, and the paths print it: for the reading 5 the line path is
`MNaN,60.0`. -/
theorem getChartData_single_reading_x_nan (layout : Time → String) (v : F64) (t : Time) :
    (∃ cd, getChartData layout (some [(v, t)]) = some cd ∧
      cd.Points.map (fun p => p.X) = [nan]) ∧
    (∃ cd, getChartData (fun _ => "") (some [(ofRat 5, 0)]) = some cd ∧
      cd.LinePath = "MNaN,60.0" ∧ cd.AreaPath = "MNaN,110.0LNaN,60.0LNaN,110.0Z") := by
  refine ⟨⟨_, rfl, ?_⟩, ⟨_, rfl, by decide!⟩⟩
  have h := chart_points_X layout [(v, t)]
  rw [h]
  simp [xCoord_single]

/-! ### Finite results -/

namespace F64

theorem isFinite_zero (s : Bool) : IsFinite (fin s 0) :=
  ⟨le_rfl, rndMag_zero, pow2_pos 1024⟩

theorem ext_inf_abs (s : Bool) : |ext (inf s)| = pow2 1024 := by
  have hB := pow2_pos 1024
  cases s <;> simp [ext, sval, abs_of_pos hB]

theorem isFinite_ofMag_of_ext {s : Bool} {q : ℚ} (hq : 0 ≤ q)
    (h : |ext (ofMag s q)| < pow2 1024) : IsFinite (ofMag s q) := by
  rcases isFinite_or_inf_ofMag s hq with h1 | h1
  · exact h1
  · rw [h1, ext_inf_abs] at h
    exact absurd h (lt_irrefl _)

theorem isFinite_ofRat_of_ext {r : ℚ} (h : |ext (ofRat r)| < pow2 1024) :
    IsFinite (ofRat r) :=
  isFinite_ofMag_of_ext (abs_nonneg r) h

/-- Sum of two finite values: its extended value, and finiteness when that is in range. -/
theorem add_finite {x y : F64} (hx : IsFinite x) (hy : IsFinite y) :
    ext (add x y) = cr (ext x + ext y) ∧
      (|cr (ext x + ext y)| < pow2 1024 → IsFinite (add x y)) := by
  cases x with
  | nan => exact absurd hx id
  | inf s => exact absurd hx id
  | fin a p =>
    cases y with
    | nan => exact absurd hy id
    | inf s => exact absurd hy id
    | fin b q =>
      have h := (add_fin_fin a b p q).2
      refine ⟨h, fun hb0 => ?_⟩
      have hb : |cr (sval a p + sval b q)| < pow2 1024 := hb0
      rw [← h] at hb
      have e : add (fin a p) (fin b q) =
          if sval a p + sval b q = 0 then fin (a && b) 0 else ofRat (sval a p + sval b q) := rfl
      rw [e] at hb ⊢
      split_ifs at hb ⊢ with h0
      · exact isFinite_zero _
      · exact isFinite_ofRat_of_ext hb

theorem isFinite_neg {x : F64} (hx : IsFinite x) : IsFinite (neg x) ∧ ext (neg x) = -ext x := by
  cases x with
  | nan => exact absurd hx id
  | inf s => exact absurd hx id
  | fin a p => exact ⟨hx, by simp [neg, ext, sval_not]⟩

/-- Difference of two finite values. -/
theorem sub_finite {x y : F64} (hx : IsFinite x) (hy : IsFinite y) :
    ext (sub x y) = cr (ext x - ext y) ∧
      (|cr (ext x - ext y)| < pow2 1024 → IsFinite (sub x y)) := by
  have h := add_finite hx (isFinite_neg hy).1
  rw [(isFinite_neg hy).2, ← sub_eq_add_neg] at h
  exact h

/-- Product of two finite values. -/
theorem mul_finite {x y : F64} (hx : IsFinite x) (hy : IsFinite y) :
    ext (mul x y) = cr (ext x * ext y) ∧
      (|cr (ext x * ext y)| < pow2 1024 → IsFinite (mul x y)) := by
  cases x with
  | nan => exact absurd hx id
  | inf s => exact absurd hx id
  | fin a p =>
    cases y with
    | nan => exact absurd hy id
    | inf s => exact absurd hy id
    | fin b q =>
      have h := (mul_fin_fin a b hx.1 hy.1).2
      refine ⟨h, fun hb0 => ?_⟩
      have hb : |cr (sval a p * sval b q)| < pow2 1024 := hb0
      rw [← h] at hb
      exact isFinite_ofMag_of_ext (mul_nonneg hx.1 hy.1) hb

/-- A finite value is a multiple of the smallest subnormal `2 ^ -1074`. -/
theorem grid_of_isFinite {x : F64} (hx : IsFinite x) :
    ∃ k : ℤ, ext x = (k : ℚ) * pow2 (-1074) := by
  cases x with
  | nan => exact absurd hx id
  | inf s => exact absurd hx id
  | fin a m =>
    obtain ⟨h0, h1, -⟩ := hx
    obtain ⟨d, hd⟩ := Int.eq_ofNat_of_zero_le (show 0 ≤ expOf m + 1074 by
      have := expOf_ge m; omega)
    have hsplit : pow2 (expOf m) = pow2 (d : ℤ) * pow2 (-1074) := by
      rw [← pow2_add, ← hd]; congr 1; ring
    have hm : m = ((rne (m / pow2 (expOf m)) * 2 ^ d : ℤ) : ℚ) * pow2 (-1074) := by
      conv_lhs => rw [← h1]
      unfold rndMag
      rw [hsplit, pow2_natCast]
      push_cast
      ring
    cases a
    · exact ⟨_, hm⟩
    · refine ⟨-(rne (m / pow2 (expOf m)) * 2 ^ d), ?_⟩
      simp only [ext, sval, if_true]
      conv_lhs => rw [hm]
      push_cast
      ring

theorem cr_pos_of_grid {x y : F64} (hx : IsFinite x) (hy : IsFinite y) (h : ext x < ext y) :
    0 < cr (ext y - ext x) := by
  obtain ⟨k1, e1⟩ := grid_of_isFinite hx
  obtain ⟨k2, e2⟩ := grid_of_isFinite hy
  have hg := pow2_pos (-1074)
  have hk : k1 < k2 := by
    rw [e1, e2] at h
    have := lt_of_mul_lt_mul_right h hg.le
    exact_mod_cast this
  have h1 : pow2 (-1074) ≤ ext y - ext x := by
    rw [e1, e2, ← sub_mul]
    have : (1 : ℚ) ≤ (k2 : ℚ) - k1 := by
      have : k1 + 1 ≤ k2 := hk
      have : ((k1 + 1 : ℤ) : ℚ) ≤ k2 := by exact_mod_cast this
      push_cast at this
      linarith
    nlinarith
  have := cr_mono h1
  rw [cr_pow2 (-1074) (by norm_num) (by norm_num)] at this
  linarith

/-- Subtracting any finite `k`: monotone in the minuend. -/
theorem ext_sub_right_fin (s : Bool) (m : ℚ) {x : F64} (hx : Num x) :
    Num (sub x (fin s m)) ∧ ext (sub x (fin s m)) = liftMono (fun u => u - sval s m) (ext x) := by
  cases x with
  | nan => exact absurd hx id
  | inf b =>
    cases b
    · exact ⟨trivial, by simp [sub, neg, add, ext, sval, liftMono_B]⟩
    · exact ⟨trivial, by simp [sub, neg, add, ext, sval, liftMono_negB]⟩
  | fin b n =>
    have e0 : ext (fin b n) = sval b n := rfl
    rw [e0, liftMono_of_abs_lt (abs_sval_lt hx.1 hx.2)]
    exact sub_fin_fin b s n m

theorem fin_args_of_sub_finite {a b : F64} (h : IsFinite (sub a b)) :
    (∃ s m, a = fin s m) ∧ (∃ s m, b = fin s m) := by
  cases a with
  | nan => exact absurd h (by simp [sub, add, IsFinite])
  | inf s =>
    cases b with
    | nan => exact absurd h (by simp [sub, neg, add, IsFinite])
    | inf t => cases s <;> cases t <;> exact absurd h (by simp [sub, neg, add, IsFinite])
    | fin t m => exact absurd h (by simp [sub, neg, add, IsFinite])
  | fin s m =>
    cases b with
    | nan => exact absurd h (by simp [sub, neg, add, IsFinite])
    | inf t => exact absurd h (by simp [sub, neg, add, IsFinite])
    | fin t n => exact ⟨⟨s, m, rfl⟩, ⟨t, n, rfl⟩⟩

end F64

/-! ### y coordinates -/

theorem yCoord_eq (v lo hi : F64) :
    yCoord v lo hi = sub (ofRat 110) (mul (div (sub v lo) (sub hi lo)) (ofRat 100)) := by
  unfold yCoord
  rw [chart_constants.2.2.1, chart_constants.2.2.2.1, chart_constants.2.2.2.2.2.2.2.1,
    chart_constants.2.2.2.2.2.2.2.2.1]

theorem setCoords_Y (n : ℕ) (lo hi : F64) :
    ∀ (i : ℕ) (ps : List ChartPoint), ∀ q ∈ setCoords n lo hi i ps,
      q.Y = yCoord q.Value lo hi := by
  intro i ps
  induction ps generalizing i with
  | nil => intro q hq; simp [setCoords] at hq
  | cons p ps ih =>
    intro q hq
    simp only [setCoords, List.mem_cons] at hq
    rcases hq with rfl | hq
    · rfl
    · exact ih (i + 1) q hq

/-- With a finite positive divisor the y coordinate does not increase when the value grows. -/
theorem yCoord_antitone {lo hi v w : F64} (hr : IsFinite (sub hi lo))
    (hpos : 0 < ext (sub hi lo)) (hv : IsFinite v) (hw : IsFinite w)
    (hvw : lt v w = true) : le (yCoord w lo hi) (yCoord v lo hi) = true := by
  obtain ⟨-, ⟨s, m, hlo⟩⟩ := fin_args_of_sub_finite hr
  have vw : ext v ≤ ext w :=
    ((lt_iff_ext (num_of_isFinite hv) (num_of_isFinite hw)).mp hvw).le
  have c110 := isFinite_const 110 (by norm_num)
  have c100 := isFinite_const 100 (by norm_num)
  have p100 : 0 < ext (ofRat ((100 : ℕ) : ℚ)) := by rw [c100.2]; norm_num
  simp only [Nat.cast_ofNat] at c110 c100 p100
  rw [yCoord_eq, yCoord_eq, hlo]
  rw [hlo] at hr hpos
  obtain ⟨a1, e1⟩ := ext_sub_right_fin s m (num_of_isFinite hv)
  obtain ⟨a2, e2⟩ := ext_sub_right_fin s m (num_of_isFinite hw)
  obtain ⟨b1, f1⟩ := ext_div_right hr hpos a1
  obtain ⟨b2, f2⟩ := ext_div_right hr hpos a2
  obtain ⟨c1, g1⟩ := ext_mul_right c100.1 p100 b1
  obtain ⟨c2, g2⟩ := ext_mul_right c100.1 p100 b2
  obtain ⟨d1, k1⟩ := ext_sub_left c110.1 c1
  obtain ⟨d2, k2⟩ := ext_sub_left c110.1 c2
  rw [le_iff_ext d2 d1, k1, k2, g1, g2, f1, f2, e1, e2]
  apply liftAnti_anti (fun x y hxy => by linarith)
  apply liftMono_mono (fun x y hxy => mul_le_mul_of_nonneg_right hxy p100.le)
  apply liftMono_mono (fun x y hxy => div_le_div_of_nonneg_right hxy hpos.le)
  apply liftMono_mono (fun x y hxy => by linarith)
  exact vw

theorem chart_points_eq (layout : Time → String) (rows : List (F64 × Time))
    {p0 : ChartPoint} {rest : List ChartPoint}
    (hr : (scanRows layout rows).reverse = p0 :: rest) :
    (chartOfPoints (scanRows layout rows)).Points
      = setCoords (rest.length + 1) (plotMin p0 rest) (plotMax p0 rest) 0 (p0 :: rest) := by
  rw [chartOfPoints_eq hr]

set_option maxRecDepth 1000000 in
/-- C10, counterexample: in the series 0, 100, 1, 1 + 2 ^ -52 (oldest first) the last two
values differ, the last being the larger, and their y coordinates are equal. -/
theorem getChartData_y_not_strict_counterexample :
    ∃ cd, getChartData (fun _ => "")
        (some [(ofRat (4503599627370497 / 4503599627370496), 4), (ofRat 1, 3),
          (ofRat 100, 2), (ofRat 0, 1)]) = some cd ∧
      cd.Points.map (fun p => p.Value)
        = [ofRat 0, ofRat 100, ofRat 1, ofRat (4503599627370497 / 4503599627370496)] ∧
      lt (ofRat 1) (ofRat (4503599627370497 / 4503599627370496)) = true ∧
      cd.Points.map (fun p => p.Y)
        = [fin false (7154155658062507 / 70368744177664),
           fin false (645046821628587 / 35184372088832),
           fin false (7095515037914453 / 70368744177664),
           fin false (7095515037914453 / 70368744177664)] ∧
      lt (fin false (7095515037914453 / 70368744177664))
        (fin false (7095515037914453 / 70368744177664)) = false := by
  exact ⟨_, rfl, by decide!⟩

/-- C10 (amended): for every non-empty series, with `lo` and `hi` the padded plotting bounds,
every chart point has `Y = 110 - ((Value - lo) / (hi - lo)) * 100` in `float64` arithmetic;
equal values give equal `Y`; and whenever the divisor `hi - lo` is a finite positive number,
`Y` does not increase with the value: for finite values, `value[i] > value[j]` implies
`Y[i] <= Y[j]` (values that are close enough share one `Y`). -/
theorem getChartData_y_monotone (layout : Time → String) (rows : List (F64 × Time))
    (hne : rows ≠ []) :
    ∃ cd p0 rest, (scanRows layout rows).reverse = p0 :: rest ∧
      getChartData layout (some rows) = some cd ∧
      (∀ p ∈ cd.Points, p.Y = sub (ofRat 110)
        (mul (div (sub p.Value (plotMin p0 rest))
          (sub (plotMax p0 rest) (plotMin p0 rest))) (ofRat 100))) ∧
      (∀ p ∈ cd.Points, ∀ q ∈ cd.Points, p.Value = q.Value → p.Y = q.Y) ∧
      (IsFinite (sub (plotMax p0 rest) (plotMin p0 rest)) →
        0 < ext (sub (plotMax p0 rest) (plotMin p0 rest)) →
        ∀ p ∈ cd.Points, ∀ q ∈ cd.Points, IsFinite p.Value → IsFinite q.Value →
          gt p.Value q.Value = true → le p.Y q.Y = true) := by
  have hne2 : scanRows layout rows ≠ [] := by
    unfold scanRows
    simpa using hne
  obtain ⟨p0, rest, hr⟩ := reverse_cons_of_ne_nil hne2
  have hY := setCoords_Y (rest.length + 1) (plotMin p0 rest) (plotMax p0 rest) 0 (p0 :: rest)
  rw [← chart_points_eq layout rows hr] at hY
  refine ⟨chartOfPoints (scanRows layout rows), p0, rest, hr, rfl, ?_, ?_, ?_⟩
  · intro p hp
    rw [hY p hp, yCoord_eq]
  · intro p hp q hq hpq
    rw [hY p hp, hY q hq, hpq]
  · intro hfin hpos p hp q hq fp fq hgt
    rw [hY p hp, hY q hq]
    exact yCoord_antitone hfin hpos fq fp hgt

set_option maxRecDepth 1000000 in
theorem example_points_finite :
    (∀ p ∈ (chartOfPoints (scanRows (fun _ => "")
        [(ofRat 12, (3 : Time)), (ofRat 20, 2), (ofRat 10, 1)])).Points, IsFinite p.Value) ∧
    ∀ p0 rest, (scanRows (fun _ => "")
        [(ofRat 12, (3 : Time)), (ofRat 20, 2), (ofRat 10, 1)]).reverse = p0 :: rest →
      IsFinite (sub (plotMax p0 rest) (plotMin p0 rest)) ∧
        0 < ext (sub (plotMax p0 rest) (plotMin p0 rest)) := by
  constructor
  · decide!
  · intro p0 rest h
    have h1 : (scanRows (fun _ => "")
        [(ofRat 12, (3 : Time)), (ofRat 20, 2), (ofRat 10, 1)]).reverse
        = [⟨F64.zero, F64.zero, ofRat 10, 1, ""⟩, ⟨F64.zero, F64.zero, ofRat 20, 2, ""⟩,
          ⟨F64.zero, F64.zero, ofRat 12, 3, ""⟩] := rfl
    rw [h1] at h
    injection h with ha hb
    subst ha hb
    decide!

/-- C10, witness: in the series of the specification's example the divisor is finite and
positive, and a larger value never has a larger `Y`. -/
theorem getChartData_y_monotone_witness :
    [(ofRat 12, (3 : Time)), (ofRat 20, 2), (ofRat 10, 1)] ≠ [] ∧
    ∃ cd, getChartData (fun _ => "") (some [(ofRat 12, 3), (ofRat 20, 2), (ofRat 10, 1)])
        = some cd ∧
      (∀ p ∈ cd.Points, ∀ q ∈ cd.Points, p.Value = q.Value → p.Y = q.Y) ∧
      (∀ p ∈ cd.Points, ∀ q ∈ cd.Points, gt p.Value q.Value = true → le p.Y q.Y = true) := by
  obtain ⟨cd, p0, rest, h1, h2, -, h4, h5⟩ := getChartData_y_monotone (fun _ => "")
    [(ofRat 12, (3 : Time)), (ofRat 20, 2), (ofRat 10, 1)] (by simp)
  have e : cd = chartOfPoints (scanRows (fun _ => "")
      [(ofRat 12, (3 : Time)), (ofRat 20, 2), (ofRat 10, 1)]) := by
    have := h2.symm
    simpa [getChartData] using this
  obtain ⟨f1, f2⟩ := example_points_finite
  obtain ⟨g1, g2⟩ := f2 p0 rest h1
  refine ⟨by simp, cd, h2, h4, ?_⟩
  intro p hp q hq hgt
  rw [e] at hp hq
  exact h5 g1 g2 p (e ▸ hp) q (e ▸ hq) (f1 p hp) (f1 q hq) hgt

/-! ### Plotting bounds -/

theorem minMaxStep_spec (acc : F64 × F64) (p : ChartPoint) (h1 : Bounded acc.1)
    (h2 : Bounded acc.2) (hp : Bounded p.Value) :
    ((minMaxStep acc p).1 = acc.1 ∨ (minMaxStep acc p).1 = p.Value) ∧
    ((minMaxStep acc p).2 = acc.2 ∨ (minMaxStep acc p).2 = p.Value) ∧
    ext (minMaxStep acc p).1 ≤ ext acc.1 ∧ ext acc.2 ≤ ext (minMaxStep acc p).2 ∧
    ext (minMaxStep acc p).1 ≤ ext p.Value ∧ ext p.Value ≤ ext (minMaxStep acc p).2 := by
  have n1 := num_of_isFinite h1.1
  have n2 := num_of_isFinite h2.1
  have np := num_of_isFinite hp.1
  unfold minMaxStep gt
  simp only
  by_cases c1 : lt p.Value acc.1 = true
  · have l1 := (lt_iff_ext np n1).mp c1
    by_cases c2 : lt acc.2 p.Value = true
    · have l2 := (lt_iff_ext n2 np).mp c2
      rw [if_pos c1, if_pos c2]
      exact ⟨Or.inr rfl, Or.inr rfl, l1.le, l2.le, le_rfl, le_rfl⟩
    · have l2 : ¬ ext acc.2 < ext p.Value := fun h => c2 ((lt_iff_ext n2 np).mpr h)
      rw [if_pos c1, if_neg c2]
      exact ⟨Or.inr rfl, Or.inl rfl, l1.le, le_rfl, le_rfl, not_lt.mp l2⟩
  · have l1 : ¬ ext p.Value < ext acc.1 := fun h => c1 ((lt_iff_ext np n1).mpr h)
    by_cases c2 : lt acc.2 p.Value = true
    · have l2 := (lt_iff_ext n2 np).mp c2
      rw [if_neg c1, if_pos c2]
      exact ⟨Or.inl rfl, Or.inr rfl, le_rfl, l2.le, not_lt.mp l1, le_rfl⟩
    · have l2 : ¬ ext acc.2 < ext p.Value := fun h => c2 ((lt_iff_ext n2 np).mpr h)
      rw [if_neg c1, if_neg c2]
      exact ⟨Or.inl rfl, Or.inl rfl, le_rfl, le_rfl, not_lt.mp l1, not_lt.mp l2⟩

/-- The min/max loop returns two values of the series that enclose all of them. -/
theorem foldl_minMax : ∀ (l : List ChartPoint) (acc : F64 × F64), Bounded acc.1 →
    Bounded acc.2 → (∀ p ∈ l, Bounded p.Value) →
    ((l.foldl minMaxStep acc).1 = acc.1 ∨ ∃ p ∈ l, (l.foldl minMaxStep acc).1 = p.Value) ∧
    ((l.foldl minMaxStep acc).2 = acc.2 ∨ ∃ p ∈ l, (l.foldl minMaxStep acc).2 = p.Value) ∧
    ext (l.foldl minMaxStep acc).1 ≤ ext acc.1 ∧ ext acc.2 ≤ ext (l.foldl minMaxStep acc).2 ∧
    ∀ p ∈ l, ext (l.foldl minMaxStep acc).1 ≤ ext p.Value ∧
      ext p.Value ≤ ext (l.foldl minMaxStep acc).2 := by
  intro l
  induction l with
  | nil =>
    intro acc _ _ _
    simp
  | cons a l ih =>
    intro acc h1 h2 hl
    have ha : Bounded a.Value := hl a (List.mem_cons_self _ _)
    obtain ⟨s1, s2, s3, s4, s5, s6⟩ := minMaxStep_spec acc a h1 h2 ha
    have b1 : Bounded (minMaxStep acc a).1 := by
      rcases s1 with e | e <;> rw [e] <;> assumption
    have b2 : Bounded (minMaxStep acc a).2 := by
      rcases s2 with e | e <;> rw [e] <;> assumption
    obtain ⟨r1, r2, r3, r4, r5⟩ := ih (minMaxStep acc a) b1 b2
      (fun p hp => hl p (List.mem_cons_of_mem _ hp))
    simp only [List.foldl_cons]
    refine ⟨?_, ?_, le_trans r3 s3, le_trans s4 r4, ?_⟩
    · rcases r1 with e | ⟨p, hp, e⟩
      · rcases s1 with f | f
        · left; rw [e, f]
        · right; exact ⟨a, List.mem_cons_self _ _, by rw [e, f]⟩
      · right; exact ⟨p, List.mem_cons_of_mem _ hp, e⟩
    · rcases r2 with e | ⟨p, hp, e⟩
      · rcases s2 with f | f
        · left; rw [e, f]
        · right; exact ⟨a, List.mem_cons_self _ _, by rw [e, f]⟩
      · right; exact ⟨p, List.mem_cons_of_mem _ hp, e⟩
    · intro p hp
      rcases List.mem_cons.mp hp with e | hp2
      · subst e
        exact ⟨le_trans r3 s5, le_trans s6 r4⟩
      · exact r5 p hp2

theorem minMax_spec (p0 : ChartPoint) (rest : List ChartPoint)
    (h : ∀ p ∈ p0 :: rest, Bounded p.Value) :
    (∃ p ∈ p0 :: rest, (minMax (p0 :: rest) p0.Value).1 = p.Value) ∧
    (∃ p ∈ p0 :: rest, (minMax (p0 :: rest) p0.Value).2 = p.Value) ∧
    ext (minMax (p0 :: rest) p0.Value).1 ≤ ext (minMax (p0 :: rest) p0.Value).2 := by
  have h0 := h p0 (List.mem_cons_self _ _)
  obtain ⟨r1, r2, r3, r4, -⟩ := foldl_minMax (p0 :: rest) (p0.Value, p0.Value) h0 h0 h
  unfold minMax
  refine ⟨?_, ?_, le_trans r3 r4⟩
  · rcases r1 with e | e
    · exact ⟨p0, List.mem_cons_self _ _, e⟩
    · exact e
  · rcases r2 with e | e
    · exact ⟨p0, List.mem_cons_self _ _, e⟩
    · exact e

set_option maxRecDepth 1000000 in
theorem tenth_spec : IsFinite (ofRat (1 / 10)) ∧ 0 ≤ ext (ofRat (1 / 10)) ∧
    ext (ofRat (1 / 10)) ≤ 1 / 8 := by decide!

theorem eq_zero_iff {t : F64} (ht : IsFinite t) : eq t (ofRat 0) = true ↔ ext t = 0 := by
  rw [chart_constants.2.2.2.2.2.2.2.2.2.2]
  cases t with
  | nan => exact absurd ht id
  | inf s => exact absurd ht id
  | fin s m => simp [eq, ext, sval]

/-- The padding of a bounded range is finite, non-negative and at most `2 ^ 51`; it is 1
when the range is empty. -/
theorem paddingOf_spec {mn mx : F64} (h1 : Bounded mn) (h2 : Bounded mx)
    (hle : ext mn ≤ ext mx) :
    IsFinite (paddingOf mn mx) ∧ 0 ≤ ext (paddingOf mn mx) ∧ ext (paddingOf mn mx) ≤ 2 ^ 51 ∧
      (ext mn = ext mx → paddingOf mn mx = ofRat 1) := by
  obtain ⟨a1, a2⟩ := abs_lt.mp h1.2
  obtain ⟨b1, b2⟩ := abs_lt.mp h2.2
  obtain ⟨d1, d2⟩ := sub_finite h2.1 h1.1
  have dr : |ext mx - ext mn| ≤ 2 ^ 54 := by
    rw [abs_le]; constructor <;> norm_num <;> linarith
  obtain ⟨dc, dB⟩ := abs_cr_le_two_pow 54 (by norm_num) dr
  have dfin := d2 dB
  have d0 : 0 ≤ ext (sub mx mn) := by
    rw [d1]
    have := cr_mono (show (0 : ℚ) ≤ ext mx - ext mn by linarith)
    rwa [cr_zero] at this
  have dle : ext (sub mx mn) ≤ 2 ^ 54 := by rw [d1]; exact (abs_le.mp dc).2
  obtain ⟨tf, t0, t8⟩ := tenth_spec
  obtain ⟨m1, m2⟩ := mul_finite dfin tf
  have pr0 : 0 ≤ ext (sub mx mn) * ext (ofRat (1 / 10)) := mul_nonneg d0 t0
  have pr1 : ext (sub mx mn) * ext (ofRat (1 / 10)) ≤ 2 ^ 51 := by
    have : ext (sub mx mn) * ext (ofRat (1 / 10)) ≤ 2 ^ 54 * (1 / 8) :=
      mul_le_mul dle t8 t0 (by norm_num)
    have e : (2 : ℚ) ^ 54 * (1 / 8) = 2 ^ 51 := by norm_num
    rw [e] at this
    exact this
  have pr : |ext (sub mx mn) * ext (ofRat (1 / 10))| ≤ 2 ^ 51 := by
    rw [abs_of_nonneg pr0]; exact pr1
  obtain ⟨tc, tB⟩ := abs_cr_le_two_pow 51 (by norm_num) pr
  have tfin := m2 tB
  have tpos : 0 ≤ ext (mul (sub mx mn) (ofRat (1 / 10))) := by
    rw [m1]
    have := cr_mono pr0
    rwa [cr_zero] at this
  have tle : ext (mul (sub mx mn) (ofRat (1 / 10))) ≤ 2 ^ 51 := by
    rw [m1]; exact (abs_le.mp tc).2
  have one := isFinite_const 1 (by norm_num)
  simp only [Nat.cast_one] at one
  unfold paddingOf
  split_ifs with hz
  · refine ⟨one.1, by rw [one.2]; norm_num, by rw [one.2]; norm_num, fun _ => rfl⟩
  · refine ⟨tfin, tpos, tle, fun he => ?_⟩
    exfalso
    apply hz
    rw [eq_zero_iff tfin, m1, d1, he, sub_self, cr_zero, zero_mul, cr_zero]

/-- The plotting range of a bounded series is a finite positive number, at least 1 when all
values are equal. -/
theorem plotRange_spec {mn mx : F64} (h1 : Bounded mn) (h2 : Bounded mx)
    (hle : ext mn ≤ ext mx) :
    IsFinite (sub (add mx (paddingOf mn mx)) (sub mn (paddingOf mn mx))) ∧
      0 < ext (sub (add mx (paddingOf mn mx)) (sub mn (paddingOf mn mx))) ∧
      (ext mn = ext mx →
        1 ≤ ext (sub (add mx (paddingOf mn mx)) (sub mn (paddingOf mn mx)))) := by
  obtain ⟨a1, a2⟩ := abs_lt.mp h1.2
  obtain ⟨b1, b2⟩ := abs_lt.mp h2.2
  obtain ⟨pf, p0, p51, peq⟩ := paddingOf_spec h1 h2 hle
  obtain ⟨l1, l2⟩ := sub_finite h1.1 pf
  obtain ⟨u1, u2⟩ := add_finite h2.1 pf
  have lr : |ext mn - ext (paddingOf mn mx)| ≤ 2 ^ 54 := by
    rw [abs_le]; constructor <;> norm_num at p51 ⊢ <;> linarith
  have ur : |ext mx + ext (paddingOf mn mx)| ≤ 2 ^ 54 := by
    rw [abs_le]; constructor <;> norm_num at p51 ⊢ <;> linarith
  obtain ⟨lc, lB⟩ := abs_cr_le_two_pow 54 (by norm_num) lr
  obtain ⟨uc, uB⟩ := abs_cr_le_two_pow 54 (by norm_num) ur
  have lfin := l2 lB
  have ufin := u2 uB
  obtain ⟨r1, r2⟩ := sub_finite ufin lfin
  rw [← l1] at lc
  rw [← u1] at uc
  have rr : |ext (add mx (paddingOf mn mx)) - ext (sub mn (paddingOf mn mx))| ≤ 2 ^ 55 := by
    obtain ⟨x1, x2⟩ := abs_le.mp lc
    obtain ⟨y1, y2⟩ := abs_le.mp uc
    rw [abs_le]; constructor <;> norm_num at x1 x2 y1 y2 ⊢ <;> linarith
  obtain ⟨rc, rB⟩ := abs_cr_le_two_pow 55 (by norm_num) rr
  have rfin := r2 rB
  have lo_le : ext (sub mn (paddingOf mn mx)) ≤ ext mn := by
    rw [l1]
    have := cr_mono (show ext mn - ext (paddingOf mn mx) ≤ ext mn by linarith)
    rwa [cr_ext_of_isFinite h1.1] at this
  have hi_ge : ext mx ≤ ext (add mx (paddingOf mn mx)) := by
    rw [u1]
    have := cr_mono (show ext mx ≤ ext mx + ext (paddingOf mn mx) by linarith)
    rwa [cr_ext_of_isFinite h2.1] at this
  have eqcase : ext mn = ext mx →
      1 ≤ ext (sub (add mx (paddingOf mn mx)) (sub mn (paddingOf mn mx))) := by
    intro he
    have p1 : ext (paddingOf mn mx) = 1 := by
      rw [peq he]
      have one := isFinite_const 1 (by norm_num)
      simp only [Nat.cast_one] at one
      exact one.2
    have c1 : |⌈ext mn⌉ - 1| ≤ 2 ^ 53 := by
      have k1 : ⌈ext mn⌉ ≤ 2 ^ 53 := Int.ceil_le.mpr (by push_cast; linarith)
      have k2 : -(2 ^ 53 : ℤ) < ⌈ext mn⌉ := Int.lt_ceil.mpr (by push_cast; linarith)
      rw [abs_le]; constructor <;> omega
    have c2 : |⌊ext mx⌋ + 1| ≤ 2 ^ 53 := by
      have k1 : ⌊ext mx⌋ < 2 ^ 53 := Int.floor_lt.mpr (by push_cast; linarith)
      have k2 : -(2 ^ 53 : ℤ) ≤ ⌊ext mx⌋ := Int.le_floor.mpr (by push_cast; linarith)
      rw [abs_le]; constructor <;> omega
    have lo2 : ext (sub mn (paddingOf mn mx)) ≤ ((⌈ext mn⌉ - 1 : ℤ) : ℚ) := by
      rw [l1, p1]
      have := cr_mono (show ext mn - 1 ≤ ((⌈ext mn⌉ - 1 : ℤ) : ℚ) by
        push_cast; linarith [Int.le_ceil (ext mn)])
      rwa [cr_intCast _ c1] at this
    have hi2 : ((⌊ext mx⌋ + 1 : ℤ) : ℚ) ≤ ext (add mx (paddingOf mn mx)) := by
      rw [u1, p1]
      have := cr_mono (show ((⌊ext mx⌋ + 1 : ℤ) : ℚ) ≤ ext mx + 1 by
        push_cast; linarith [Int.floor_le (ext mx)])
      rwa [cr_intCast _ c2] at this
    have fc : ⌈ext mn⌉ ≤ ⌊ext mx⌋ + 1 := by
      rw [he]; exact Int.ceil_le_floor_add_one _
    have fcq : ((⌈ext mn⌉ : ℤ) : ℚ) ≤ ((⌊ext mx⌋ : ℤ) : ℚ) + 1 := by exact_mod_cast fc
    rw [r1]
    have := cr_mono (show (1 : ℚ) ≤ ext (add mx (paddingOf mn mx))
        - ext (sub mn (paddingOf mn mx)) by
      push_cast at lo2 hi2
      linarith)
    rwa [cr_one] at this
  refine ⟨rfin, ?_, eqcase⟩
  rcases hle.lt_or_eq with hlt | he
  · rw [r1]
    have pos := cr_pos_of_grid h1.1 h2.1 hlt
    have := cr_mono (show ext mx - ext mn ≤ ext (add mx (paddingOf mn mx))
        - ext (sub mn (paddingOf mn mx)) by linarith)
    linarith
  · have := eqcase he
    linarith

theorem mem_chronological {layout : Time → String} {rows : List (F64 × Time)}
    {p : ChartPoint} (hp : p ∈ (scanRows layout rows).reverse) : ∃ r ∈ rows, p.Value = r.1 := by
  rw [List.mem_reverse] at hp
  unfold scanRows at hp
  obtain ⟨r, hr, e⟩ := List.mem_map.mp hp
  exact ⟨r, hr, by rw [← e]⟩

set_option maxRecDepth 1000000 in
/-- C5, counterexample: for the value `2 ^ 54` repeated, `v - 1` and `v + 1` both round to
`v`, the plotting bounds coincide, the divisor is zero and every `Y` is `NaN`; for the value
-63.6 repeated the bounds differ by `2 - 2 ^ -47`, not by 2. -/
theorem getChartData_plot_range_counterexample :
    (∃ cd, getChartData (fun _ => "")
        (some [(ofRat 18014398509481984, 2), (ofRat 18014398509481984, 1)]) = some cd ∧
      cd.Points.map (fun p => p.Y) = [nan, nan]) ∧
    plotMin ⟨F64.zero, F64.zero, ofRat 18014398509481984, 1, ""⟩
      [⟨F64.zero, F64.zero, ofRat 18014398509481984, 2, ""⟩] = ofRat 18014398509481984 ∧
    plotMax ⟨F64.zero, F64.zero, ofRat 18014398509481984, 1, ""⟩
      [⟨F64.zero, F64.zero, ofRat 18014398509481984, 2, ""⟩] = ofRat 18014398509481984 ∧
    sub (plotMax ⟨F64.zero, F64.zero, ofRat 18014398509481984, 1, ""⟩
        [⟨F64.zero, F64.zero, ofRat 18014398509481984, 2, ""⟩])
      (plotMin ⟨F64.zero, F64.zero, ofRat 18014398509481984, 1, ""⟩
        [⟨F64.zero, F64.zero, ofRat 18014398509481984, 2, ""⟩]) = fin false 0 ∧
    sub (plotMax ⟨F64.zero, F64.zero, ofRat (-318 / 5), 1, ""⟩
        [⟨F64.zero, F64.zero, ofRat (-318 / 5), 2, ""⟩])
      (plotMin ⟨F64.zero, F64.zero, ofRat (-318 / 5), 1, ""⟩
        [⟨F64.zero, F64.zero, ofRat (-318 / 5), 2, ""⟩])
      = fin false (2 - 1 / 2 ^ 47) ∧
    fin false (2 - 1 / 2 ^ 47) ≠ ofRat 2 := by
  exact ⟨⟨_, rfl, by decide!⟩, by decide!⟩

/-- C5 (amended): for every non-empty series of finite values of magnitude below `2 ^ 53`
the plotting range `hi - lo` that divides in the y normalisation is a finite, strictly
positive number.  When all values equal `v`, the padding is 1, the plotting bounds are the
`float64` results of `v - 1` and `v + 1`, and the range is at least 1; when moreover `v` is
an integer the bounds are exactly `v - 1` and `v + 1` and the range is exactly 2. -/
theorem getChartData_plot_range (layout : Time → String) (rows : List (F64 × Time))
    (hne : rows ≠ []) (hb : ∀ r ∈ rows, IsFinite r.1 ∧ |ext r.1| < 2 ^ 53) :
    ∃ cd p0 rest, (scanRows layout rows).reverse = p0 :: rest ∧
      getChartData layout (some rows) = some cd ∧
      (∀ p ∈ cd.Points, p.Y = sub (ofRat 110)
        (mul (div (sub p.Value (plotMin p0 rest))
          (sub (plotMax p0 rest) (plotMin p0 rest))) (ofRat 100))) ∧
      IsFinite (sub (plotMax p0 rest) (plotMin p0 rest)) ∧
      0 < ext (sub (plotMax p0 rest) (plotMin p0 rest)) ∧
      ∀ v, (∀ r ∈ rows, r.1 = v) →
        paddingOf (minMax (p0 :: rest) p0.Value).1 (minMax (p0 :: rest) p0.Value).2 = ofRat 1 ∧
        plotMin p0 rest = sub v (ofRat 1) ∧ plotMax p0 rest = add v (ofRat 1) ∧
        1 ≤ ext (sub (plotMax p0 rest) (plotMin p0 rest)) ∧
        ∀ k : ℤ, ext v = k →
          ext (plotMin p0 rest) = k - 1 ∧ ext (plotMax p0 rest) = k + 1 ∧
          ext (sub (plotMax p0 rest) (plotMin p0 rest)) = 2 := by
  have hne2 : scanRows layout rows ≠ [] := by
    unfold scanRows
    simpa using hne
  obtain ⟨p0, rest, hr⟩ := reverse_cons_of_ne_nil hne2
  have hY := setCoords_Y (rest.length + 1) (plotMin p0 rest) (plotMax p0 rest) 0 (p0 :: rest)
  rw [← chart_points_eq layout rows hr] at hY
  have hpts : ∀ p ∈ p0 :: rest, Bounded p.Value := by
    intro p hp
    rw [← hr] at hp
    obtain ⟨r, hr1, e⟩ := mem_chronological hp
    rw [e]
    exact hb r hr1
  obtain ⟨⟨pa, hpa, ea⟩, ⟨pb, hpb, eb⟩, hle⟩ := minMax_spec p0 rest hpts
  have bmn : Bounded (minMax (p0 :: rest) p0.Value).1 := by rw [ea]; exact hpts pa hpa
  have bmx : Bounded (minMax (p0 :: rest) p0.Value).2 := by rw [eb]; exact hpts pb hpb
  obtain ⟨rfin, rpos, req⟩ := plotRange_spec bmn bmx hle
  have erng : sub (plotMax p0 rest) (plotMin p0 rest)
      = sub (add (minMax (p0 :: rest) p0.Value).2
          (paddingOf (minMax (p0 :: rest) p0.Value).1 (minMax (p0 :: rest) p0.Value).2))
        (sub (minMax (p0 :: rest) p0.Value).1
          (paddingOf (minMax (p0 :: rest) p0.Value).1 (minMax (p0 :: rest) p0.Value).2)) := rfl
  refine ⟨chartOfPoints (scanRows layout rows), p0, rest, hr, rfl, ?_, ?_, ?_, ?_⟩
  · intro p hp
    rw [hY p hp, yCoord_eq]
  · rw [erng]; exact rfin
  · rw [erng]; exact rpos
  · intro v hv
    have hval : ∀ p ∈ p0 :: rest, p.Value = v := by
      intro p hp
      rw [← hr] at hp
      obtain ⟨r, hr1, e⟩ := mem_chronological hp
      rw [e]
      exact hv r hr1
    have hmn : (minMax (p0 :: rest) p0.Value).1 = v := by rw [ea]; exact hval pa hpa
    have hmx : (minMax (p0 :: rest) p0.Value).2 = v := by rw [eb]; exact hval pb hpb
    have bv : Bounded v := by rw [← hmn]; exact bmn
    have hpad : paddingOf (minMax (p0 :: rest) p0.Value).1 (minMax (p0 :: rest) p0.Value).2
        = ofRat 1 := (paddingOf_spec bmn bmx hle).2.2.2 (by rw [hmn, hmx])
    have hlo : plotMin p0 rest = sub v (ofRat 1) := by
      unfold plotMin; rw [hpad, hmn]
    have hhi : plotMax p0 rest = add v (ofRat 1) := by
      unfold plotMax; rw [hpad, hmx]
    refine ⟨hpad, hlo, hhi, ?_, ?_⟩
    · rw [erng]; exact req (by rw [hmn, hmx])
    · intro k hk
      have one := isFinite_const 1 (by norm_num)
      simp only [Nat.cast_one] at one
      obtain ⟨k1, k2⟩ := abs_lt.mp bv.2
      rw [hk] at k1 k2
      have kz1 : -(2 ^ 53 : ℤ) < k := by exact_mod_cast k1
      have kz2 : k < (2 ^ 53 : ℤ) := by exact_mod_cast k2
      have c1 : |k - 1| ≤ 2 ^ 53 := by rw [abs_le]; constructor <;> omega
      have c2 : |k + 1| ≤ 2 ^ 53 := by rw [abs_le]; constructor <;> omega
      obtain ⟨l1, l2⟩ := sub_finite bv.1 one.1
      obtain ⟨u1, u2⟩ := add_finite bv.1 one.1
      have el : ext (sub v (ofRat 1)) = k - 1 := by
        rw [l1, one.2, hk]
        have := cr_intCast (k - 1) c1
        push_cast at this
        exact this
      have eu : ext (add v (ofRat 1)) = k + 1 := by
        rw [u1, one.2, hk]
        have := cr_intCast (k + 1) c2
        push_cast at this
        exact this
      have lfin : IsFinite (sub v (ofRat 1)) := by
        apply l2
        rw [← l1, el]
        have : |(k : ℚ) - 1| ≤ 2 ^ 53 := by exact_mod_cast c1
        exact lt_of_le_of_lt this two_pow_53_lt
      have ufin : IsFinite (add v (ofRat 1)) := by
        apply u2
        rw [← u1, eu]
        have : |(k : ℚ) + 1| ≤ 2 ^ 53 := by exact_mod_cast c2
        exact lt_of_le_of_lt this two_pow_53_lt
      obtain ⟨r1, -⟩ := sub_finite ufin lfin
      refine ⟨by rw [hlo, el], by rw [hhi, eu], ?_⟩
      rw [hlo, hhi, r1, el, eu]
      have e2 : (k : ℚ) + 1 - (k - 1) = ((2 : ℕ) : ℚ) := by push_cast; ring
      rw [e2, cr_natCast 2 (by norm_num)]
      norm_num

set_option maxRecDepth 1000000 in
/-- C5, witness: the value 21, twice, has bounds 20 and 22 and range 2. -/
theorem getChartData_plot_range_witness :
    [(ofRat 21, (2 : Time)), (ofRat 21, 1)] ≠ [] ∧
    (∀ r ∈ [(ofRat 21, (2 : Time)), (ofRat 21, 1)], IsFinite r.1 ∧ |ext r.1| < 2 ^ 53) ∧
    ∃ p0 rest, (scanRows (fun _ => "") [(ofRat 21, (2 : Time)), (ofRat 21, 1)]).reverse
        = p0 :: rest ∧
      ext (plotMin p0 rest) = 20 ∧ ext (plotMax p0 rest) = 22 ∧
      ext (sub (plotMax p0 rest) (plotMin p0 rest)) = 2 := by
  have hb : ∀ r ∈ [(ofRat 21, (2 : Time)), (ofRat 21, 1)],
      IsFinite r.1 ∧ |ext r.1| < 2 ^ 53 := by decide!
  obtain ⟨cd, p0, rest, h1, -, -, -, -, h6⟩ := getChartData_plot_range (fun _ => "")
    [(ofRat 21, (2 : Time)), (ofRat 21, 1)] (by simp) hb
  have hv : ∀ r ∈ [(ofRat 21, (2 : Time)), (ofRat 21, 1)], r.1 = ofRat 21 := by simp
  have e21 : ext (ofRat 21) = ((21 : ℤ) : ℚ) := by decide!
  obtain ⟨a, b, c⟩ := (h6 (ofRat 21) hv).2.2.2.2 21 e21
  refine ⟨by simp, hb, p0, rest, h1, ?_, ?_, c⟩
  · rw [a]; norm_num
  · rw [b]; norm_num

end IotServer
